import Mathlib

/-!
Verification of the verdaccio-readme-fixer link rewriter.

The JavaScript source is shallowly embedded: document text is `List Char`,
the JavaScript string replacements `String.prototype.replaceAll` (every
leftmost non-overlapping occurrence of a literal search string) and
`String.prototype.replace` (first occurrence) become executable Lean
functions on character lists, including the GetSubstitution expansion of
dollar patterns in a string replacement; the literal-replacement variants
(suffix `Lit`), to which the faithful functions reduce when the
replacement contains no dollar, carry the proof machinery.  The
regular-expression scans used by the tool are modelled by executable
matchers that implement exactly the leftmost, non-overlapping semantics of
a global JavaScript regex for the two concrete patterns of the source.
-/

set_option maxHeartbeats 1000000
set_option maxRecDepth 8000

abbrev Str := List Char

/-- `List.isPrefixOf` agrees with the prefix relation (alias kept local). -/
theorem isPrefixOf_iff {a b : Str} : a.isPrefixOf b = true ↔ a <+: b :=
  List.isPrefixOf_iff_prefix

/-- A prefix of a list is in particular an infix of it. -/
theorem inf_of_pre {a b : Str} (h : a <+: b) : a <:+: b :=
  List.IsPrefix.isInfix h

/-- A suffix of a list is in particular an infix of it. -/
theorem inf_of_suf {a b : Str} (h : a <:+ b) : a <:+: b :=
  List.IsSuffix.isInfix h

/-- First-occurrence replacement with the replacement text inserted
literally: scan left to right, replace the first occurrence of `pat`,
leave the rest untouched.  `replaceFirst`, the faithful model of
`s.replace(pat, rep)`, reduces to this function when `rep` contains no
dollar. -/
def replaceFirstLit : Str → Str → Str → Str
  | [], _, _ => []
  | c :: s, pat, rep =>
    if pat ≠ [] ∧ pat.isPrefixOf (c :: s) then
      rep ++ List.drop (pat.length - 1) s
    else
      c :: replaceFirstLit s pat rep

/-- Fuel-driven worker for `replaceAllLit`; the fuel is an upper bound on the
length of the text still to scan, so the recursion is structural and the
function evaluates inside the kernel. -/
def replaceAllLitF : Nat → Str → Str → Str → Str
  | 0, s, _, _ => s
  | _ + 1, [], _, _ => []
  | fuel + 1, c :: s, pat, rep =>
    if pat ≠ [] ∧ pat.isPrefixOf (c :: s) then
      rep ++ replaceAllLitF fuel (List.drop (pat.length - 1) s) pat rep
    else
      c :: replaceAllLitF fuel s pat rep

/-- Every leftmost, non-overlapping occurrence of `pat` in `s` replaced
by the text `rep` inserted literally; replaced text is not rescanned.
`replaceAll`, the faithful model of `s.replaceAll(pat, rep)`, reduces to
this function when `rep` contains no dollar. -/
def replaceAllLit (s pat rep : Str) : Str := replaceAllLitF s.length s pat rep

/-- The GetSubstitution expansion of ECMA-262, as applied by
`String.prototype.replace` and `String.prototype.replaceAll` to a string
replacement even when the search argument is a plain string: `$$` yields
`$`, `$&` the matched text, `$` followed by the backquote character the
text before the match, `$'` the text after the match; with a string
search there are no capture groups, so every other character after `$`
(digits and `<` included) passes through literally, as does a trailing
lone `$`. -/
def getSubstitution (matched before after : Str) : Str → Str
  | [] => []
  | c :: rest =>
    if c = '$' then
      match rest with
      | [] => ['$']
      | d :: rest₂ =>
        if d = '$' then '$' :: getSubstitution matched before after rest₂
        else if d = '&' then matched ++ getSubstitution matched before after rest₂
        else if d = Char.ofNat 96 then
          before ++ getSubstitution matched before after rest₂
        else if d = '\'' then after ++ getSubstitution matched before after rest₂
        else '$' :: d :: getSubstitution matched before after rest₂
    else c :: getSubstitution matched before after rest

theorem getSubstitution_cons_ne (matched before after : Str) (c : Char)
    (rest : Str) (hc : c ≠ '$') :
    getSubstitution matched before after (c :: rest) =
      c :: getSubstitution matched before after rest := by
  rw [getSubstitution.eq_def]
  show (if c = '$' then
      match rest with
      | [] => ['$']
      | d :: rest₂ =>
        if d = '$' then '$' :: getSubstitution matched before after rest₂
        else if d = '&' then matched ++ getSubstitution matched before after rest₂
        else if d = Char.ofNat 96 then
          before ++ getSubstitution matched before after rest₂
        else if d = '\'' then after ++ getSubstitution matched before after rest₂
        else '$' :: d :: getSubstitution matched before after rest₂
    else c :: getSubstitution matched before after rest) = _
  rw [if_neg hc]

/-- A replacement without `$` is inserted as it stands. -/
theorem getSubstitution_no_dollar (matched before after : Str) :
    ∀ rep : Str, '$' ∉ rep → getSubstitution matched before after rep = rep := by
  intro rep
  induction rep with
  | nil => intro _; rfl
  | cons c rest ih =>
    intro h
    have hc : c ≠ '$' := fun hc => h (by rw [hc]; exact List.mem_cons_self _ _)
    rw [getSubstitution_cons_ne _ _ _ _ _ hc,
      ih (fun hm => h (List.mem_cons_of_mem _ hm))]

/-- Worker of the faithful `String.prototype.replace` model: `pre` is the
already scanned prefix of the original string, handed to GetSubstitution
as the text before the match. -/
def replaceFirstFrom : Str → Str → Str → Str → Str
  | _, [], _, _ => []
  | pre, c :: s, pat, rep =>
    if pat ≠ [] ∧ pat.isPrefixOf (c :: s) then
      getSubstitution pat pre (List.drop (pat.length - 1) s) rep ++
        List.drop (pat.length - 1) s
    else
      c :: replaceFirstFrom (pre ++ [c]) s pat rep

/-- Faithful model of `s.replace(pat, rep)` of JavaScript for a non-empty
literal search string: the first occurrence of `pat` is replaced by the
GetSubstitution expansion of `rep`. -/
def replaceFirst (s pat rep : Str) : Str := replaceFirstFrom [] s pat rep

/-- Fuel-driven worker of the faithful `String.prototype.replaceAll`
model; `pre` is the already scanned prefix of the original string. -/
def replaceAllFrom : Nat → Str → Str → Str → Str → Str
  | 0, _, s, _, _ => s
  | _ + 1, _, [], _, _ => []
  | fuel + 1, pre, c :: s, pat, rep =>
    if pat ≠ [] ∧ pat.isPrefixOf (c :: s) then
      getSubstitution pat pre (List.drop (pat.length - 1) s) rep ++
        replaceAllFrom fuel (pre ++ pat) (List.drop (pat.length - 1) s) pat rep
    else
      c :: replaceAllFrom fuel (pre ++ [c]) s pat rep

/-- Faithful model of `s.replaceAll(pat, rep)` of JavaScript for a
non-empty literal search string: every leftmost, non-overlapping
occurrence of `pat` is replaced by the GetSubstitution expansion of `rep`
at that occurrence, and replaced text is not rescanned. -/
def replaceAll (s pat rep : Str) : Str := replaceAllFrom s.length [] s pat rep

/-- With a dollar-free replacement the faithful first replacement is the
literal one. -/
theorem replaceFirstFrom_eq_lit {pat rep : Str} (h : '$' ∉ rep) :
    ∀ (s pre : Str), replaceFirstFrom pre s pat rep = replaceFirstLit s pat rep := by
  intro s
  induction s with
  | nil => intro pre; rfl
  | cons c s ih =>
    intro pre
    show (if pat ≠ [] ∧ pat.isPrefixOf (c :: s) then
        getSubstitution pat pre (List.drop (pat.length - 1) s) rep ++
          List.drop (pat.length - 1) s
      else c :: replaceFirstFrom (pre ++ [c]) s pat rep) = _
    rw [replaceFirstLit]
    by_cases hc : pat ≠ [] ∧ pat.isPrefixOf (c :: s)
    · rw [if_pos hc, if_pos hc, getSubstitution_no_dollar _ _ _ rep h]
    · rw [if_neg hc, if_neg hc, ih]

theorem replaceFirst_eq_lit {pat rep : Str} (h : '$' ∉ rep) (s : Str) :
    replaceFirst s pat rep = replaceFirstLit s pat rep :=
  replaceFirstFrom_eq_lit h s []

/-- With a dollar-free replacement the faithful global replacement is the
literal one. -/
theorem replaceAllFrom_eq_lit {pat rep : Str} (h : '$' ∉ rep) :
    ∀ (fuel : Nat) (s pre : Str),
      replaceAllFrom fuel pre s pat rep = replaceAllLitF fuel s pat rep := by
  intro fuel
  induction fuel with
  | zero => intro s pre; rfl
  | succ fuel ih =>
    intro s pre
    match s with
    | [] => rfl
    | c :: s =>
      show (if pat ≠ [] ∧ pat.isPrefixOf (c :: s) then
          getSubstitution pat pre (List.drop (pat.length - 1) s) rep ++
            replaceAllFrom fuel (pre ++ pat) (List.drop (pat.length - 1) s) pat rep
        else c :: replaceAllFrom fuel (pre ++ [c]) s pat rep) = _
      rw [replaceAllLitF]
      by_cases hc : pat ≠ [] ∧ pat.isPrefixOf (c :: s)
      · rw [if_pos hc, if_pos hc, getSubstitution_no_dollar _ _ _ rep h, ih]
      · rw [if_neg hc, if_neg hc, ih]

theorem replaceAll_eq_lit {pat rep : Str} (h : '$' ∉ rep) (s : Str) :
    replaceAll s pat rep = replaceAllLit s pat rep :=
  replaceAllFrom_eq_lit h s.length s []

theorem replaceAllLitF_fuel_irrel :
    ∀ f₁ f₂ s pat rep, s.length ≤ f₁ → s.length ≤ f₂ →
      replaceAllLitF f₁ s pat rep = replaceAllLitF f₂ s pat rep := by
  intro f₁
  induction f₁ using Nat.strong_induction_on with
  | _ f₁ ih =>
    intro f₂ s pat rep h₁ h₂
    match f₁, s with
    | 0, s =>
      have : s = [] := List.length_eq_zero.mp (Nat.le_zero.mp h₁)
      subst this
      cases f₂ <;> simp [replaceAllLitF]
    | f₁ + 1, [] =>
      cases f₂ <;> simp [replaceAllLitF]
    | f₁ + 1, c :: s =>
      match f₂ with
      | 0 => exact absurd h₂ (by simp)
      | f₂ + 1 =>
        simp only [replaceAllLitF]
        by_cases hp : pat ≠ [] ∧ pat.isPrefixOf (c :: s)
        · simp only [if_pos hp]
          congr 1
          have hds : (List.drop (pat.length - 1) s).length ≤ s.length := by
            simp [Nat.sub_le]
          exact ih f₁ (Nat.lt_succ_self _) f₂ _ pat rep
            (Nat.le_trans hds (Nat.le_of_succ_le_succ h₁))
            (Nat.le_trans hds (Nat.le_of_succ_le_succ h₂))
        · simp only [if_neg hp]
          congr 1
          exact ih f₁ (Nat.lt_succ_self _) f₂ s pat rep
            (Nat.le_of_succ_le_succ h₁) (Nat.le_of_succ_le_succ h₂)

theorem replaceAllLit_nil (pat rep : Str) : replaceAllLit [] pat rep = [] := rfl

theorem replaceAllLit_cons_neg {pat : Str} (c : Char) (s rep : Str)
    (h : ¬ pat.isPrefixOf (c :: s)) :
    replaceAllLit (c :: s) pat rep = c :: replaceAllLit s pat rep := by
  unfold replaceAllLit
  simp only [List.length_cons, replaceAllLitF, h, and_false, if_neg, not_false_iff]
  simp

theorem replaceAllLit_cons_of_ne_nil {pat : Str} (hpat : pat = [] → False)
    (c : Char) (s rep : Str) (h : pat.isPrefixOf (c :: s)) :
    replaceAllLit (c :: s) pat rep =
      rep ++ replaceAllLit (List.drop (pat.length - 1) s) pat rep := by
  unfold replaceAllLit
  have hcond : pat ≠ [] ∧ pat.isPrefixOf (c :: s) := ⟨hpat, h⟩
  simp only [List.length_cons, replaceAllLitF, if_pos hcond]
  congr 1
  exact replaceAllLitF_fuel_irrel _ _ _ pat rep (by simp [Nat.sub_le]) (Nat.le_refl _)

theorem replaceAllLit_append_self {pat : Str} (hpat : pat ≠ []) (tail rep : Str) :
    replaceAllLit (pat ++ tail) pat rep = rep ++ replaceAllLit tail pat rep := by
  match pat, hpat with
  | p :: pat, _ =>
    have hpre : (p :: pat).isPrefixOf ((p :: pat) ++ tail) := by
      rw [isPrefixOf_iff]
      exact List.prefix_append _ _
    rw [List.cons_append, replaceAllLit_cons_of_ne_nil (by simp) p (pat ++ tail) rep
      (by rw [← List.cons_append]; exact hpre)]
    congr 2
    simp

theorem prefix_of_append_of_le {pat a b : Str} (h : pat <+: a ++ b)
    (hlen : pat.length ≤ a.length) : pat <+: a := by
  have h₁ : pat = (a ++ b).take pat.length := by
    obtain ⟨t, ht⟩ := h
    rw [← ht]
    simp
  rw [h₁, List.take_append_of_le_length hlen]
  exact List.take_prefix _ _

theorem replaceAllLit_skip {pat : Str} (rep : Str) :
    ∀ a b : Str, (∀ i, i < a.length → ¬ pat <+: (a ++ b).drop i) →
      replaceAllLit (a ++ b) pat rep = a ++ replaceAllLit b pat rep
  | [], b, _ => by simp
  | c :: a, b, h => by
    have h0 : ¬ pat <+: c :: (a ++ b) := by
      have := h 0 (by simp)
      simpa using this
    rw [List.cons_append, replaceAllLit_cons_neg c (a ++ b) rep
      (fun hb => h0 (isPrefixOf_iff.mp hb))]
    rw [replaceAllLit_skip rep a b (fun i hi => by
      have := h (i + 1) (by simpa using Nat.succ_lt_succ hi)
      simpa using this)]
    simp

theorem replaceAllLit_split {pat : Str} (hpat : pat ≠ []) (rep : Str) :
    ∀ (n : Nat) (a b : Str), a.length ≤ n →
      (∀ i, i < a.length → pat <+: (a ++ b).drop i → pat.length + i ≤ a.length) →
      replaceAllLit (a ++ b) pat rep = replaceAllLit a pat rep ++ replaceAllLit b pat rep := by
  intro n
  induction n with
  | zero =>
    intro a b hlen _
    have : a = [] := List.length_eq_zero.mp (Nat.le_zero.mp hlen)
    subst this
    simp [replaceAllLit_nil]
  | succ n ih =>
    intro a b hlen h
    match a with
    | [] => simp [replaceAllLit_nil]
    | c :: a =>
      by_cases hp : pat <+: (c :: a) ++ b
      · have hfit : pat.length ≤ (c :: a).length := by
          have := h 0 (by simp) (by simpa using hp)
          simpa using this
        have hpa : pat <+: c :: a := prefix_of_append_of_le hp hfit
        obtain ⟨t, ht⟩ := hpa
        have hL : replaceAllLit ((c :: a) ++ b) pat rep =
            rep ++ replaceAllLit (t ++ b) pat rep := by
          rw [← ht, List.append_assoc]
          exact replaceAllLit_append_self hpat (t ++ b) rep
        have hR : replaceAllLit (c :: a) pat rep = rep ++ replaceAllLit t pat rep := by
          rw [← ht]
          exact replaceAllLit_append_self hpat t rep
        rw [hL, hR, List.append_assoc]
        congr 1
        have htlen : t.length ≤ n := by
          have h₁ : pat.length + t.length = (c :: a).length := by
            rw [← ht]; simp
          have h₂ : 1 ≤ pat.length := by
            cases pat with
            | nil => exact absurd rfl hpat
            | cons p ps => simp
          omega
        refine ih t b htlen (fun i hi hip => ?_)
        have hdrop : (t ++ b).drop i = ((c :: a) ++ b).drop (pat.length + i) := by
          rw [← ht, List.append_assoc, List.drop_append]
        have hlt : pat.length + i < (c :: a).length := by
          have h₁ : pat.length + t.length = (c :: a).length := by
            rw [← ht]; simp
          omega
        have := h (pat.length + i) hlt (by rw [← hdrop]; exact hip)
        have h₁ : pat.length + t.length = (c :: a).length := by
          rw [← ht]; simp
        omega
      · have h0 : ¬ pat <+: c :: (a ++ b) := by simp only [List.cons_append] at hp ⊢; exact hp
        rw [List.cons_append, replaceAllLit_cons_neg c (a ++ b) rep
          (fun hb => h0 (isPrefixOf_iff.mp hb))]
        have h0a : ¬ pat <+: c :: a := by
          intro hc
          refine h0 (hc.trans ?_)
          simp
        rw [replaceAllLit_cons_neg c a rep
          (fun hb => h0a (isPrefixOf_iff.mp hb))]
        rw [ih a b (Nat.le_of_succ_le_succ hlen) (fun i hi hip => by
          have := h (i + 1) (by simpa using Nat.succ_lt_succ hi)
            (by simpa using hip)
          simp only [List.length_cons] at this
          omega)]
        simp

/-- Fuel-driven worker for `splitAll`; mirrors the recursion of
`replaceAllLitF` but collects the text between occurrences of the search
string instead of substituting them. -/
def splitAllF : Nat → Str → Str → List Str
  | 0, s, _ => [s]
  | _ + 1, [], _ => [[]]
  | fuel + 1, c :: s, pat =>
    if pat ≠ [] ∧ pat.isPrefixOf (c :: s) then
      [] :: splitAllF fuel (List.drop (pat.length - 1) s) pat
    else
      match splitAllF fuel s pat with
      | [] => [[c]]
      | u :: us => (c :: u) :: us

/-- Chunks of `s` between the leftmost, non-overlapping occurrences of
`pat`; `replaceAllLit` is `joinSep rep` of these chunks. -/
def splitAll (s pat : Str) : List Str := splitAllF s.length s pat

/-- Joins a list of chunks, inserting the separator between chunks. -/
def joinSep (sep : Str) : List Str → Str
  | [] => []
  | [u] => u
  | u :: us => u ++ sep ++ joinSep sep us

theorem joinSep_cons_cons (sep u : Str) (v : Str) (us : List Str) :
    joinSep sep (u :: v :: us) = u ++ sep ++ joinSep sep (v :: us) := rfl

theorem splitAllF_cons (fuel : Nat) (c : Char) (s pat : Str) :
    splitAllF (fuel + 1) (c :: s) pat =
      if pat ≠ [] ∧ pat.isPrefixOf (c :: s) then
        [] :: splitAllF fuel (List.drop (pat.length - 1) s) pat
      else
        match splitAllF fuel s pat with
        | [] => [[c]]
        | u :: us => (c :: u) :: us := rfl

theorem replaceAllLitF_cons (fuel : Nat) (c : Char) (s pat rep : Str) :
    replaceAllLitF (fuel + 1) (c :: s) pat rep =
      if pat ≠ [] ∧ pat.isPrefixOf (c :: s) then
        rep ++ replaceAllLitF fuel (List.drop (pat.length - 1) s) pat rep
      else
        c :: replaceAllLitF fuel s pat rep := rfl

theorem joinSep_cons_head (sep : Str) (c : Char) (u : Str) (us : List Str) :
    joinSep sep ((c :: u) :: us) = c :: joinSep sep (u :: us) := by
  cases us with
  | nil => rfl
  | cons v us => simp [joinSep_cons_cons]

theorem splitAllF_ne_nil : ∀ (fuel : Nat) (s pat : Str), splitAllF fuel s pat ≠ [] := by
  intro fuel s pat
  match fuel, s with
  | 0, s => simp [splitAllF]
  | _ + 1, [] => simp [splitAllF]
  | fuel + 1, c :: s =>
    rw [splitAllF_cons]
    by_cases hp : pat ≠ [] ∧ pat.isPrefixOf (c :: s)
    · rw [if_pos hp]
      simp
    · rw [if_neg hp]
      match splitAllF fuel s pat with
      | [] => simp
      | u :: us => simp

theorem splitAllF_joinSep :
    ∀ (fuel : Nat) (s pat : Str), s.length ≤ fuel →
      joinSep pat (splitAllF fuel s pat) = s := by
  intro fuel
  induction fuel using Nat.strong_induction_on with
  | _ fuel ih =>
    intro s pat hlen
    match fuel, s with
    | 0, s =>
      have : s = [] := List.length_eq_zero.mp (Nat.le_zero.mp hlen)
      subst this
      rfl
    | fuel + 1, [] => rfl
    | fuel + 1, c :: s =>
      rw [splitAllF_cons]
      by_cases hp : pat ≠ [] ∧ pat.isPrefixOf (c :: s)
      · rw [if_pos hp]
        obtain ⟨hne, hpre⟩ := hp
        obtain ⟨t, ht⟩ := isPrefixOf_iff.mp hpre
        have hrest : splitAllF fuel (List.drop (pat.length - 1) s) pat ≠ [] :=
          splitAllF_ne_nil fuel _ pat
        have hdrop : List.drop (pat.length - 1) s = t := by
          have h₁ : List.drop pat.length (c :: s) = t := by
            rw [← ht, List.drop_append_of_le_length (Nat.le_refl _)]
            simp
          have h₂ : 1 ≤ pat.length := by
            cases pat with
            | nil => exact absurd rfl hne
            | cons p ps => simp
          rw [← h₁]
          cases pat with
          | nil => exact absurd rfl hne
          | cons p ps => simp
        match hsp : splitAllF fuel (List.drop (pat.length - 1) s) pat with
        | [] => exact absurd hsp hrest
        | u :: us =>
          rw [joinSep_cons_cons]
          have := ih fuel (Nat.lt_succ_self _) (List.drop (pat.length - 1) s) pat
            (by
              have : (List.drop (pat.length - 1) s).length ≤ s.length := by
                simp [Nat.sub_le]
              exact Nat.le_trans this (Nat.le_of_succ_le_succ hlen))
          rw [hsp] at this
          rw [this, hdrop, List.nil_append, ht]
      · rw [if_neg hp]
        have hne := splitAllF_ne_nil fuel s pat
        match hsp : splitAllF fuel s pat with
        | [] => exact absurd hsp hne
        | u :: us =>
          rw [joinSep_cons_head]
          have := ih fuel (Nat.lt_succ_self _) s pat (Nat.le_of_succ_le_succ hlen)
          rw [hsp] at this
          rw [this]

theorem splitAll_joinSep (s pat : Str) : joinSep pat (splitAll s pat) = s :=
  splitAllF_joinSep s.length s pat (Nat.le_refl _)

theorem replaceAllLitF_eq_joinSep :
    ∀ (fuel : Nat) (s pat rep : Str), s.length ≤ fuel →
      replaceAllLitF fuel s pat rep = joinSep rep (splitAllF fuel s pat) := by
  intro fuel
  induction fuel using Nat.strong_induction_on with
  | _ fuel ih =>
    intro s pat rep hlen
    match fuel, s with
    | 0, s =>
      have : s = [] := List.length_eq_zero.mp (Nat.le_zero.mp hlen)
      subst this
      rfl
    | fuel + 1, [] => rfl
    | fuel + 1, c :: s =>
      rw [replaceAllLitF_cons, splitAllF_cons]
      by_cases hp : pat ≠ [] ∧ pat.isPrefixOf (c :: s)
      · rw [if_pos hp, if_pos hp]
        have hrest : splitAllF fuel (List.drop (pat.length - 1) s) pat ≠ [] :=
          splitAllF_ne_nil fuel _ pat
        match hsp : splitAllF fuel (List.drop (pat.length - 1) s) pat with
        | [] => exact absurd hsp hrest
        | u :: us =>
          rw [joinSep_cons_cons]
          have := ih fuel (Nat.lt_succ_self _) (List.drop (pat.length - 1) s) pat rep
            (by
              have : (List.drop (pat.length - 1) s).length ≤ s.length := by
                simp [Nat.sub_le]
              exact Nat.le_trans this (Nat.le_of_succ_le_succ hlen))
          rw [hsp] at this
          rw [this]
          simp
      · rw [if_neg hp, if_neg hp]
        have hne := splitAllF_ne_nil fuel s pat
        match hsp : splitAllF fuel s pat with
        | [] => exact absurd hsp hne
        | u :: us =>
          rw [joinSep_cons_head]
          have := ih fuel (Nat.lt_succ_self _) s pat rep (Nat.le_of_succ_le_succ hlen)
          rw [hsp] at this
          rw [this]

theorem replaceAllLit_eq_joinSep (s pat rep : Str) :
    replaceAllLit s pat rep = joinSep rep (splitAll s pat) :=
  replaceAllLitF_eq_joinSep s.length s pat rep (Nat.le_refl _)

theorem replaceFirstLit_nil (pat rep : Str) : replaceFirstLit [] pat rep = [] := rfl

theorem replaceFirstLit_cons (c : Char) (s pat rep : Str) :
    replaceFirstLit (c :: s) pat rep =
      if pat ≠ [] ∧ pat.isPrefixOf (c :: s) then
        rep ++ List.drop (pat.length - 1) s
      else
        c :: replaceFirstLit s pat rep := rfl

theorem replaceFirstLit_append_self {pat : Str} (hpat : pat ≠ []) (tail rep : Str) :
    replaceFirstLit (pat ++ tail) pat rep = rep ++ tail := by
  match pat, hpat with
  | p :: pat, _ =>
    rw [List.cons_append, replaceFirstLit_cons]
    rw [if_pos ⟨by simp, by
      rw [isPrefixOf_iff, ← List.cons_append]
      exact List.prefix_append _ _⟩]
    simp

theorem replaceFirstLit_of_infix {pat : Str} (hpat : pat ≠ []) (rep : Str) :
    ∀ s : Str, pat <:+: s →
      ∃ a b, s = a ++ pat ++ b ∧ replaceFirstLit s pat rep = a ++ rep ++ b := by
  intro s
  induction s with
  | nil =>
    intro h
    have : pat = [] := List.eq_nil_of_infix_nil h
    exact absurd this hpat
  | cons c s ih =>
    intro h
    by_cases hp : pat <+: c :: s
    · obtain ⟨t, ht⟩ := hp
      refine ⟨[], t, by simp [← ht], ?_⟩
      rw [← ht, replaceFirstLit_append_self hpat t rep]
      simp
    · have hs : pat <:+: s := by
        rcases List.infix_cons_iff.mp h with h₁ | h₁
        · exact absurd h₁ hp
        · exact h₁
      obtain ⟨a, b, hab, hr⟩ := ih hs
      refine ⟨c :: a, b, by simp [hab], ?_⟩
      rw [replaceFirstLit_cons, if_neg (fun hc => hp (isPrefixOf_iff.mp hc.2)), hr]
      simp

theorem replaceFirstLit_skip {pat : Str} (rep : Str) :
    ∀ a b : Str, (∀ i, i < a.length → ¬ pat <+: (a ++ b).drop i) →
      replaceFirstLit (a ++ b) pat rep = a ++ replaceFirstLit b pat rep
  | [], b, _ => by simp
  | c :: a, b, h => by
    have h0 : ¬ pat <+: c :: (a ++ b) := by
      have := h 0 (by simp)
      simpa using this
    rw [List.cons_append, replaceFirstLit_cons,
      if_neg (fun hc => h0 (isPrefixOf_iff.mp hc.2))]
    rw [replaceFirstLit_skip rep a b (fun i hi => by
      have := h (i + 1) (by simpa using Nat.succ_lt_succ hi)
      simpa using this)]
    simp

/-- Decimal digit characters, as produced by the JavaScript number to
string conversion used in `String(i)`. -/
def digitChar : Nat → Char
  | 0 => '0' | 1 => '1' | 2 => '2' | 3 => '3' | 4 => '4'
  | 5 => '5' | 6 => '6' | 7 => '7' | 8 => '8' | 9 => '9'
  | _ => '*'

/-- Fuel-driven worker producing the decimal digit characters of a natural
number, most significant digit first; models `String(i)` of JavaScript for
a natural number argument. -/
def natCharsF : Nat → Nat → Str
  | 0, _ => []
  | f + 1, n =>
    if n < 10 then [digitChar n]
    else natCharsF f (n / 10) ++ [digitChar (n % 10)]

def natChars (n : Nat) : Str := natCharsF (n + 1) n

theorem natCharsF_succ (f n : Nat) :
    natCharsF (f + 1) n =
      if n < 10 then [digitChar n]
      else natCharsF f (n / 10) ++ [digitChar (n % 10)] := rfl

theorem natCharsF_fuel_irrel :
    ∀ f₁ f₂ n, n < f₁ → n < f₂ → natCharsF f₁ n = natCharsF f₂ n := by
  intro f₁
  induction f₁ using Nat.strong_induction_on with
  | _ f₁ ih =>
    intro f₂ n h₁ h₂
    match f₁, f₂ with
    | 0, _ => omega
    | _ + 1, 0 => omega
    | f₁ + 1, f₂ + 1 =>
      rw [natCharsF_succ, natCharsF_succ]
      by_cases hn : n < 10
      · rw [if_pos hn, if_pos hn]
      · rw [if_neg hn, if_neg hn]
        congr 1
        exact ih f₁ (Nat.lt_succ_self _) f₂ (n / 10) (by omega)
          (by
            have : n / 10 < n := Nat.div_lt_self (by omega) (by omega)
            omega)

theorem natChars_of_lt_ten {n : Nat} (h : n < 10) : natChars n = [digitChar n] := by
  unfold natChars
  rw [natCharsF_succ, if_pos h]

theorem natChars_of_two_digits {n : Nat} (h₁ : 10 ≤ n) (h₂ : n < 100) :
    natChars n = [digitChar (n / 10), digitChar (n % 10)] := by
  unfold natChars
  rw [natCharsF_succ, if_neg (by omega)]
  have hf : natCharsF n (n / 10) = natCharsF (n / 10 + 1) (n / 10) := by
    refine natCharsF_fuel_irrel n (n / 10 + 1) (n / 10) ?_ (Nat.lt_succ_self _)
    have : n / 10 < n := Nat.div_lt_self (by omega) (by omega)
    omega
  rw [hf, natCharsF_succ, if_pos (by omega)]
  rfl

theorem digitChar_toNat {k : Nat} (h : k < 10) : (digitChar k).toNat = 48 + k := by
  interval_cases k <;> rfl

theorem digitChar_is_digit {k : Nat} (h : k < 10) :
    48 ≤ (digitChar k).toNat ∧ (digitChar k).toNat ≤ 57 := by
  rw [digitChar_toNat h]
  omega

theorem natCharsF_digits :
    ∀ (f n : Nat), ∀ c ∈ natCharsF f n, 48 ≤ c.toNat ∧ c.toNat ≤ 57 := by
  intro f
  induction f with
  | zero => intro n c hc; simp [natCharsF] at hc
  | succ f ih =>
    intro n c hc
    rw [natCharsF_succ] at hc
    by_cases hn : n < 10
    · rw [if_pos hn] at hc
      simp only [List.mem_singleton] at hc
      subst hc
      exact digitChar_is_digit hn
    · rw [if_neg hn] at hc
      rcases List.mem_append.mp hc with h | h
      · exact ih _ c h
      · simp only [List.mem_singleton] at h
        subst h
        exact digitChar_is_digit (Nat.mod_lt _ (by omega))

/-- Zero-padded two-digit index text; models `String(i).padStart(2, '0')`
from `encodeTags`. -/
def padTwo (n : Nat) : Str :=
  let d := natChars n
  if d.length < 2 then List.replicate (2 - d.length) '0' ++ d else d

theorem padTwo_of_lt_ten {n : Nat} (h : n < 10) :
    padTwo n = ['0', digitChar n] := by
  unfold padTwo
  rw [natChars_of_lt_ten h]
  rfl

theorem padTwo_of_two_digits {n : Nat} (h₁ : 10 ≤ n) (h₂ : n < 100) :
    padTwo n = [digitChar (n / 10), digitChar (n % 10)] := by
  unfold padTwo
  rw [natChars_of_two_digits h₁ h₂]
  rfl

theorem padTwo_length {n : Nat} (h : n < 100) : (padTwo n).length = 2 := by
  by_cases h₁ : n < 10
  · rw [padTwo_of_lt_ten h₁]; rfl
  · rw [padTwo_of_two_digits (by omega) h]; rfl

theorem padTwo_digits (n : Nat) : ∀ c ∈ padTwo n, 48 ≤ c.toNat ∧ c.toNat ≤ 57 := by
  intro c hc
  unfold padTwo at hc
  by_cases h : (natChars n).length < 2
  · rw [if_pos h] at hc
    rcases List.mem_append.mp hc with h₁ | h₁
    · have : c = '0' := List.eq_of_mem_replicate h₁
      subst this
      exact ⟨by decide, by decide⟩
    · exact natCharsF_digits _ _ c h₁
  · rw [if_neg h] at hc
    exact natCharsF_digits _ _ c hc

theorem padTwo_inj {m n : Nat} (hm : m < 100) (hn : n < 100)
    (h : padTwo m = padTwo n) : m = n := by
  by_cases h₁ : m < 10 <;> by_cases h₂ : n < 10
  · rw [padTwo_of_lt_ten h₁, padTwo_of_lt_ten h₂] at h
    have := List.cons.injEq .. ▸ h
    have hd : digitChar m = digitChar n := by
      injection h with _ h₃
      injection h₃ with h₄ _
    have := congrArg Char.toNat hd
    rw [digitChar_toNat h₁, digitChar_toNat h₂] at this
    omega
  · rw [padTwo_of_lt_ten h₁, padTwo_of_two_digits (by omega) hn] at h
    have hd : '0' = digitChar (n / 10) := by
      injection h
    have := congrArg Char.toNat hd
    rw [digitChar_toNat (by omega : n / 10 < 10)] at this
    have h0 : ('0' : Char).toNat = 48 := rfl
    rw [h0] at this
    omega
  · rw [padTwo_of_two_digits (by omega) hm, padTwo_of_lt_ten h₂] at h
    have hd : digitChar (m / 10) = '0' := by
      injection h
    have := congrArg Char.toNat hd
    rw [digitChar_toNat (by omega : m / 10 < 10)] at this
    have h0 : ('0' : Char).toNat = 48 := rfl
    rw [h0] at this
    omega
  · rw [padTwo_of_two_digits (by omega) hm, padTwo_of_two_digits (by omega) hn] at h
    have hd1 : digitChar (m / 10) = digitChar (n / 10) := by
      injection h
    have hd2 : digitChar (m % 10) = digitChar (n % 10) := by
      injection h with _ h₃
      injection h₃
    have e1 := congrArg Char.toNat hd1
    have e2 := congrArg Char.toNat hd2
    rw [digitChar_toNat (by omega : m / 10 < 10),
      digitChar_toNat (by omega : n / 10 < 10)] at e1
    rw [digitChar_toNat (Nat.mod_lt _ (by omega) : m % 10 < 10),
      digitChar_toNat (Nat.mod_lt _ (by omega) : n % 10 < 10)] at e2
    omega

/-- Marker head text `!TAG!`; every marker generated by `encodeTags`
starts with these five characters. -/
def bangTag : Str := ['!', 'T', 'A', 'G', '!']

/-- Marker generated by `encodeTags` for match index `i`: the fixed head
`!TAG!`, the category text `tagPref`, and the zero-padded index. -/
def tagOf (pref : Str) (i : Nat) : Str :=
  '!' :: 'T' :: 'A' :: 'G' :: '!' :: (pref ++ padTwo i)

theorem tagOf_eq_bangTag_append (pref : Str) (i : Nat) :
    tagOf pref i = bangTag ++ (pref ++ padTwo i) := rfl

theorem tagOf_length {pref : Str} {i : Nat} (h : i < 100) :
    (tagOf pref i).length = 7 + pref.length := by
  unfold tagOf
  simp [padTwo_length h]
  omega

theorem tagOf_inj {pref : Str} {i j : Nat} (hi : i < 100) (hj : j < 100)
    (h : tagOf pref i = tagOf pref j) : i = j := by
  unfold tagOf at h
  have h₁ : pref ++ padTwo i = pref ++ padTwo j := by
    repeat injection h with _ h
  exact padTwo_inj hi hj (List.append_cancel_left h₁)

/-- Character class of every character that can occur in a marker with
category text `pref`: the fixed characters of `!TAG!`, the characters of
`pref`, and decimal digits. -/
def isTagCharB (pref : Str) (c : Char) : Bool :=
  c = '!' || c = 'T' || c = 'A' || c = 'G' || pref.contains c ||
    (48 ≤ c.toNat && c.toNat ≤ 57)

theorem tagOf_chars (pref : Str) (i : Nat) :
    ∀ c ∈ tagOf pref i, isTagCharB pref c = true := by
  intro c hc
  unfold tagOf at hc
  unfold isTagCharB
  simp only [List.mem_cons, List.mem_append] at hc
  rcases hc with h | h | h | h | h | h | h
  · subst h; rfl
  · subst h; rfl
  · subst h; rfl
  · subst h; rfl
  · subst h; rfl
  · simp only [Bool.or_eq_true]
    exact Or.inl (Or.inr (List.elem_eq_true_of_mem h))
  · simp only [Bool.or_eq_true]
    refine Or.inr ?_
    have := padTwo_digits i c h
    simp only [Bool.and_eq_true, decide_eq_true_eq]
    omega

/-- Abstract model of one global regular expression, as consumed by
`encodeTags`: `find` returns the leftmost match in the given text, split
into the text before the match, the matched text, and the text after the
match.  The well-formedness fields record that the three parts reassemble
the input and that a match is never empty; both hold for every expression
used by the source. -/
structure GPattern where
  find : Str → Option (Str × Str × Str)
  find_decomp : ∀ s a m b, find s = some (a, m, b) → s = a ++ m ++ b
  find_ne_nil : ∀ s a m b, find s = some (a, m, b) → m ≠ []

/-- Generic leftmost scan: tries the position matcher `tryAt` at every
position from the left and returns the first success, exactly as a
JavaScript regular expression engine locates its leftmost match. -/
def findFirst (tryAt : Str → Option (Str × Str)) : Str → Option (Str × Str × Str)
  | [] => none
  | c :: s =>
    match tryAt (c :: s) with
    | some (m, rest) => some ([], m, rest)
    | none =>
      match findFirst tryAt s with
      | some (a, m, rest) => some (c :: a, m, rest)
      | none => none

theorem findFirst_decomp {tryAt : Str → Option (Str × Str)}
    (hdec : ∀ s m rest, tryAt s = some (m, rest) → s = m ++ rest) :
    ∀ s a m b, findFirst tryAt s = some (a, m, b) → s = a ++ m ++ b := by
  intro s
  induction s with
  | nil => intro a m b h; simp [findFirst] at h
  | cons c s ih =>
    intro a m b h
    simp only [findFirst] at h
    match htry : tryAt (c :: s) with
    | some (m₀, rest₀) =>
      rw [htry] at h
      simp only [Option.some.injEq, Prod.mk.injEq] at h
      obtain ⟨h₁, h₂, h₃⟩ := h
      subst h₁; subst h₂; subst h₃
      simpa using hdec _ _ _ htry
    | none =>
      rw [htry] at h
      match hff : findFirst tryAt s with
      | some (a₀, m₀, rest₀) =>
        rw [hff] at h
        simp only [Option.some.injEq, Prod.mk.injEq] at h
        obtain ⟨h₁, h₂, h₃⟩ := h
        subst h₁; subst h₂; subst h₃
        have := ih _ _ _ hff
        simp [this]
      | none => rw [hff] at h; exact absurd h (by simp)

theorem findFirst_prop {tryAt : Str → Option (Str × Str)} {P : Str → Prop}
    (hP : ∀ s m rest, tryAt s = some (m, rest) → P m) :
    ∀ s a m b, findFirst tryAt s = some (a, m, b) → P m := by
  intro s
  induction s with
  | nil => intro a m b h; simp [findFirst] at h
  | cons c s ih =>
    intro a m b h
    simp only [findFirst] at h
    match htry : tryAt (c :: s) with
    | some (m₀, rest₀) =>
      rw [htry] at h
      simp only [Option.some.injEq, Prod.mk.injEq] at h
      obtain ⟨h₁, h₂, h₃⟩ := h
      subst h₂
      exact hP _ _ _ htry
    | none =>
      rw [htry] at h
      match hff : findFirst tryAt s with
      | some (a₀, m₀, rest₀) =>
        rw [hff] at h
        simp only [Option.some.injEq, Prod.mk.injEq] at h
        obtain ⟨h₁, h₂, h₃⟩ := h
        subst h₂
        exact ih _ _ _ hff
      | none => rw [hff] at h; exact absurd h (by simp)

/-- Fuel-driven worker computing the list of matches of one global
regular expression, scanning from the end of the previous match, exactly
as `rawContent.match(regex)` of JavaScript does for a global expression
without capture groups. -/
def matchesOfF (p : GPattern) : Nat → Str → List Str
  | 0, _ => []
  | fuel + 1, s =>
    match p.find s with
    | none => []
    | some (_, m, b) => m :: matchesOfF p fuel b

/-- List of matched texts of `rawContent.match(regex)` for a global
expression. -/
def matchesOf (p : GPattern) (s : Str) : List Str := matchesOfF p (s.length + 1) s

theorem length_lt_of_find {p : GPattern} {s a m b : Str}
    (h : p.find s = some (a, m, b)) : b.length < s.length := by
  have hd := p.find_decomp s a m b h
  have hm := p.find_ne_nil s a m b h
  subst hd
  have : 1 ≤ m.length := by
    cases m with
    | nil => exact absurd rfl hm
    | cons x xs => simp
  simp only [List.length_append]
  omega

theorem matchesOfF_fuel_irrel (p : GPattern) :
    ∀ f₁ f₂ s, s.length < f₁ → s.length < f₂ →
      matchesOfF p f₁ s = matchesOfF p f₂ s := by
  intro f₁
  induction f₁ using Nat.strong_induction_on with
  | _ f₁ ih =>
    intro f₂ s h₁ h₂
    match f₁, f₂ with
    | 0, _ => omega
    | _ + 1, 0 => omega
    | f₁ + 1, f₂ + 1 =>
      show (match p.find s with
        | none => []
        | some (_, m, b) => m :: matchesOfF p f₁ b) =
        (match p.find s with
        | none => []
        | some (_, m, b) => m :: matchesOfF p f₂ b)
      match hf : p.find s with
      | none => rfl
      | some (a, m, b) =>
        have hb := length_lt_of_find hf
        simp only []
        congr 1
        exact ih f₁ (Nat.lt_succ_self _) f₂ b (by omega) (by omega)

theorem matchesOf_eq_find (p : GPattern) (s : Str) :
    matchesOf p s =
      match p.find s with
      | none => []
      | some (_, m, b) => m :: matchesOf p b := by
  unfold matchesOf
  show (match p.find s with
    | none => []
    | some (_, m, b) => m :: matchesOfF p s.length b) = _
  match hf : p.find s with
  | none => rfl
  | some (a, m, b) =>
    have hb := length_lt_of_find hf
    show m :: matchesOfF p s.length b = m :: matchesOfF p (b.length + 1) b
    congr 1
    exact matchesOfF_fuel_irrel p s.length (b.length + 1) b (by omega)
      (Nat.lt_succ_self _)

theorem matchesOf_nil (p : GPattern) : matchesOf p [] = [] := by
  rw [matchesOf_eq_find]
  match hf : p.find [] with
  | none => rfl
  | some (a, m, b) =>
    have hd := p.find_decomp [] a m b hf
    have hm := p.find_ne_nil [] a m b hf
    have hlen := congrArg List.length hd
    simp only [List.length_nil, List.length_append] at hlen
    have : m = [] := List.length_eq_zero.mp (by omega)
    exact absurd this hm

theorem matchesOf_inf (p : GPattern) :
    ∀ (n : Nat) (s : Str), s.length ≤ n → ∀ m ∈ matchesOf p s, m <:+: s := by
  intro n
  induction n with
  | zero =>
    intro s hlen m hm
    have : s = [] := List.length_eq_zero.mp (Nat.le_zero.mp hlen)
    subst this
    rw [matchesOf_nil] at hm
    exact absurd hm (List.not_mem_nil m)
  | succ n ih =>
    intro s hlen m hm
    rw [matchesOf_eq_find] at hm
    match hf : p.find s with
    | none =>
      rw [hf] at hm
      exact absurd hm (List.not_mem_nil m)
    | some (a, m₀, b) =>
      rw [hf] at hm
      simp only [List.mem_cons] at hm
      have hd := p.find_decomp s a m₀ b hf
      rcases hm with hm | hm
      · subst hm
        rw [hd]
        exact ⟨a, b, by simp⟩
      · have hb := length_lt_of_find hf
        have := ih b (by omega) m hm
        refine this.trans ?_
        rw [hd]
        exact ⟨a ++ m₀, [], by simp⟩

theorem matchesOf_ne_nil (p : GPattern) :
    ∀ (n : Nat) (s : Str), s.length ≤ n → ∀ m ∈ matchesOf p s, m ≠ [] := by
  intro n
  induction n with
  | zero =>
    intro s hlen m hm
    have : s = [] := List.length_eq_zero.mp (Nat.le_zero.mp hlen)
    subst this
    rw [matchesOf_nil] at hm
    exact absurd hm (List.not_mem_nil m)
  | succ n ih =>
    intro s hlen m hm
    rw [matchesOf_eq_find] at hm
    match hf : p.find s with
    | none =>
      rw [hf] at hm
      exact absurd hm (List.not_mem_nil m)
    | some (a, m₀, b) =>
      rw [hf] at hm
      simp only [List.mem_cons] at hm
      rcases hm with hm | hm
      · subst hm
        exact p.find_ne_nil s a _ b hf
      · have hb := length_lt_of_find hf
        exact ih b (by omega) m hm

theorem matchesOf_prop (p : GPattern) {P : Str → Prop}
    (hP : ∀ s a m b, p.find s = some (a, m, b) → P m) :
    ∀ (n : Nat) (s : Str), s.length ≤ n → ∀ m ∈ matchesOf p s, P m := by
  intro n
  induction n with
  | zero =>
    intro s hlen m hm
    have : s = [] := List.length_eq_zero.mp (Nat.le_zero.mp hlen)
    subst this
    rw [matchesOf_nil] at hm
    exact absurd hm (List.not_mem_nil m)
  | succ n ih =>
    intro s hlen m hm
    rw [matchesOf_eq_find] at hm
    match hf : p.find s with
    | none =>
      rw [hf] at hm
      exact absurd hm (List.not_mem_nil m)
    | some (a, m₀, b) =>
      rw [hf] at hm
      simp only [List.mem_cons] at hm
      rcases hm with hm | hm
      · subst hm; exact hP _ _ _ _ hf
      · have hb := length_lt_of_find hf
        exact ih b (by omega) m hm

/-- Character class `[^\]\n\r]` of the link label in the expression
`\[[^\]\n\r]+\]\(#[^)\n\r]+\)` from `encodeTagsLinks`. -/
def labelChar (c : Char) : Bool := !(c = ']' || c = '\n' || c = '\r')

/-- Character class `[^)\n\r]` of the link target in the expression from
`encodeTagsLinks`. -/
def fragChar (c : Char) : Bool := !(c = ')' || c = '\n' || c = '\r')

/-- Attempts to match the intra-document link expression
`\[[^\]\n\r]+\]\(#[^)\n\r]+\)` at the start of `s`, returning the matched
text and the remainder.  Each character class excludes the character that
must follow it, so the greedy scan needs no backtracking and the maximal
runs chosen here are the only candidates a backtracking engine could
accept. -/
def tryLinkAt (s : Str) : Option (Str × Str) :=
  match s with
  | [] => none
  | c :: s₁ =>
    if c = '[' then
      let label := s₁.takeWhile labelChar
      match s₁.dropWhile labelChar with
      | c₁ :: c₂ :: c₃ :: s₂ =>
        if c₁ = ']' ∧ c₂ = '(' ∧ c₃ = '#' then
          let frag := s₂.takeWhile fragChar
          match s₂.dropWhile fragChar with
          | c₄ :: s₃ =>
            if c₄ = ')' ∧ label ≠ [] ∧ frag ≠ [] then
              some ('[' :: label ++ ']' :: '(' :: '#' :: frag ++ [')'], s₃)
            else none
          | [] => none
        else none
      | _ => none
    else none

theorem tryLinkAt_spec :
    ∀ s m rest, tryLinkAt s = some (m, rest) →
      s = m ++ rest ∧ m ≠ [] ∧ m.head? = some '[' ∧ m.getLast? = some ')' := by
  intro s m rest h
  match s with
  | [] => exact absurd h (by simp [tryLinkAt])
  | c :: s₁ =>
    rw [tryLinkAt] at h
    by_cases hc : c = '['
    · rw [if_pos hc] at h
      match h₂ : s₁.dropWhile labelChar with
      | [] => rw [h₂] at h; exact absurd h (by simp)
      | [c₁] => rw [h₂] at h; exact absurd h (by simp)
      | [c₁, c₂] => rw [h₂] at h; exact absurd h (by simp)
      | c₁ :: c₂ :: c₃ :: s₂ =>
        rw [h₂] at h
        dsimp only at h
        by_cases h₃ : c₁ = ']' ∧ c₂ = '(' ∧ c₃ = '#'
        · rw [if_pos h₃] at h
          match h₄ : s₂.dropWhile fragChar with
          | [] => rw [h₄] at h; exact absurd h (by simp)
          | c₄ :: s₃ =>
            rw [h₄] at h
            dsimp only at h
            by_cases h₅ : c₄ = ')' ∧ s₁.takeWhile labelChar ≠ [] ∧
                s₂.takeWhile fragChar ≠ []
            · rw [if_pos h₅] at h
              simp only [Option.some.injEq, Prod.mk.injEq] at h
              obtain ⟨hm, hrest⟩ := h
              obtain ⟨hc₁, hc₂, hc₃⟩ := h₃
              obtain ⟨hc₄, hlab, hfrag⟩ := h₅
              subst hc; subst hc₁; subst hc₂; subst hc₃; subst hc₄
              subst hm; subst hrest
              refine ⟨?_, by simp, by simp, ?_⟩
              · have e₁ := List.takeWhile_append_dropWhile labelChar s₁
                have e₂ := List.takeWhile_append_dropWhile fragChar s₂
                rw [h₂] at e₁
                rw [h₄] at e₂
                simp only [List.cons_append, List.append_assoc, List.singleton_append,
                  List.nil_append, List.cons.injEq, true_and]
                rw [e₂, e₁]
              · rw [show '[' :: List.takeWhile labelChar s₁ ++ ']' :: '(' :: '#' ::
                    List.takeWhile fragChar s₂ ++ [')'] =
                    ('[' :: List.takeWhile labelChar s₁ ++ ']' :: '(' :: '#' ::
                    List.takeWhile fragChar s₂) ++ [')'] from by simp]
                exact List.getLast?_concat _
            · rw [if_neg h₅] at h
              exact absurd h (by simp)
        · rw [if_neg h₃] at h
          exact absurd h (by simp)
    · rw [if_neg hc] at h
      exact absurd h (by simp)

/-- Tests for a line terminator, which the dot of a JavaScript regular
expression without the dot-all flag never matches. -/
def lineTerm (c : Char) : Bool :=
  c = '\n' || c = '\r' || c = ' ' || c = ' '

/-- Attempts to match the open tag `<pre>` of the expression
`<pre>.*?</pre>` (case-insensitive flag) at the start of `s`. -/
def matchPreOpen (s : Str) : Option (Str × Str) :=
  match s with
  | a :: b :: c :: d :: e :: s₁ =>
    if a = '<' ∧ (b = 'p' ∨ b = 'P') ∧ (c = 'r' ∨ c = 'R') ∧
        (d = 'e' ∨ d = 'E') ∧ e = '>' then
      some ([a, b, c, d, e], s₁)
    else none
  | _ => none

/-- Attempts to match the close tag `</pre>` (case-insensitive) at the
start of `s`. -/
def matchPreClose (s : Str) : Option (Str × Str) :=
  match s with
  | a :: b :: c :: d :: e :: f :: s₁ =>
    if a = '<' ∧ b = '/' ∧ (c = 'p' ∨ c = 'P') ∧ (d = 'r' ∨ d = 'R') ∧
        (e = 'e' ∨ e = 'E') ∧ f = '>' then
      some ([a, b, c, d, e, f], s₁)
    else none
  | _ => none

/-- Scans for the earliest close tag `</pre>`, never crossing a line
terminator: this is the lazy `.*?</pre>` of the source under a regular
expression whose dot excludes line terminators. -/
def scanPreClose : Str → Option (Str × Str × Str)
  | [] => none
  | c :: s =>
    match matchPreClose (c :: s) with
    | some (cl, rest) => some ([], cl, rest)
    | none =>
      if lineTerm c then none
      else
        match scanPreClose s with
        | some (mid, cl, rest) => some (c :: mid, cl, rest)
        | none => none

/-- Attempts to match the whole preformatted block expression
`<pre>.*?</pre>` at the start of `s`. -/
def tryPreAt (s : Str) : Option (Str × Str) :=
  match matchPreOpen s with
  | none => none
  | some (op, s₁) =>
    match scanPreClose s₁ with
    | none => none
    | some (mid, cl, rest) => some (op ++ mid ++ cl, rest)

theorem matchPreOpen_spec :
    ∀ s op s₁, matchPreOpen s = some (op, s₁) →
      s = op ++ s₁ ∧ op.head? = some '<' ∧ op ≠ [] := by
  intro s op s₁ h
  match s with
  | [] => exact absurd h (by simp [matchPreOpen])
  | [a] => exact absurd h (by simp [matchPreOpen])
  | [a, b] => exact absurd h (by simp [matchPreOpen])
  | [a, b, c] => exact absurd h (by simp [matchPreOpen])
  | [a, b, c, d] => exact absurd h (by simp [matchPreOpen])
  | a :: b :: c :: d :: e :: s₂ =>
    rw [matchPreOpen] at h
    by_cases hc : a = '<' ∧ (b = 'p' ∨ b = 'P') ∧ (c = 'r' ∨ c = 'R') ∧
        (d = 'e' ∨ d = 'E') ∧ e = '>'
    · rw [if_pos hc] at h
      simp only [Option.some.injEq, Prod.mk.injEq] at h
      obtain ⟨hop, hs⟩ := h
      subst hop; subst hs
      exact ⟨by simp, by simp [hc.1], by simp⟩
    · rw [if_neg hc] at h
      exact absurd h (by simp)

theorem matchPreClose_spec :
    ∀ s cl s₁, matchPreClose s = some (cl, s₁) →
      s = cl ++ s₁ ∧ cl.getLast? = some '>' ∧ cl ≠ [] := by
  intro s cl s₁ h
  match s with
  | [] => exact absurd h (by simp [matchPreClose])
  | [a] => exact absurd h (by simp [matchPreClose])
  | [a, b] => exact absurd h (by simp [matchPreClose])
  | [a, b, c] => exact absurd h (by simp [matchPreClose])
  | [a, b, c, d] => exact absurd h (by simp [matchPreClose])
  | [a, b, c, d, e] => exact absurd h (by simp [matchPreClose])
  | a :: b :: c :: d :: e :: f :: s₂ =>
    rw [matchPreClose] at h
    by_cases hc : a = '<' ∧ b = '/' ∧ (c = 'p' ∨ c = 'P') ∧ (d = 'r' ∨ d = 'R') ∧
        (e = 'e' ∨ e = 'E') ∧ f = '>'
    · rw [if_pos hc] at h
      simp only [Option.some.injEq, Prod.mk.injEq] at h
      obtain ⟨hcl, hs⟩ := h
      subst hcl; subst hs
      refine ⟨by simp, ?_, by simp⟩
      have := hc.2.2.2.2.2
      subst this
      rfl
    · rw [if_neg hc] at h
      exact absurd h (by simp)

theorem scanPreClose_spec :
    ∀ s mid cl rest, scanPreClose s = some (mid, cl, rest) →
      s = mid ++ cl ++ rest ∧ cl.getLast? = some '>' ∧ cl ≠ [] := by
  intro s
  induction s with
  | nil => intro mid cl rest h; exact absurd h (by simp [scanPreClose])
  | cons c s ih =>
    intro mid cl rest h
    rw [scanPreClose] at h
    match hm : matchPreClose (c :: s) with
    | some (cl₀, rest₀) =>
      rw [hm] at h
      simp only [Option.some.injEq, Prod.mk.injEq] at h
      obtain ⟨h₁, h₂, h₃⟩ := h
      subst h₁; subst h₂; subst h₃
      obtain ⟨e₁, e₂, e₃⟩ := matchPreClose_spec _ _ _ hm
      exact ⟨by simpa using e₁, e₂, e₃⟩
    | none =>
      rw [hm] at h
      by_cases hl : lineTerm c
      · rw [if_pos hl] at h
        exact absurd h (by simp)
      · rw [if_neg hl] at h
        match hs : scanPreClose s with
        | none => rw [hs] at h; exact absurd h (by simp)
        | some (mid₀, cl₀, rest₀) =>
          rw [hs] at h
          simp only [Option.some.injEq, Prod.mk.injEq] at h
          obtain ⟨h₁, h₂, h₃⟩ := h
          subst h₁; subst h₂; subst h₃
          obtain ⟨e₁, e₂, e₃⟩ := ih _ _ _ hs
          exact ⟨by simp [e₁], e₂, e₃⟩

theorem tryPreAt_spec :
    ∀ s m rest, tryPreAt s = some (m, rest) →
      s = m ++ rest ∧ m ≠ [] ∧ m.head? = some '<' ∧ m.getLast? = some '>' := by
  intro s m rest h
  unfold tryPreAt at h
  match ho : matchPreOpen s with
  | none => rw [ho] at h; exact absurd h (by simp)
  | some (op, s₁) =>
    rw [ho] at h
    dsimp only at h
    match hs : scanPreClose s₁ with
    | none => rw [hs] at h; exact absurd h (by simp)
    | some (mid, cl, rest₀) =>
      rw [hs] at h
      simp only [Option.some.injEq, Prod.mk.injEq] at h
      obtain ⟨h₁, h₂⟩ := h
      subst h₁; subst h₂
      obtain ⟨e₁, e₂, e₃⟩ := matchPreOpen_spec _ _ _ ho
      obtain ⟨f₁, f₂, f₃⟩ := scanPreClose_spec _ _ _ _ hs
      refine ⟨?_, ?_, ?_, ?_⟩
      · rw [e₁, f₁]; simp
      · intro hcontra
        rw [List.append_eq_nil] at hcontra
        exact e₃ (List.append_eq_nil.mp hcontra.1).1
      · match op, e₂ with
        | o :: ops, e₂ =>
          simp only [List.head?_cons, Option.some.injEq] at e₂
          subst e₂
          simp
      · rw [List.getLast?_append_of_ne_nil _ f₃]
        exact f₂

/-- Position matcher for a literal global expression such as the `/BB./g`
of the unit tests specialised to a literal: matches exactly the literal
text at the current position. -/
def litTry (lit : Str) (s : Str) : Option (Str × Str) :=
  if lit ≠ [] ∧ lit.isPrefixOf s then some (lit, s.drop lit.length) else none

theorem litTry_spec :
    ∀ lit s m rest, litTry lit s = some (m, rest) → s = m ++ rest ∧ m ≠ [] := by
  intro lit s m rest h
  unfold litTry at h
  by_cases hc : lit ≠ [] ∧ lit.isPrefixOf s
  · rw [if_pos hc] at h
    simp only [Option.some.injEq, Prod.mk.injEq] at h
    obtain ⟨h₁, h₂⟩ := h
    subst h₁; subst h₂
    obtain ⟨t, ht⟩ := isPrefixOf_iff.mp hc.2
    refine ⟨?_, hc.1⟩
    rw [← ht]
    simp
  · rw [if_neg hc] at h
    exact absurd h (by simp)

/-- Global-expression model of the preformatted block expression
`new RegExp('<pre>.*?</pre>', 'ig')` from `encodeTagsPreformatted`. -/
def prePat : GPattern where
  find := findFirst tryPreAt
  find_decomp := fun s a m b h =>
    findFirst_decomp (fun s' m' r' h' => (tryPreAt_spec s' m' r' h').1) s a m b h
  find_ne_nil := fun s a m b h =>
    findFirst_prop (fun s' m' r' h' => (tryPreAt_spec s' m' r' h').2.1) s a m b h

/-- Global-expression model of the intra-document link expression
`new RegExp('\\[[^\\]\n\r]+\\]\\(#[^)\n\r]+\\)', 'g')` from
`encodeTagsLinks`. -/
def linkPat : GPattern where
  find := findFirst tryLinkAt
  find_decomp := fun s a m b h =>
    findFirst_decomp (fun s' m' r' h' => (tryLinkAt_spec s' m' r' h').1) s a m b h
  find_ne_nil := fun s a m b h =>
    findFirst_prop (fun s' m' r' h' => (tryLinkAt_spec s' m' r' h').2.1) s a m b h

/-- Global-expression model of a literal search text, the simplest global
regular expression accepted by `encodeTags`. -/
def litPat (lit : Str) : GPattern where
  find := findFirst (litTry lit)
  find_decomp := fun s a m b h =>
    findFirst_decomp (fun s' m' r' h' => (litTry_spec lit s' m' r' h').1) s a m b h
  find_ne_nil := fun s a m b h =>
    findFirst_prop (fun s' m' r' h' => (litTry_spec lit s' m' r' h').2) s a m b h

theorem prePat_match_bounds (s : Str) :
    ∀ m ∈ matchesOf prePat s, m.head? = some '<' ∧ m.getLast? = some '>' := by
  refine matchesOf_prop prePat ?_ s.length s (Nat.le_refl _)
  intro s' a m b h
  exact @findFirst_prop tryPreAt
    (fun u => u.head? = some '<' ∧ u.getLast? = some '>')
    (fun s'' m'' r'' h'' => ⟨(tryPreAt_spec s'' m'' r'' h'').2.2.1,
      (tryPreAt_spec s'' m'' r'' h'').2.2.2⟩) s' a m b h

theorem linkPat_match_bounds (s : Str) :
    ∀ m ∈ matchesOf linkPat s, m.head? = some '[' ∧ m.getLast? = some ')' := by
  refine matchesOf_prop linkPat ?_ s.length s (Nat.le_refl _)
  intro s' a m b h
  exact @findFirst_prop tryLinkAt
    (fun u => u.head? = some '[' ∧ u.getLast? = some ')')
    (fun s'' m'' r'' h'' => ⟨(tryLinkAt_spec s'' m'' r'' h'').2.2.1,
      (tryLinkAt_spec s'' m'' r'' h'').2.2.2⟩) s' a m b h

/-- Worker of `encodeTags`: walks the match list with the running index
`i`, records each marker with its matched text, and substitutes every
occurrence of the matched text in the running content — the loop body
`tags[tag] = strSearch; cookedContent = cookedContent.replaceAll(strSearch, tag)`
of the source. -/
def encodeTagsAux (pref : Str) : Nat → List Str → Str → List (Str × Str) × Str
  | _, [], cooked => ([], cooked)
  | i, m :: ms, cooked =>
    let tag := tagOf pref i
    let rest := encodeTagsAux pref (i + 1) ms (replaceAll cooked m tag)
    ((tag, m) :: rest.1, rest.2)

/-- Model of `encodeTags(rawContent, regex, tagPref)` from the source:
the global expression is matched once against the raw content, and each
matched text is then replaced everywhere by its marker; the result is the
marker table in insertion order together with the masked content. -/
def encodeTags (rawContent : Str) (regex : GPattern) (tagPref : Str) :
    List (Str × Str) × Str :=
  encodeTagsAux tagPref 0 (matchesOf regex rawContent) rawContent

/-- Model of `decodeTags(encodedContent, tags)` from the source:
substitutes every occurrence of each marker by its recorded text, in the
insertion order of the marker table. -/
def decodeTags (encodedContent : Str) (tags : List (Str × Str)) : Str :=
  tags.foldl (fun acc tv => replaceAll acc tv.1 tv.2) encodedContent

/-- Category text `PREF` of the preformatted masking pass. -/
def prefPref : Str := ['P', 'R', 'E', 'F']

/-- Category text `LINK` of the link masking pass. -/
def linkPref : Str := ['L', 'I', 'N', 'K']

/-- Model of `encodeTagsPreformatted(rawContent)` from the source. -/
def encodeTagsPreformatted (rawContent : Str) : List (Str × Str) × Str :=
  encodeTags rawContent prePat prefPref

/-- Model of `encodeTagsLinks(rawContent)` from the source. -/
def encodeTagsLinks (rawContent : Str) : List (Str × Str) × Str :=
  encodeTags rawContent linkPat linkPref

/-- Model of `genFixedLink(rawLink, baseHref)` from the source: replaces
the first occurrence of the two characters `(#` by the replacement text
`(` + baseHref + `#`, GetSubstitution applied. -/
def genFixedLink (rawLink baseHref : Str) : Str :=
  replaceFirst rawLink ['(', '#'] ('(' :: baseHref ++ ['#'])

/-- Model of `fixLinks(rawReadmeText, baseHref)` from the current revision
of the source: mask preformatted blocks, mask intra-document links, fix
every recorded link, then unmask the links and finally the preformatted
blocks. -/
def fixLinks (rawReadmeText baseHref : Str) : Str :=
  let encPre := encodeTagsPreformatted rawReadmeText
  let encLinks := encodeTagsLinks encPre.2
  let fixedTags := encLinks.1.map (fun tv => (tv.1, genFixedLink tv.2 baseHref))
  decodeTags (decodeTags encLinks.2 fixedTags) encPre.1

/-- Variant of `fixLinks` performing the two final unmask passes in the
opposite order (preformatted markers first, then link markers); this is
the order used by the older `readme-fixer.js` revision. -/
def fixLinksSwapped (rawReadmeText baseHref : Str) : Str :=
  let encPre := encodeTagsPreformatted rawReadmeText
  let encLinks := encodeTagsLinks encPre.2
  let fixedTags := encLinks.1.map (fun tv => (tv.1, genFixedLink tv.2 baseHref))
  decodeTags (decodeTags encLinks.2 encPre.1) fixedTags

/-- Expected marker table of an `encodeTags` pass starting at index `i`. -/
def expectedTags (pref : Str) : Nat → List Str → List (Str × Str)
  | _, [] => []
  | i, m :: ms => (tagOf pref i, m) :: expectedTags pref (i + 1) ms

/-- Expected masked content of an `encodeTags` pass starting at index `i`. -/
def encodeRun (pref : Str) : Nat → List Str → Str → Str
  | _, [], cooked => cooked
  | i, m :: ms, cooked => encodeRun pref (i + 1) ms (replaceAll cooked m (tagOf pref i))

/-- Literal-insertion twin of `encodeRun`, carrying the proof machinery;
`encodeRun` reduces to it because the inserted markers never contain a
dollar. -/
def encodeRunL (pref : Str) : Nat → List Str → Str → Str
  | _, [], cooked => cooked
  | i, m :: ms, cooked => encodeRunL pref (i + 1) ms (replaceAllLit cooked m (tagOf pref i))

/-- Literal-insertion twin of `decodeTags`, carrying the proof machinery;
`decodeTags` reduces to it when no recorded text contains a dollar. -/
def decodeTagsL (encodedContent : Str) (tags : List (Str × Str)) : Str :=
  tags.foldl (fun acc tv => replaceAllLit acc tv.1 tv.2) encodedContent

/-- The digit characters of a marker are never `$`. -/
theorem dollar_not_in_padTwo (i : Nat) : '$' ∉ padTwo i := by
  intro h
  have := padTwo_digits i '$' h
  simp at this

/-- A marker over a dollar-free category text is dollar-free. -/
theorem dollar_not_in_tagOf {pref : Str} (h : '$' ∉ pref) (i : Nat) :
    '$' ∉ tagOf pref i := by
  intro hc
  unfold tagOf at hc
  simp only [List.mem_cons, List.mem_append] at hc
  rcases hc with h₁ | h₁ | h₁ | h₁ | h₁ | h₁ | h₁ <;>
    first
      | exact absurd h₁ (by decide)
      | exact h h₁
      | exact dollar_not_in_padTwo i h₁

theorem encodeRun_eq_L {pref : Str} (h : '$' ∉ pref) :
    ∀ (ms : List Str) (i : Nat) (cooked : Str),
      encodeRun pref i ms cooked = encodeRunL pref i ms cooked := by
  intro ms
  induction ms with
  | nil => intro i cooked; rfl
  | cons m ms ih =>
    intro i cooked
    show encodeRun pref (i + 1) ms (replaceAll cooked m (tagOf pref i)) = _
    rw [replaceAll_eq_lit (dollar_not_in_tagOf h i), ih]
    rfl

theorem decodeTags_eq_L :
    ∀ (tags : List (Str × Str)) (s : Str), (∀ tv ∈ tags, '$' ∉ tv.2) →
      decodeTags s tags = decodeTagsL s tags := by
  intro tags
  induction tags with
  | nil => intro s _; rfl
  | cons tv tags ih =>
    intro s h
    show decodeTags (replaceAll s tv.1 tv.2) tags = _
    rw [replaceAll_eq_lit (h tv (List.mem_cons_self _ _)), ih]
    · rfl
    · intro tv₂ hm
      exact h tv₂ (List.mem_cons_of_mem _ hm)

theorem encodeTagsAux_eq (pref : Str) :
    ∀ (ms : List Str) (i : Nat) (cooked : Str),
      encodeTagsAux pref i ms cooked =
        (expectedTags pref i ms, encodeRun pref i ms cooked) := by
  intro ms
  induction ms with
  | nil => intro i cooked; rfl
  | cons m ms ih =>
    intro i cooked
    show ((tagOf pref i, m) :: (encodeTagsAux pref (i + 1) ms _).1,
      (encodeTagsAux pref (i + 1) ms _).2) = _
    rw [ih]
    rfl

theorem expectedTags_map_fst (pref : Str) :
    ∀ (ms : List Str) (i : Nat),
      (expectedTags pref i ms).map Prod.fst =
        (List.range ms.length).map (fun j => tagOf pref (i + j)) := by
  intro ms
  induction ms with
  | nil => intro i; rfl
  | cons m ms ih =>
    intro i
    show tagOf pref i :: (expectedTags pref (i + 1) ms).map Prod.fst = _
    rw [ih (i + 1)]
    rw [List.length_cons, List.range_succ_eq_map, List.map_cons, List.map_map]
    refine congrArg₂ _ (by rw [Nat.add_zero]) ?_
    refine List.map_congr_left ?_
    intro j hj
    show tagOf pref (i + 1 + j) = tagOf pref (i + (j + 1))
    congr 1
    omega

theorem expectedTags_map_snd (pref : Str) :
    ∀ (ms : List Str) (i : Nat), (expectedTags pref i ms).map Prod.snd = ms := by
  intro ms
  induction ms with
  | nil => intro i; rfl
  | cons m ms ih =>
    intro i
    show m :: (expectedTags pref (i + 1) ms).map Prod.snd = m :: ms
    rw [ih (i + 1)]

theorem encodeTags_fst (rawContent : Str) (regex : GPattern) (tagPref : Str) :
    (encodeTags rawContent regex tagPref).1 =
      expectedTags tagPref 0 (matchesOf regex rawContent) := by
  unfold encodeTags
  rw [encodeTagsAux_eq]

theorem encodeTags_snd (rawContent : Str) (regex : GPattern) (tagPref : Str) :
    (encodeTags rawContent regex tagPref).2 =
      encodeRun tagPref 0 (matchesOf regex rawContent) rawContent := by
  unfold encodeTags
  rw [encodeTagsAux_eq]

theorem decodeTags_nil (s : Str) : decodeTags s [] = s := rfl

theorem decodeTags_cons (s t v : Str) (rest : List (Str × Str)) :
    decodeTags s ((t, v) :: rest) = decodeTags (replaceAll s t v) rest := rfl

/-- Intermediate representation of a partially masked text: residual text
chunks interleaved with whole markers. -/
inductive Piece where
  | txt (u : Str)
  | tag (k : Nat)
deriving DecidableEq

/-- Tests whether a piece is a residual text chunk. -/
def Piece.isTxtB : Piece → Bool
  | Piece.txt _ => true
  | Piece.tag _ => false

/-- Text denoted by one piece, markers in place. -/
def renderP (pref : Str) : Piece → Str
  | Piece.txt u => u
  | Piece.tag k => tagOf pref k

/-- Text denoted by a piece list, markers in place. -/
def render (pref : Str) (ps : List Piece) : Str := (ps.map (renderP pref)).flatten

/-- Text denoted by one piece with each marker replaced by the matched
text it stands for. -/
def unrenderP (vals : Nat → Str) : Piece → Str
  | Piece.txt u => u
  | Piece.tag k => vals k

/-- Text denoted by a piece list with each marker replaced by the matched
text it stands for. -/
def unrender (vals : Nat → Str) (ps : List Piece) : Str :=
  (ps.map (unrenderP vals)).flatten

/-- No two adjacent residual text chunks: between any two chunks there is
at least one marker, so a junction of two chunks never has to be
considered when locating occurrences. -/
def altOK (ps : List Piece) : Prop :=
  List.Chain' (fun a b => ¬(a.isTxtB = true ∧ b.isTxtB = true)) ps

theorem render_nil (pref : Str) : render pref [] = [] := rfl

theorem render_cons (pref : Str) (p : Piece) (ps : List Piece) :
    render pref (p :: ps) = renderP pref p ++ render pref ps := by
  unfold render
  simp

theorem unrender_nil (vals : Nat → Str) : unrender vals [] = [] := rfl

theorem unrender_cons (vals : Nat → Str) (p : Piece) (ps : List Piece) :
    unrender vals (p :: ps) = unrenderP vals p ++ unrender vals ps := by
  unfold unrender
  simp

theorem txt_infix_unrender (vals : Nat → Str) :
    ∀ (ps : List Piece) (u : Str), Piece.txt u ∈ ps → u <:+: unrender vals ps := by
  intro ps
  induction ps with
  | nil => intro u hu; exact absurd hu (List.not_mem_nil _)
  | cons p ps ih =>
    intro u hu
    rw [unrender_cons]
    rcases List.mem_cons.mp hu with h | h
    · subst h
      exact ⟨[], unrender vals ps, by simp [unrenderP]⟩
    · exact ((ih u h).trans (inf_of_suf (List.suffix_append _ _)))

theorem altOK_nil : altOK [] := List.chain'_nil

theorem altOK_tail {p : Piece} {ps : List Piece} (h : altOK (p :: ps)) : altOK ps :=
  List.Chain'.tail h

theorem bangTag_prefix_tagOf (pref : Str) (i : Nat) : bangTag <+: tagOf pref i :=
  ⟨pref ++ padTwo i, rfl⟩

theorem length_tagOf_ge (pref : Str) {i : Nat} (h : i < 100) :
    7 ≤ (tagOf pref i).length := by
  rw [tagOf_length h]
  omega

theorem head?_eq_of_ne_nil_of_pre {a b : Str} (h : a <+: b) (ha : a ≠ []) :
    b.head? = a.head? := by
  obtain ⟨t, rfl⟩ := h
  exact List.head?_append_of_ne_nil a ha

theorem drop_ne_nil_of_lt {u : Str} {i : Nat} (h : i < u.length) : u.drop i ≠ [] := by
  intro hc
  have := congrArg List.length hc
  simp only [List.length_drop, List.length_nil] at this
  omega

/-- Occurrence localisation for the masking direction: when the searched
text cannot begin or end with a marker character and cannot contain the
marker head `!TAG!`, every occurrence of it in a rendered piece list lies
inside a single residual chunk, so the substitution factors chunk by
chunk. -/
theorem encode_factor (pref m t : Str) (hm : m ≠ [])
    (hhead : ∀ c, m.head? = some c → isTagCharB pref c = false)
    (hlast : ∀ c, m.getLast? = some c → isTagCharB pref c = false)
    (hfree : ¬ bangTag <:+: m) :
    ∀ ps : List Piece, altOK ps →
      replaceAllLit (render pref ps) m t =
        (ps.map (fun p =>
          match p with
          | Piece.txt u => replaceAllLit u m t
          | Piece.tag k => tagOf pref k)).flatten := by
  intro ps
  induction ps with
  | nil => intro _; simp [render_nil, replaceAllLit_nil]
  | cons p ps ih =>
    intro halt
    match p with
    | Piece.txt u =>
      rw [render_cons]
      show replaceAllLit (u ++ render pref ps) m t = _
      have hsplit : replaceAllLit (u ++ render pref ps) m t =
          replaceAllLit u m t ++ replaceAllLit (render pref ps) m t := by
        refine replaceAllLit_split hm t u.length u (render pref ps) (Nat.le_refl _) ?_
        intro i hi hip
        by_contra hgt
        push_neg at hgt
        rw [List.drop_append_of_le_length (Nat.le_of_lt hi)] at hip
        have hXne : u.drop i ≠ [] := drop_ne_nil_of_lt hi
        have hXpre : u.drop i <+: m := by
          refine List.prefix_of_prefix_length_le (List.prefix_append _ _) hip ?_
          simp only [List.length_drop]
          omega
        obtain ⟨Y, hXY⟩ := hXpre
        have hYne : Y ≠ [] := by
          intro hc
          subst hc
          have := congrArg List.length hXY
          simp only [List.append_nil, List.length_drop] at this
          omega
        have hYpre : Y <+: render pref ps := by
          have h₁ : u.drop i ++ Y <+: u.drop i ++ render pref ps := by
            rw [hXY]
            exact hip
          exact (List.prefix_append_right_inj _).mp h₁
        match ps, halt with
        | [], _ =>
          rw [render_nil] at hYpre
          exact hYne (List.prefix_nil.mp hYpre)
        | Piece.txt w :: ps', halt =>
          have := (List.chain'_cons.mp halt).1
          simp [Piece.isTxtB] at this
        | Piece.tag k :: ps', halt =>
          rw [render_cons] at hYpre
          show False
          by_cases hYlen : Y.length ≤ (tagOf pref k).length
          · have hYtk : Y <+: tagOf pref k := prefix_of_append_of_le hYpre hYlen
            match hYl : Y.getLast? with
            | none => exact hYne (List.getLast?_eq_none_iff.mp hYl)
            | some c =>
              have hml : m.getLast? = some c := by
                rw [← hXY, List.getLast?_append_of_ne_nil _ hYne]
                exact hYl
              have hcY : c ∈ Y := List.mem_of_mem_getLast? hYl
              have hcT : c ∈ tagOf pref k := hYtk.mem hcY
              have h₁ := tagOf_chars pref k c hcT
              rw [hlast c hml] at h₁
              exact absurd h₁ (by simp)
          · push_neg at hYlen
            have htkY : tagOf pref k <+: Y :=
              List.prefix_of_prefix_length_le (List.prefix_append _ _) hYpre
                (Nat.le_of_lt hYlen)
            have hbm : bangTag <:+: m := by
              have h₁ : bangTag <+: Y := (bangTag_prefix_tagOf pref k).trans htkY
              have h₂ : Y <:+ m := ⟨u.drop i, hXY⟩
              exact (inf_of_pre h₁).trans (inf_of_suf h₂)
            exact hfree hbm
      rw [hsplit, ih (altOK_tail halt)]
      simp [renderP]
    | Piece.tag k =>
      rw [render_cons]
      show replaceAllLit (tagOf pref k ++ render pref ps) m t = _
      have hskip : replaceAllLit (tagOf pref k ++ render pref ps) m t =
          tagOf pref k ++ replaceAllLit (render pref ps) m t := by
        refine replaceAllLit_skip t (tagOf pref k) (render pref ps) ?_
        intro i hi hip
        rw [List.drop_append_of_le_length (Nat.le_of_lt hi)] at hip
        have hne : (tagOf pref k).drop i ≠ [] := drop_ne_nil_of_lt hi
        match hmh : m.head? with
        | none => exact hm (List.head?_eq_none_iff.mp hmh)
        | some c =>
          have h₁ : ((tagOf pref k).drop i ++ render pref ps).head? = some c := by
            rw [head?_eq_of_ne_nil_of_pre hip hm]
            exact hmh
          rw [List.head?_append_of_ne_nil _ hne, List.head?_drop] at h₁
          have hcmem : c ∈ tagOf pref k := by
            have := List.getElem?_eq_some_iff.mp h₁
            obtain ⟨hlt, hget⟩ := this
            rw [← hget]
            exact List.getElem_mem hlt
          have h₂ := tagOf_chars pref k c hcmem
          rw [hhead c hmh] at h₂
          exact absurd h₂ (by simp)
      rw [hskip, ih (altOK_tail halt)]
      simp [renderP]

/-- Splits are interleaved with the marker of the running pass: the chunk
parts of a residual chunk alternate with the marker of index `j`. -/
def interleaveTag (j : Nat) : List Str → List Piece
  | [] => []
  | [u] => [Piece.txt u]
  | u :: v :: us => Piece.txt u :: Piece.tag j :: interleaveTag j (v :: us)

theorem interleave_render (pref : Str) (j : Nat) :
    ∀ parts : List Str,
      render pref (interleaveTag j parts) = joinSep (tagOf pref j) parts
  | [] => by simp [interleaveTag, render_nil, joinSep]
  | [u] => by simp [interleaveTag, render, renderP, joinSep]
  | u :: v :: us => by
    show render pref (Piece.txt u :: Piece.tag j :: interleaveTag j (v :: us)) = _
    rw [render_cons, render_cons, interleave_render pref j (v :: us), joinSep_cons_cons]
    simp [renderP]

theorem interleave_unrender (vals : Nat → Str) (j : Nat) :
    ∀ parts : List Str,
      unrender vals (interleaveTag j parts) = joinSep (vals j) parts
  | [] => by simp [interleaveTag, unrender_nil, joinSep]
  | [u] => by simp [interleaveTag, unrender, unrenderP, joinSep]
  | u :: v :: us => by
    show unrender vals (Piece.txt u :: Piece.tag j :: interleaveTag j (v :: us)) = _
    rw [unrender_cons, unrender_cons, interleave_unrender vals j (v :: us),
      joinSep_cons_cons]
    simp [unrenderP]

theorem interleave_ne_nil {j : Nat} : ∀ {parts : List Str}, parts ≠ [] →
    interleaveTag j parts ≠ [] := by
  intro parts hp
  match parts with
  | [u] => simp [interleaveTag]
  | u :: v :: us => simp [interleaveTag]

theorem interleave_head {j : Nat} : ∀ {parts : List Str}, parts ≠ [] →
    ∃ u, (interleaveTag j parts).head? = some (Piece.txt u) := by
  intro parts hp
  match parts with
  | [u] => exact ⟨u, rfl⟩
  | u :: v :: us => exact ⟨u, rfl⟩

theorem getLast?_cons_of_ne {α : Type} (p : α) {l : List α} (h : l ≠ []) :
    (p :: l).getLast? = l.getLast? := by
  cases l with
  | nil => exact absurd rfl h
  | cons x xs => rw [List.getLast?_cons_cons]

theorem interleave_getLast {j : Nat} :
    ∀ (parts : List Str), parts ≠ [] →
      ∃ u, (interleaveTag j parts).getLast? = some (Piece.txt u)
  | [u], _ => ⟨u, rfl⟩
  | u :: v :: us, _ => by
    obtain ⟨w, hw⟩ := interleave_getLast (v :: us) (by simp)
    refine ⟨w, ?_⟩
    show (Piece.txt u :: Piece.tag j :: interleaveTag j (v :: us)).getLast? = _
    rw [List.getLast?_cons_cons, getLast?_cons_of_ne _ (interleave_ne_nil (by simp))]
    exact hw

theorem interleave_alt {j : Nat} : ∀ (parts : List Str), altOK (interleaveTag j parts)
  | [] => List.chain'_nil
  | [u] => List.chain'_singleton _
  | u :: v :: us => by
    show altOK (Piece.txt u :: Piece.tag j :: interleaveTag j (v :: us))
    rw [altOK, List.chain'_cons']
    refine ⟨?_, ?_⟩
    · intro y hy
      simp only [List.head?_cons, Option.mem_def, Option.some.injEq] at hy
      subst hy
      simp [Piece.isTxtB]
    rw [List.chain'_cons']
    refine ⟨?_, interleave_alt (v :: us)⟩
    intro y hy
    intro hc
    exact absurd hc.1 (by simp [Piece.isTxtB])

theorem interleave_tag_mem {j k : Nat} :
    ∀ (parts : List Str), Piece.tag k ∈ interleaveTag j parts → k = j
  | [], h => absurd h (List.not_mem_nil _)
  | [u], h => by simp [interleaveTag] at h
  | u :: v :: us, h => by
    rw [show interleaveTag j (u :: v :: us) =
      Piece.txt u :: Piece.tag j :: interleaveTag j (v :: us) from rfl] at h
    simp only [List.mem_cons] at h
    rcases h with h | h | h
    · exact absurd h (by simp)
    · injection h
    · exact interleave_tag_mem (v :: us) h

/-- Expansion of one piece under a masking step with marker index `j` and
matched text `m`: residual chunks are split at every occurrence of `m`,
markers stay untouched. -/
def expandPiece (j : Nat) (m : Str) : Piece → List Piece
  | Piece.txt u => interleaveTag j (splitAll u m)
  | Piece.tag k => [Piece.tag k]

theorem unrender_append (vals : Nat → Str) (a b : List Piece) :
    unrender vals (a ++ b) = unrender vals a ++ unrender vals b := by
  unfold unrender
  simp

theorem render_append (pref : Str) (a b : List Piece) :
    render pref (a ++ b) = render pref a ++ render pref b := by
  unfold render
  simp

theorem expand_unrender (vals : Nat → Str) (j : Nat) (m : Str) (hv : vals j = m) :
    ∀ ps : List Piece,
      unrender vals (ps.flatMap (expandPiece j m)) = unrender vals ps
  | [] => rfl
  | p :: ps => by
    rw [List.flatMap_cons, unrender_append, expand_unrender vals j m hv ps,
      unrender_cons]
    congr 1
    match p with
    | Piece.txt u =>
      show unrender vals (interleaveTag j (splitAll u m)) = u
      rw [interleave_unrender, hv]
      exact splitAll_joinSep u m
    | Piece.tag k => simp [unrender, unrenderP, expandPiece]

theorem expand_render (pref : Str) (j : Nat) (m : Str) :
    ∀ ps : List Piece,
      render pref (ps.flatMap (expandPiece j m)) =
        (ps.map (fun p =>
          match p with
          | Piece.txt u => replaceAllLit u m (tagOf pref j)
          | Piece.tag k => tagOf pref k)).flatten
  | [] => rfl
  | p :: ps => by
    rw [List.flatMap_cons, render_append, expand_render pref j m ps, List.map_cons,
      List.flatten_cons]
    congr 1
    match p with
    | Piece.txt u =>
      show render pref (interleaveTag j (splitAll u m)) = replaceAllLit u m (tagOf pref j)
      rw [interleave_render, replaceAllLit_eq_joinSep]
    | Piece.tag k => simp [render, renderP, expandPiece]

theorem expand_ne_nil {j : Nat} {m : Str} : ∀ p : Piece, expandPiece j m p ≠ [] := by
  intro p
  match p with
  | Piece.txt u => exact interleave_ne_nil (splitAllF_ne_nil _ _ _)
  | Piece.tag k => simp [expandPiece]

theorem expand_head_not_txt_of_tag {j : Nat} {m : Str} (k : Nat) :
    ∀ y ∈ (expandPiece j m (Piece.tag k)).head?, y.isTxtB = false := by
  intro y hy
  simp only [expandPiece, List.head?_cons, Option.mem_def, Option.some.injEq] at hy
  subst hy
  rfl

theorem expand_altOK {j : Nat} {m : Str} :
    ∀ ps : List Piece, altOK ps → altOK (ps.flatMap (expandPiece j m)) := by
  intro ps
  induction ps with
  | nil => intro _; exact List.chain'_nil
  | cons p ps ih =>
    intro halt
    rw [List.flatMap_cons]
    rw [altOK, List.chain'_append]
    refine ⟨?_, ih (altOK_tail halt), ?_⟩
    · match p with
      | Piece.txt u => exact interleave_alt (splitAll u m)
      | Piece.tag k => exact List.chain'_singleton _
    · intro x hx y hy
      match ps with
      | [] =>
        simp only [List.flatMap_nil, List.head?_nil] at hy
        exact absurd hy (by simp)
      | p₂ :: ps' =>
        rw [List.flatMap_cons] at hy
        rw [List.head?_append_of_ne_nil _ (expand_ne_nil p₂)] at hy
        match p₂ with
        | Piece.tag k₂ =>
          have := @expand_head_not_txt_of_tag j m k₂ y hy
          intro hc
          rw [this] at hc
          exact absurd hc.2 (by simp)
        | Piece.txt w =>
          match p with
          | Piece.txt u =>
            have := (List.chain'_cons.mp halt).1
            simp [Piece.isTxtB] at this
          | Piece.tag k =>
            simp only [expandPiece, List.head?_cons, Option.mem_def,
              Option.some.injEq] at hx
            have hxl : x = Piece.tag k := by
              simp only [List.getLast?_singleton, Option.mem_def,
                Option.some.injEq] at hx
              exact hx.symm
            subst hxl
            intro hc
            exact absurd hc.1 (by simp [Piece.isTxtB])

theorem expand_tag_mem {j : Nat} {m : Str} {k : Nat} :
    ∀ ps : List Piece, Piece.tag k ∈ ps.flatMap (expandPiece j m) →
      Piece.tag k ∈ ps ∨ k = j := by
  intro ps h
  obtain ⟨p, hp, hk⟩ := List.mem_flatMap.mp h
  match p with
  | Piece.txt u =>
    exact Or.inr (interleave_tag_mem _ hk)
  | Piece.tag k₂ =>
    simp only [expandPiece, List.mem_singleton] at hk
    injection hk with h₂
    subst h₂
    exact Or.inl hp

/-- Conditions on one matched text under which the masking machinery
applies: the match is non-empty, neither its first nor its last character
can occur in a marker, and it does not contain the marker head. -/
def GoodMatch (pref m : Str) : Prop :=
  m ≠ [] ∧ (∀ c, m.head? = some c → isTagCharB pref c = false) ∧
    (∀ c, m.getLast? = some c → isTagCharB pref c = false) ∧ ¬ bangTag <:+: m

theorem encode_all (pref : Str) (vals : Nat → Str) :
    ∀ (ms : List Str) (i : Nat) (ps : List Piece),
      altOK ps →
      (∀ j (hj : j < ms.length), vals (i + j) = ms.get ⟨j, hj⟩) →
      (∀ m ∈ ms, GoodMatch pref m) →
      ∃ ps' : List Piece,
        encodeRunL pref i ms (render pref ps) = render pref ps' ∧
        unrender vals ps' = unrender vals ps ∧
        altOK ps' ∧
        (∀ k, Piece.tag k ∈ ps' → Piece.tag k ∈ ps ∨ (i ≤ k ∧ k < i + ms.length)) := by
  intro ms
  induction ms with
  | nil =>
    intro i ps halt _ _
    exact ⟨ps, rfl, rfl, halt, fun k hk => Or.inl hk⟩
  | cons m ms ih =>
    intro i ps halt hvals hgood
    obtain ⟨hm, hhead, hlast, hfree⟩ := hgood m (List.mem_cons_self m ms)
    have hvi : vals i = m := by
      have := hvals 0 (by simp)
      simpa using this
    have hstep : replaceAllLit (render pref ps) m (tagOf pref i) =
        render pref (ps.flatMap (expandPiece i m)) := by
      rw [encode_factor pref m (tagOf pref i) hm hhead hlast hfree ps halt,
        expand_render]
    obtain ⟨ps', h₁, h₂, h₃, h₄⟩ := ih (i + 1) (ps.flatMap (expandPiece i m))
      (expand_altOK ps halt)
      (fun j hj => by
        have := hvals (j + 1) (by simpa using Nat.succ_lt_succ hj)
        rw [show i + (j + 1) = i + 1 + j by omega] at this
        rw [this]
        rfl)
      (fun m' hm' => hgood m' (List.mem_cons_of_mem m hm'))
    refine ⟨ps', ?_, ?_, h₃, ?_⟩
    · show encodeRunL pref (i + 1) ms (replaceAllLit (render pref ps) m (tagOf pref i)) = _
      rw [hstep]
      exact h₁
    · rw [h₂, expand_unrender vals i m hvi]
    · intro k hk
      rcases h₄ k hk with h | h
      · rcases expand_tag_mem ps h with h' | h'
        · exact Or.inl h'
        · subst h'
          refine Or.inr ⟨Nat.le_refl _, ?_⟩
          simp only [List.length_cons]
          omega
      · refine Or.inr ⟨by omega, ?_⟩
        simp only [List.length_cons]
        omega

/-- Conditions on a category text under which unmasking is unambiguous:
it is non-empty, contains no `!`, and does not start with `T`.  Both
`PREF` and `LINK` satisfy them. -/
def GoodPref (pref : Str) : Prop :=
  pref ≠ [] ∧ '!' ∉ pref ∧ pref.head? ≠ some 'T' ∧ '$' ∉ pref

theorem goodPref_prefPref : GoodPref prefPref := by
  refine ⟨by simp [prefPref], by simp [prefPref], by simp [prefPref],
    by simp [prefPref]⟩

theorem goodPref_linkPref : GoodPref linkPref := by
  refine ⟨by simp [linkPref], by simp [linkPref], by simp [linkPref],
    by simp [linkPref]⟩

theorem tagOf_cons_form (pref : Str) (k : Nat) :
    tagOf pref k = '!' :: 'T' :: 'A' :: 'G' :: '!' :: (pref ++ padTwo k) := rfl

theorem tagOf_ne_nil (pref : Str) (k : Nat) : tagOf pref k ≠ [] := by
  simp [tagOf_cons_form]

theorem tagOf_bang_positions {pref : Str} (hpref : GoodPref pref) (k i : Nat)
    (h : (tagOf pref k)[i]? = some '!') : i = 0 ∨ i = 4 := by
  match i with
  | 0 => exact Or.inl rfl
  | 1 => rw [tagOf_cons_form] at h; simp at h
  | 2 => rw [tagOf_cons_form] at h; simp at h
  | 3 => rw [tagOf_cons_form] at h; simp at h
  | 4 => exact Or.inr rfl
  | n + 5 =>
    rw [tagOf_cons_form] at h
    simp only [List.getElem?_cons_succ] at h
    have hmem : '!' ∈ pref ++ padTwo k := by
      obtain ⟨hlt, hget⟩ := List.getElem?_eq_some_iff.mp h
      rw [← hget]
      exact List.getElem_mem hlt
    rcases List.mem_append.mp hmem with hmem | hmem
    · exact absurd hmem hpref.2.1
    · have := padTwo_digits k '!' hmem
      simp only [show ('!' : Char).toNat = 33 from rfl] at this
      omega

/-- Occurrence localisation for the unmask direction: when every residual
chunk is free of the marker head, every marker index is below one hundred
(so all markers have the same length) and the category text satisfies
`GoodPref`, every occurrence of the marker of index `j` in the rendered
text is exactly a marker piece of index `j`, so the substitution factors
piece by piece. -/
theorem decode_factor (pref : Str) (hpref : GoodPref pref) (j : Nat) (hj : j < 100)
    (v : Str) :
    ∀ ps : List Piece, altOK ps →
      (∀ u, Piece.txt u ∈ ps → ¬ bangTag <:+: u) →
      (∀ k, Piece.tag k ∈ ps → k < 100) →
      replaceAllLit (render pref ps) (tagOf pref j) v =
        (ps.map (fun p =>
          match p with
          | Piece.txt u => u
          | Piece.tag k => if k = j then v else tagOf pref k)).flatten := by
  intro ps
  induction ps with
  | nil => intro _ _ _; simp [render_nil, replaceAllLit_nil]
  | cons p ps ih =>
    intro halt hchunk htags
    match p with
    | Piece.txt u =>
      rw [render_cons]
      show replaceAllLit (u ++ render pref ps) (tagOf pref j) v = _
      have hufree : ¬ bangTag <:+: u := hchunk u (List.mem_cons_self _ _)
      have hskip : replaceAllLit (u ++ render pref ps) (tagOf pref j) v =
          u ++ replaceAllLit (render pref ps) (tagOf pref j) v := by
        refine replaceAllLit_skip v u (render pref ps) ?_
        intro i hi hip
        rw [List.drop_append_of_le_length (Nat.le_of_lt hi)] at hip
        have hXne : u.drop i ≠ [] := drop_ne_nil_of_lt hi
        have hXsuf : u.drop i <:+ u := List.drop_suffix i u
        by_cases hlen : (tagOf pref j).length ≤ (u.drop i).length
        · have h₁ : tagOf pref j <+: u.drop i :=
            prefix_of_append_of_le hip hlen
          have h₂ : bangTag <+: u.drop i :=
            (bangTag_prefix_tagOf pref j).trans h₁
          exact hufree ((inf_of_pre h₂).trans (inf_of_suf hXsuf))
        · push_neg at hlen
          have hXpre : u.drop i <+: tagOf pref j :=
            List.prefix_of_prefix_length_le (List.prefix_append _ _) hip
              (Nat.le_of_lt hlen)
          by_cases h5 : 5 ≤ (u.drop i).length
          · have h₁ : bangTag <+: u.drop i :=
              List.prefix_of_prefix_length_le (bangTag_prefix_tagOf pref j) hXpre
                (by simpa [bangTag] using h5)
            exact hufree ((inf_of_pre h₁).trans (inf_of_suf hXsuf))
          · push_neg at h5
            obtain ⟨Y, hXY⟩ := hXpre
            have hYeq : Y = (tagOf pref j).drop (u.drop i).length := by
              rw [← hXY, List.drop_left]
            have hYpre : Y <+: render pref ps := by
              have h₁ : u.drop i ++ Y <+: u.drop i ++ render pref ps := by
                rw [hXY]; exact hip
              exact (List.prefix_append_right_inj _).mp h₁
            have hYne : Y ≠ [] := by
              intro hc
              have := congrArg List.length hXY
              rw [hc] at this
              simp only [List.append_nil] at this
              have h₂ := @tagOf_length pref _ hj
              omega
            match ps, halt with
            | [], _ =>
              rw [render_nil] at hYpre
              exact hYne (List.prefix_nil.mp hYpre)
            | Piece.txt w :: ps', halt =>
              have := (List.chain'_cons.mp halt).1
              simp [Piece.isTxtB] at this
            | Piece.tag k :: ps', halt =>
              rw [render_cons] at hYpre
              have hk100 : k < 100 := htags k (by simp)
              have hYhead : Y.head? = some '!' := by
                have h₁ : (renderP pref (Piece.tag k) ++ render pref ps').head? =
                    some '!' := by
                  show ((tagOf pref k) ++ render pref ps').head? = some '!'
                  rw [List.head?_append_of_ne_nil _ (tagOf_ne_nil pref k)]
                  rfl
                rw [head?_eq_of_ne_nil_of_pre hYpre hYne] at h₁
                exact h₁
              have hXlen04 : (u.drop i).length = 0 ∨ (u.drop i).length = 4 := by
                have h₁ : (tagOf pref j)[(u.drop i).length]? = some '!' := by
                  rw [← List.head?_drop, ← hYeq]
                  exact hYhead
                exact tagOf_bang_positions hpref j _ h₁
              have hX4 : (u.drop i).length = 4 := by
                rcases hXlen04 with h | h
                · exact absurd (List.length_eq_zero.mp h) hXne
                · exact h
              rw [hX4] at hYeq
              rw [show (tagOf pref j).drop 4 = '!' :: (pref ++ padTwo j) from rfl]
                at hYeq
              subst hYeq
              match pref, hpref with
              | p₀ :: pref₁, hpref =>
                rw [show renderP (p₀ :: pref₁) (Piece.tag k) =
                  '!' :: 'T' :: 'A' :: 'G' :: '!' :: ((p₀ :: pref₁) ++ padTwo k)
                  from rfl] at hYpre
                simp only [List.cons_append] at hYpre
                rw [List.cons_prefix_cons] at hYpre
                have h₂ := hYpre.2
                rw [List.cons_prefix_cons] at h₂
                exact hpref.2.2.1 (by rw [List.head?_cons, h₂.1])
      rw [hskip, ih (altOK_tail halt)
        (fun w hw => hchunk w (List.mem_cons_of_mem _ hw))
        (fun k hk => htags k (List.mem_cons_of_mem _ hk))]
      simp [renderP]
    | Piece.tag k =>
      rw [render_cons]
      show replaceAllLit (tagOf pref k ++ render pref ps) (tagOf pref j) v = _
      have hk100 : k < 100 := htags k (by simp)
      by_cases hkj : k = j
      · subst hkj
        rw [replaceAllLit_append_self (tagOf_ne_nil pref k) _ v]
        rw [ih (altOK_tail halt)
          (fun w hw => hchunk w (List.mem_cons_of_mem _ hw))
          (fun k' hk' => htags k' (List.mem_cons_of_mem _ hk'))]
        simp
      · have hskip : replaceAllLit (tagOf pref k ++ render pref ps) (tagOf pref j) v =
            tagOf pref k ++ replaceAllLit (render pref ps) (tagOf pref j) v := by
          refine replaceAllLit_skip v (tagOf pref k) (render pref ps) ?_
          intro i hi hip
          rw [List.drop_append_of_le_length (Nat.le_of_lt hi)] at hip
          have hdne : (tagOf pref k).drop i ≠ [] := drop_ne_nil_of_lt hi
          have hhd : (tagOf pref k)[i]? = some '!' := by
            have h₁ : ((tagOf pref k).drop i ++ render pref ps).head? = some '!' := by
              rw [head?_eq_of_ne_nil_of_pre hip (tagOf_ne_nil pref j)]
              rfl
            rw [List.head?_append_of_ne_nil _ hdne, List.head?_drop] at h₁
            exact h₁
          rcases tagOf_bang_positions hpref k i hhd with h0 | h4
          · subst h0
            simp only [List.drop_zero] at hip
            have hlen : (tagOf pref j).length ≤ (tagOf pref k).length := by
              rw [tagOf_length hj, tagOf_length hk100]
            have h₁ : tagOf pref j <+: tagOf pref k :=
              prefix_of_append_of_le hip hlen
            have h₂ : tagOf pref j = tagOf pref k := by
              refine List.IsPrefix.eq_of_length h₁ ?_
              rw [tagOf_length hj, tagOf_length hk100]
            exact hkj (tagOf_inj hk100 hj h₂.symm)
          · subst h4
            rw [show (tagOf pref k).drop 4 = '!' :: (pref ++ padTwo k) from rfl]
              at hip
            match pref, hpref with
            | p₀ :: pref₁, hpref =>
              rw [show tagOf (p₀ :: pref₁) j =
                '!' :: 'T' :: 'A' :: 'G' :: '!' :: ((p₀ :: pref₁) ++ padTwo j)
                from rfl] at hip
              simp only [List.cons_append] at hip
              rw [List.cons_prefix_cons] at hip
              have h₂ := hip.2
              rw [List.cons_prefix_cons] at h₂
              exact hpref.2.2.1 (by rw [List.head?_cons, ← h₂.1])
        rw [hskip, ih (altOK_tail halt)
          (fun w hw => hchunk w (List.mem_cons_of_mem _ hw))
          (fun k' hk' => htags k' (List.mem_cons_of_mem _ hk'))]
        simp only [List.map_cons, List.flatten_cons, if_neg hkj]

/-- Replaces the marker piece of index `j` by the text it stood for;
other pieces are untouched. -/
def substTag (j : Nat) (v : Str) : Piece → Piece
  | Piece.txt u => Piece.txt u
  | Piece.tag k => if k = j then Piece.txt v else Piece.tag k

theorem renderP_substTag (pref : Str) (j : Nat) (v : Str) (p : Piece) :
    renderP pref (substTag j v p) =
      (match p with
        | Piece.txt u => u
        | Piece.tag k => if k = j then v else tagOf pref k) := by
  match p with
  | Piece.txt u => rfl
  | Piece.tag k =>
    show renderP pref (if k = j then Piece.txt v else Piece.tag k) =
      (if k = j then v else tagOf pref k)
    by_cases h : k = j
    · rw [if_pos h, if_pos h]; rfl
    · rw [if_neg h, if_neg h]; rfl

theorem unrenderP_substTag (vals : Nat → Str) (j : Nat) (p : Piece) :
    unrenderP vals (substTag j (vals j) p) = unrenderP vals p := by
  match p with
  | Piece.txt u => rfl
  | Piece.tag k =>
    show unrenderP vals (if k = j then Piece.txt (vals j) else Piece.tag k) = _
    by_cases h : k = j
    · rw [if_pos h]
      show vals j = vals k
      rw [h]
    · rw [if_neg h]

theorem substTag_tag_mem {j : Nat} {v : Str} {k : Nat} :
    ∀ ps : List Piece, Piece.tag k ∈ ps.map (substTag j v) →
      Piece.tag k ∈ ps ∧ k ≠ j := by
  intro ps h
  obtain ⟨p, hp, hk⟩ := List.mem_map.mp h
  match p with
  | Piece.txt u =>
    exact absurd hk (by simp [substTag])
  | Piece.tag k₂ =>
    by_cases h₂ : k₂ = j
    · rw [show substTag j v (Piece.tag k₂) = Piece.txt v by
        simp [substTag, if_pos h₂]] at hk
      exact absurd hk (by simp)
    · rw [show substTag j v (Piece.tag k₂) = Piece.tag k₂ by
        simp [substTag, if_neg h₂]] at hk
      injection hk with h₃
      subst h₃
      exact ⟨hp, h₂⟩

/-- Merges adjacent residual chunks, restoring the alternation invariant
after a marker has been replaced by text. -/
def norm : List Piece → List Piece
  | [] => []
  | Piece.txt u :: rest =>
    match norm rest with
    | Piece.txt w :: rest' => Piece.txt (u ++ w) :: rest'
    | r => Piece.txt u :: r
  | Piece.tag k :: rest => Piece.tag k :: norm rest

theorem flatten_map_norm (f : Piece → Str)
    (hf : ∀ u w, f (Piece.txt (u ++ w)) = f (Piece.txt u) ++ f (Piece.txt w)) :
    ∀ ps : List Piece, ((norm ps).map f).flatten = (ps.map f).flatten := by
  intro ps
  induction ps with
  | nil => rfl
  | cons p ps ih =>
    match p with
    | Piece.tag k =>
      show ((Piece.tag k :: norm ps).map f).flatten = _
      simp only [List.map_cons, List.flatten_cons, ih]
    | Piece.txt u =>
      show ((match norm ps with
        | Piece.txt w :: rest' => Piece.txt (u ++ w) :: rest'
        | r => Piece.txt u :: r).map f).flatten = _
      match hn : norm ps with
      | [] =>
        simp only [List.map_cons, List.flatten_cons]
        rw [← ih, hn]
      | Piece.txt w :: rest' =>
        simp only [List.map_cons, List.flatten_cons]
        rw [← ih, hn]
        simp only [List.map_cons, List.flatten_cons, hf]
        simp
      | Piece.tag k :: rest' =>
        simp only [List.map_cons, List.flatten_cons]
        rw [← ih, hn]
        simp only [List.map_cons, List.flatten_cons]

theorem render_norm (pref : Str) (ps : List Piece) :
    render pref (norm ps) = render pref ps :=
  flatten_map_norm (renderP pref) (fun u w => by simp [renderP]) ps

theorem unrender_norm (vals : Nat → Str) (ps : List Piece) :
    unrender vals (norm ps) = unrender vals ps :=
  flatten_map_norm (unrenderP vals) (fun u w => by simp [unrenderP]) ps

theorem norm_tag_mem {k : Nat} :
    ∀ ps : List Piece, Piece.tag k ∈ norm ps → Piece.tag k ∈ ps := by
  intro ps
  induction ps with
  | nil => intro h; exact absurd h (List.not_mem_nil _)
  | cons p ps ih =>
    intro h
    match p with
    | Piece.tag k₂ =>
      rw [show norm (Piece.tag k₂ :: ps) = Piece.tag k₂ :: norm ps from rfl] at h
      rcases List.mem_cons.mp h with h | h
      · exact List.mem_cons.mpr (Or.inl h)
      · exact List.mem_cons.mpr (Or.inr (ih h))
    | Piece.txt u =>
      rw [show norm (Piece.txt u :: ps) =
        (match norm ps with
          | Piece.txt w :: rest' => Piece.txt (u ++ w) :: rest'
          | r => Piece.txt u :: r) from rfl] at h
      match hn : norm ps with
      | [] =>
        rw [hn] at h
        simp at h
      | Piece.txt w :: rest' =>
        rw [hn] at h
        rcases List.mem_cons.mp h with h | h
        · exact absurd h (by simp)
        · have : Piece.tag k ∈ norm ps := by
            rw [hn]
            exact List.mem_cons_of_mem _ h
          exact List.mem_cons_of_mem _ (ih this)
      | Piece.tag k₂ :: rest' =>
        rw [hn] at h
        rcases List.mem_cons.mp h with h | h
        · exact absurd h (by simp)
        · have : Piece.tag k ∈ norm ps := by
            rw [hn]
            exact h
          exact List.mem_cons_of_mem _ (ih this)

theorem norm_altOK : ∀ ps : List Piece, altOK (norm ps) := by
  intro ps
  induction ps with
  | nil => exact List.chain'_nil
  | cons p ps ih =>
    match p with
    | Piece.tag k =>
      show altOK (Piece.tag k :: norm ps)
      rw [altOK, List.chain'_cons']
      exact ⟨fun y _ hc => absurd hc.1 (by simp [Piece.isTxtB]), ih⟩
    | Piece.txt u =>
      show altOK (match norm ps with
        | Piece.txt w :: rest' => Piece.txt (u ++ w) :: rest'
        | r => Piece.txt u :: r)
      match hn : norm ps with
      | [] => exact List.chain'_singleton _
      | Piece.txt w :: rest' =>
        rw [hn] at ih
        rw [altOK, List.chain'_cons'] at ih ⊢
        refine ⟨?_, ih.2⟩
        intro y hy
        have := ih.1 y hy
        intro hc
        exact this ⟨rfl, hc.2⟩
      | Piece.tag k :: rest' =>
        rw [hn] at ih
        rw [altOK, List.chain'_cons']
        refine ⟨?_, ih⟩
        intro y hy hc
        simp only [List.head?_cons, Option.mem_def, Option.some.injEq] at hy
        subst hy
        exact absurd hc.2 (by simp [Piece.isTxtB])

theorem render_eq_unrender_of_no_tags (pref : Str) (vals : Nat → Str) :
    ∀ qs : List Piece, (∀ k, Piece.tag k ∉ qs) →
      render pref qs = unrender vals qs := by
  intro qs
  induction qs with
  | nil => intro _; rfl
  | cons p ps ih =>
    intro h
    rw [render_cons, unrender_cons]
    match p with
    | Piece.txt u =>
      rw [ih (fun k hk => h k (List.mem_cons_of_mem _ hk))]
      rfl
    | Piece.tag k => exact absurd (List.mem_cons_self _ _) (h k)

theorem decode_go (pref : Str) (hpref : GoodPref pref) (vals : Nat → Str)
    (raw : Str) (hraw : ¬ bangTag <:+: raw) :
    ∀ (ms : List Str) (i : Nat) (qs : List Piece),
      unrender vals qs = raw → altOK qs →
      (∀ k, Piece.tag k ∈ qs → i ≤ k ∧ k < i + ms.length) →
      i + ms.length ≤ 100 →
      (∀ j (hj : j < ms.length), vals (i + j) = ms.get ⟨j, hj⟩) →
      decodeTagsL (render pref qs) (expectedTags pref i ms) = raw := by
  intro ms
  induction ms with
  | nil =>
    intro i qs hun halt hbounds _ _
    show render pref qs = raw
    rw [render_eq_unrender_of_no_tags pref vals qs ?_, hun]
    intro k hk
    have := hbounds k hk
    simp only [List.length_nil] at this
    omega
  | cons m ms ih =>
    intro i qs hun halt hbounds hcount hvals
    have hvi : vals i = m := by
      have := hvals 0 (by simp)
      simpa using this
    have hi100 : i < 100 := by
      simp only [List.length_cons] at hcount
      omega
    show decodeTagsL (replaceAllLit (render pref qs) (tagOf pref i) m)
      (expectedTags pref (i + 1) ms) = raw
    have hchunkfree : ∀ u, Piece.txt u ∈ qs → ¬ bangTag <:+: u := by
      intro u hu hc
      have h₁ : u <:+: raw := by
        rw [← hun]
        exact txt_infix_unrender vals qs u hu
      exact hraw (hc.trans h₁)
    have hfac : replaceAllLit (render pref qs) (tagOf pref i) m =
        render pref (norm (qs.map (substTag i m))) := by
      rw [decode_factor pref hpref i hi100 m qs halt hchunkfree
        (fun k hk => by
          have ha := hbounds k hk
          have hb := hcount
          simp only [List.length_cons] at ha hb
          omega)]
      rw [render_norm]
      unfold render
      rw [List.map_map]
      congr 1
      refine List.map_congr_left ?_
      intro p _
      exact (renderP_substTag pref i m p).symm
    rw [hfac]
    refine ih (i + 1) (norm (qs.map (substTag i m))) ?_ (norm_altOK _) ?_ ?_ ?_
    · rw [unrender_norm, ← hun]
      unfold unrender
      rw [List.map_map]
      congr 1
      refine List.map_congr_left ?_
      intro p _
      show unrenderP vals (substTag i m p) = unrenderP vals p
      rw [← hvi]
      exact unrenderP_substTag vals i p
    · intro k hk
      have h₁ := norm_tag_mem _ hk
      obtain ⟨h₂, h₃⟩ := substTag_tag_mem _ h₁
      have := hbounds k h₂
      simp only [List.length_cons] at this
      constructor
      · omega
      · omega
    · simp only [List.length_cons] at hcount
      omega
    · intro j hj
      have := hvals (j + 1) (by simpa using Nat.succ_lt_succ hj)
      rw [show i + (j + 1) = i + 1 + j by omega] at this
      rw [this]
      rfl

/-- Every recorded text of the expected marker table is one of the
matches. -/
theorem expectedTags_mem_snd (pref : Str) :
    ∀ (ms : List Str) (i : Nat) (tv : Str × Str),
      tv ∈ expectedTags pref i ms → tv.2 ∈ ms := by
  intro ms
  induction ms with
  | nil =>
    intro i tv h
    exact absurd h (List.not_mem_nil _)
  | cons m ms ih =>
    intro i tv h
    rcases List.mem_cons.mp h with h | h
    · subst h
      exact List.mem_cons_self _ _
    · exact List.mem_cons_of_mem _ (ih (i + 1) tv h)

/-- Round trip of one masking pass: on input free of the marker head
`!TAG!` and of `$` (so that unmasking inserts the recorded texts
literally), for a pattern whose matches neither begin nor end with marker
characters, and with at most one hundred matches, unmasking restores the
input exactly. -/
theorem encodeTags_roundtrip (pref : Str) (hpref : GoodPref pref)
    (p : GPattern) (raw : Str) (hraw : ¬ bangTag <:+: raw)
    (hdollar : '$' ∉ raw)
    (hbound : ∀ m ∈ matchesOf p raw,
      (∀ c, m.head? = some c → isTagCharB pref c = false) ∧
      (∀ c, m.getLast? = some c → isTagCharB pref c = false))
    (hn : (matchesOf p raw).length ≤ 100) :
    decodeTags (encodeTags raw p pref).2 (encodeTags raw p pref).1 = raw := by
  have hvfree : ∀ tv ∈ expectedTags pref 0 (matchesOf p raw), '$' ∉ tv.2 := by
    intro tv hm hc
    have h₅ := expectedTags_mem_snd pref _ 0 tv hm
    exact hdollar
      (((matchesOf_inf p raw.length raw (Nat.le_refl _) tv.2 h₅).sublist).mem hc)
  have hgood : ∀ m ∈ matchesOf p raw, GoodMatch pref m := by
    intro m hm
    refine ⟨matchesOf_ne_nil p raw.length raw (Nat.le_refl _) m hm,
      (hbound m hm).1, (hbound m hm).2, ?_⟩
    intro hc
    exact hraw (hc.trans (matchesOf_inf p raw.length raw (Nat.le_refl _) m hm))
  have hvals : ∀ j (hj : j < (matchesOf p raw).length),
      (fun k => (matchesOf p raw).getD k []) (0 + j) =
        (matchesOf p raw).get ⟨j, hj⟩ := by
    intro j hj
    show (matchesOf p raw).getD (0 + j) [] = _
    rw [Nat.zero_add]
    exact List.getD_eq_getElem _ _ hj
  obtain ⟨ps', h₁, h₂, h₃, h₄⟩ := encode_all pref
    (fun k => (matchesOf p raw).getD k []) (matchesOf p raw) 0 [Piece.txt raw]
    (List.chain'_singleton _) hvals hgood
  have hrender0 : render pref [Piece.txt raw] = raw := by
    simp [render, renderP]
  rw [hrender0] at h₁
  rw [encodeTags_snd, encodeTags_fst, encodeRun_eq_L hpref.2.2.2, h₁,
    decodeTags_eq_L _ _ hvfree]
  have hun : unrender (fun k => (matchesOf p raw).getD k []) ps' = raw := by
    rw [h₂]
    simp [unrender, unrenderP]
  refine decode_go pref hpref _ raw hraw (matchesOf p raw) 0 ps' hun h₃ ?_
    (by simpa using hn) hvals
  intro k hk
  rcases h₄ k hk with h | h
  · simp at h
  · simpa using h

/-- Membership in the expected marker table determines the marker shape:
every recorded marker is `tagOf pref (i + j)` for an in-range offset `j`. -/
theorem expectedTags_mem_char (pref : Str) :
    ∀ (ms : List Str) (i : Nat) (t v : Str), (t, v) ∈ expectedTags pref i ms →
      ∃ j, j < ms.length ∧ t = tagOf pref (i + j) := by
  intro ms
  induction ms with
  | nil =>
    intro i t v h
    exact absurd h (List.not_mem_nil _)
  | cons m ms ih =>
    intro i t v h
    rcases List.mem_cons.mp h with h | h
    · refine ⟨0, by simp, ?_⟩
      rw [Nat.add_zero]
      exact congrArg Prod.fst h
    · obtain ⟨j, hj, ht⟩ := ih (i + 1) t v h
      refine ⟨j + 1, by simp [Nat.succ_lt_succ hj], ?_⟩
      rw [ht]
      congr 1
      omega

theorem findFirst_cons_of_some {tryAt : Str → Option (Str × Str)} {c : Char}
    {s m rest : Str} (h : tryAt (c :: s) = some (m, rest)) :
    findFirst tryAt (c :: s) = some ([], m, rest) := by
  unfold findFirst
  rw [h]

/-- On a run of `n` letters `a`, the literal global expression `a` matches
exactly `n` times, one single-character match each. -/
theorem matchesOf_litPat_replicate :
    ∀ n : Nat, matchesOf (litPat ['a']) (List.replicate n 'a') =
      List.replicate n (['a'] : Str) := by
  intro n
  induction n with
  | zero =>
    rw [List.replicate_zero, List.replicate_zero, matchesOf_nil]
  | succ n ih =>
    have hf : (litPat ['a']).find (List.replicate (n + 1) 'a') =
        some ([], ['a'], List.replicate n 'a') := by
      rw [List.replicate_succ]
      refine findFirst_cons_of_some ?_
      unfold litTry
      rw [if_pos ⟨by simp, isPrefixOf_iff.mpr ⟨List.replicate n 'a', rfl⟩⟩]
      rfl
    rw [matchesOf_eq_find, hf]
    show ['a'] :: matchesOf (litPat ['a']) (List.replicate n 'a') = _
    rw [ih, List.replicate_succ]

/-- One iteration of the do-while loop of the older revision's
`replaceAll(strRaw, strSearch, strReplace)`: the loop body is
`strCurr = strPrev.replace(strSearch, strReplace)` and the loop exits only
when an iteration leaves the text unchanged. -/
def oldReplaceAllStep (strSearch strReplace strPrev : Str) : Str :=
  replaceFirst strPrev strSearch strReplace

/-- Length bookkeeping for one first-occurrence replacement on a text
that contains the search text. -/
theorem replaceFirstLit_length_of_inf {pat s : Str} (rep : Str) (hpat : pat ≠ [])
    (h : pat <:+: s) :
    (replaceFirstLit s pat rep).length + pat.length = s.length + rep.length := by
  obtain ⟨a, b, hab, hr⟩ := replaceFirstLit_of_infix hpat rep s h
  subst hab
  rw [hr]
  simp only [List.length_append]
  omega

/-- If the replacement text itself contains the search text, a
first-occurrence replacement never removes the search text. -/
theorem replaceFirstLit_inf_mono {pat s : Str} (rep : Str) (hpat : pat ≠ [])
    (hrep : pat <:+: rep) (h : pat <:+: s) : pat <:+: replaceFirstLit s pat rep := by
  obtain ⟨a, b, hab, hr⟩ := replaceFirstLit_of_infix hpat rep s h
  rw [hr]
  exact hrep.trans ⟨a, b, rfl⟩

/-- Invariant of the older revision's fixpoint loop on the unmasking call
arising from the input `<pre>!TAG!PREF00</pre>`: after `n` iterations the
text still contains the search text and has grown to `11 + 11 * n`
characters. -/
theorem oldReplaceAll_loop_invariant :
    ∀ n : Nat,
      ("!TAG!PREF00".toList <:+:
        (oldReplaceAllStep ("!TAG!PREF00".toList) ("<pre>!TAG!PREF00</pre>".toList))^[n]
          ("!TAG!PREF00".toList)) ∧
      ((oldReplaceAllStep ("!TAG!PREF00".toList) ("<pre>!TAG!PREF00</pre>".toList))^[n]
          ("!TAG!PREF00".toList)).length = 11 + 11 * n := by
  intro n
  induction n with
  | zero =>
    exact ⟨List.infix_refl _, by decide⟩
  | succ n ih =>
    rw [Function.iterate_succ_apply']
    rw [show ∀ s : Str, oldReplaceAllStep ("!TAG!PREF00".toList)
        ("<pre>!TAG!PREF00</pre>".toList) s =
        replaceFirstLit s ("!TAG!PREF00".toList) ("<pre>!TAG!PREF00</pre>".toList)
      from fun s => replaceFirst_eq_lit (by decide) s]
    constructor
    · exact replaceFirstLit_inf_mono _ (by decide) (by decide) ih.1
    · have hlen := replaceFirstLit_length_of_inf ("<pre>!TAG!PREF00</pre>".toList)
        (by decide : ("!TAG!PREF00".toList : Str) ≠ []) ih.1
      rw [ih.2] at hlen
      have hp : ("!TAG!PREF00".toList : Str).length = 11 := by decide
      have hr : ("<pre>!TAG!PREF00</pre>".toList : Str).length = 22 := by decide
      rw [hp, hr] at hlen
      show (replaceFirstLit _ _ _).length = _
      omega

/-- The `publishConfig` sub-object of a package.json manifest, as read by
`genBaseHref`; an absent `registry` field is `none`. -/
structure PublishConfig where
  registry : Option String

/-- The fields of a package.json manifest read by `genBaseHref`; an absent
field is `none`. -/
structure Manifest where
  name : Option String
  publishConfig : Option PublishConfig

/-- `DEFAULT_REGISTRY` of the source. -/
def DEFAULT_REGISTRY : String := "http://localhost:4873"

/-- `REL_WEB_PATH` of the source. -/
def REL_WEB_PATH : String := "/-/web/detail/"

/-- Model of `genBaseHref(packageContent)` from the source:
`registry` is `packageContent?.publishConfig?.registry || DEFAULT_REGISTRY`
(the optional chain yields `undefined` on an absent field, and both
`undefined` and the empty string are falsy, selecting the default), and
the template literal prints an absent `packageContent.name` as the text
`undefined`. Returns the pair `(baseHref, baseHrefText)`. -/
def genBaseHref (packageContent : Manifest) : String × String :=
  let registry :=
    match packageContent.publishConfig with
    | none => DEFAULT_REGISTRY
    | some pc =>
      match pc.registry with
      | none => DEFAULT_REGISTRY
      | some r => if r = "" then DEFAULT_REGISTRY else r
  let packageName :=
    match packageContent.name with
    | none => "undefined"
    | some n => n
  let baseHref := registry ++ REL_WEB_PATH ++ packageName ++ "?"
  let baseHrefText := "<base href=\"" ++ baseHref ++ "\">"
  (baseHref, baseHrefText)

/-- Transcription of the specification sentence about the base reference,
written from the spec words alone: the base reference is the registry
followed by the relative web path, the package name and `?`; the registry is
`manifest.publishConfig.registry` when present and non-empty and the fixed
default `http://localhost:4873` otherwise; an absent name appears as the
literal text `undefined`. -/
def genBaseHrefSpec (m : Manifest) : String :=
  let registry :=
    match m.publishConfig with
    | some pc =>
      match pc.registry with
      | some r => if r ≠ "" then r else "http://localhost:4873"
      | none => "http://localhost:4873"
    | none => "http://localhost:4873"
  let packageName :=
    match m.name with
    | some n => n
    | none => "undefined"
  registry ++ "/-/web/detail/" ++ packageName ++ "?"

mutual

/-- JSON value, the content domain of the package.json manipulation;
arrays and objects are separate mutual types so that every function on
values is structurally recursive. -/
inductive JVal where
  | str (s : String)
  | num (n : Int)
  | bool (b : Bool)
  | null
  | arr (items : JArr)
  | obj (fields : JObj)

/-- JSON array: a list of JSON values. -/
inductive JArr where
  | nil
  | cons (hd : JVal) (tl : JArr)

/-- JSON object: an insertion-ordered association list of fields. -/
inductive JObj where
  | nil
  | cons (key : String) (val : JVal) (tl : JObj)

end

/-- The JavaScript property write `packageObj.readme = readmeText` on an
object modelled as an insertion-ordered field list: overwrite the value in
place when the key is present, append the field otherwise. -/
def setField : JObj → String → JVal → JObj
  | JObj.nil, k, v => JObj.cons k v JObj.nil
  | JObj.cons k₀ v₀ rest, k, v =>
    if k₀ = k then JObj.cons k v rest else JObj.cons k₀ v₀ (setField rest k v)

/-- JavaScript property read on the ordered field list. -/
def lookupField : JObj → String → Option JVal
  | JObj.nil, _ => none
  | JObj.cons k₀ v₀ rest, k => if k₀ = k then some v₀ else lookupField rest k

/-- The property names of an object, in insertion order. -/
def JObj.keys : JObj → List String
  | JObj.nil => []
  | JObj.cons k _ rest => k :: JObj.keys rest

/-- Lower-case hexadecimal digit, for JSON control-character escapes. -/
def hexDigit (n : Nat) : Char :=
  match n with
  | 0 => '0' | 1 => '1' | 2 => '2' | 3 => '3' | 4 => '4'
  | 5 => '5' | 6 => '6' | 7 => '7' | 8 => '8' | 9 => '9'
  | 10 => 'a' | 11 => 'b' | 12 => 'c' | 13 => 'd' | 14 => 'e'
  | _ => 'f'

/-- JSON string-character escaping, as performed by `JSON.stringify`. -/
def jsonEscapeChar (c : Char) : Str :=
  if c = '"' then ['\\', '"']
  else if c = '\\' then ['\\', '\\']
  else if c = '\n' then ['\\', 'n']
  else if c = '\r' then ['\\', 'r']
  else if c = '\t' then ['\\', 't']
  else if c = '\x08' then ['\\', 'b']
  else if c = '\x0c' then ['\\', 'f']
  else if c.toNat < 32 then
    ['\\', 'u', '0', '0', hexDigit (c.toNat / 16), hexDigit (c.toNat % 16)]
  else [c]

def jsonEscape (s : Str) : Str := (s.map jsonEscapeChar).flatten

mutual

/-- 2-space-indent pretty printer of one JSON value at indentation
`level`, as produced by `JSON.stringify(value, null, 2)`. -/
def jsonStrV (level : Nat) : JVal → Str
  | JVal.str s => '"' :: jsonEscape s.toList ++ ['"']
  | JVal.num n => (toString n).toList
  | JVal.bool b => if b then "true".toList else "false".toList
  | JVal.null => "null".toList
  | JVal.arr JArr.nil => ['[', ']']
  | JVal.arr (JArr.cons x xs) =>
    '[' :: '\n' :: jsonStrItems (level + 2) (JArr.cons x xs) ++
      '\n' :: List.replicate level ' ' ++ [']']
  | JVal.obj JObj.nil => ['\x7b', '\x7d']
  | JVal.obj (JObj.cons k v fs) =>
    '\x7b' :: '\n' :: jsonStrFields (level + 2) (JObj.cons k v fs) ++
      '\n' :: List.replicate level ' ' ++ ['\x7d']

/-- Comma-and-newline separated indented array items. -/
def jsonStrItems (level : Nat) : JArr → Str
  | JArr.nil => []
  | JArr.cons x JArr.nil => List.replicate level ' ' ++ jsonStrV level x
  | JArr.cons x (JArr.cons y ys) =>
    List.replicate level ' ' ++ jsonStrV level x ++ ',' :: '\n' ::
      jsonStrItems level (JArr.cons y ys)

/-- Comma-and-newline separated indented object fields. -/
def jsonStrFields (level : Nat) : JObj → Str
  | JObj.nil => []
  | JObj.cons k v JObj.nil =>
    List.replicate level ' ' ++ '"' :: jsonEscape k.toList ++
      '"' :: ':' :: ' ' :: jsonStrV level v
  | JObj.cons k v (JObj.cons k₁ v₁ fs) =>
    List.replicate level ' ' ++ '"' :: jsonEscape k.toList ++
      '"' :: ':' :: ' ' :: jsonStrV level v ++ ',' :: '\n' ::
        jsonStrFields level (JObj.cons k₁ v₁ fs)

end

/-- The text produced by `JSON.stringify(value, null, 2)`, the
serialization used by `writeFileJSON`. -/
def jsonStringify (v : JVal) : Str := jsonStrV 0 v

/-- Pure content model of `updatePackage({packagePathname, readmeText})`
from the source: the loaded package object gets its `readme` property set
to the readme text (`packageObj.readme = readmeText`) and the updated
object is written back serialized by `JSON.stringify(packageObj, null, 2)`
(`writeFileJSON`). Returns the updated record and the text written to the
package file. -/
def updatePackage (packageObj : JObj) (readmeText : String) : JObj × Str :=
  let newObj := setField packageObj "readme" (JVal.str readmeText)
  (newObj, jsonStringify (JVal.obj newObj))

theorem lookupField_setField_same : ∀ (r : JObj) (k : String) (v : JVal),
    lookupField (setField r k v) k = some v
  | JObj.nil, k, v => by simp [setField, lookupField]
  | JObj.cons k₀ v₀ rest, k, v => by
    by_cases h : k₀ = k
    · simp [setField, lookupField, h]
    · simp [setField, lookupField, h, lookupField_setField_same rest k v]

theorem lookupField_setField_other : ∀ (r : JObj) (k k₁ : String) (v : JVal),
    k₁ ≠ k → lookupField (setField r k v) k₁ = lookupField r k₁
  | JObj.nil, k, k₁, v, h => by simp [setField, lookupField, Ne.symm h]
  | JObj.cons k₀ v₀ rest, k, k₁, v, h => by
    by_cases hk : k₀ = k
    · subst hk
      simp [setField, lookupField, Ne.symm h]
    · by_cases hk₁ : k₀ = k₁
      · subst hk₁
        simp [setField, lookupField, hk]
      · simp [setField, lookupField, hk, hk₁,
          lookupField_setField_other rest k k₁ v h]

theorem setField_keys : ∀ (r : JObj) (k : String) (v : JVal),
    (setField r k v).keys =
      if (JObj.keys r).contains k then JObj.keys r
      else JObj.keys r ++ [k]
  | JObj.nil, k, v => by simp [setField, JObj.keys]
  | JObj.cons k₀ v₀ rest, k, v => by
    by_cases h : k₀ = k
    · subst h
      simp [setField, JObj.keys]
    · simp only [setField, if_neg h, JObj.keys, setField_keys rest k v,
        List.contains_cons]
      rw [beq_eq_false_iff_ne.mpr (Ne.symm h)]
      simp only [Bool.false_or]
      by_cases hc : (JObj.keys rest).contains k = true
      · rw [if_pos hc, if_pos hc]
      · rw [if_neg hc, if_neg hc]
        rw [List.cons_append]

/-- `DEFAULT_README_PATHNAME` of the source. -/
def DEFAULT_README_PATHNAME : String := "./README.md"

/-- Executable model of the case-insensitive test `lastArg.match(/\.md$/i)`
of the entry script: the text ends in `.md`, letters compared
case-insensitively. -/
def endsMdCI (s : String) : Bool :=
  match s.toList.reverse with
  | c₁ :: c₂ :: c₃ :: _ =>
    (c₁ == 'd' || c₁ == 'D') && (c₂ == 'm' || c₂ == 'M') && c₃ == '.'
  | _ => false

/-- Model of the entry script joined with the pathname defaulting of
`processReadme`: `process.argv` is the node executable path, the script
path and then the user arguments, so `process.argv[process.argv.length - 1]`
is the last user argument, or the script path when none is given; that
text is taken as the readme pathname when it matches `/\.md$/i`, and
otherwise `processReadme` runs on the default `./README.md` (the
`readmePathname = DEFAULT_README_PATHNAME` parameter default applied to
the `undefined` produced by the entry script). -/
def cliReadmePathname (scriptPath : String) (args : List String) : String :=
  let lastArg := args.getLastD scriptPath
  if endsMdCI lastArg then lastArg else DEFAULT_README_PATHNAME

/-- Packed marker space covering both masking passes of `fixLinks`:
indices below 100 are the preformatted markers `!TAG!PREFxx`, indices from
100 the link markers `!TAG!LINKxx`. -/
def tag2 (k : Nat) : Str :=
  if k < 100 then tagOf prefPref k else tagOf linkPref (k - 100)

theorem tag2_ne_nil (k : Nat) : tag2 k ≠ [] := by
  unfold tag2
  by_cases h : k < 100
  · rw [if_pos h]
    exact tagOf_ne_nil _ _
  · rw [if_neg h]
    exact tagOf_ne_nil _ _

theorem tag2_length {k : Nat} (h : k < 200) : (tag2 k).length = 11 := by
  unfold tag2
  by_cases h₁ : k < 100
  · rw [if_pos h₁, tagOf_length h₁]
    rfl
  · rw [if_neg h₁, tagOf_length (by omega : k - 100 < 100)]
    rfl

theorem bangTag_prefix_tag2 (k : Nat) : bangTag <+: tag2 k := by
  unfold tag2
  by_cases h : k < 100
  · rw [if_pos h]
    exact bangTag_prefix_tagOf _ _
  · rw [if_neg h]
    exact bangTag_prefix_tagOf _ _

/-- Every packed marker is `!TAG!` followed by a category head that is
neither `T` nor `!`. -/
theorem tag2_shape (k : Nat) :
    ∃ c tail, tag2 k = '!' :: 'T' :: 'A' :: 'G' :: '!' :: c :: tail ∧
      c ≠ 'T' ∧ c ≠ '!' := by
  unfold tag2
  by_cases h : k < 100
  · rw [if_pos h]
    exact ⟨'P', ['R', 'E', 'F'] ++ padTwo k, rfl, by decide, by decide⟩
  · rw [if_neg h]
    exact ⟨'L', ['I', 'N', 'K'] ++ padTwo (k - 100), rfl, by decide, by decide⟩

theorem tag2_head (k : Nat) : (tag2 k).head? = some '!' := by
  obtain ⟨c, tail, he, _, _⟩ := tag2_shape k
  rw [he]
  rfl

theorem tag2_bang_positions (k i : Nat)
    (h : (tag2 k)[i]? = some '!') : i = 0 ∨ i = 4 := by
  unfold tag2 at h
  by_cases h₁ : k < 100
  · rw [if_pos h₁] at h
    exact tagOf_bang_positions goodPref_prefPref k i h
  · rw [if_neg h₁] at h
    exact tagOf_bang_positions goodPref_linkPref (k - 100) i h

theorem tag2_inj {j k : Nat} (hj : j < 200) (hk : k < 200)
    (h : tag2 j = tag2 k) : j = k := by
  unfold tag2 at h
  by_cases h₁ : j < 100 <;> by_cases h₂ : k < 100
  · rw [if_pos h₁, if_pos h₂] at h
    exact tagOf_inj h₁ h₂ h
  · rw [if_pos h₁, if_neg h₂] at h
    exfalso
    unfold tagOf at h
    injection h with _ h
    injection h with _ h
    injection h with _ h
    injection h with _ h
    injection h with _ h
    rw [show prefPref ++ padTwo j = 'P' :: (['R', 'E', 'F'] ++ padTwo j) from rfl,
      show linkPref ++ padTwo (k - 100) =
        'L' :: (['I', 'N', 'K'] ++ padTwo (k - 100)) from rfl] at h
    injection h with h₃ _
    exact absurd h₃ (by decide)
  · rw [if_neg h₁, if_pos h₂] at h
    exfalso
    unfold tagOf at h
    injection h with _ h
    injection h with _ h
    injection h with _ h
    injection h with _ h
    injection h with _ h
    rw [show linkPref ++ padTwo (j - 100) =
        'L' :: (['I', 'N', 'K'] ++ padTwo (j - 100)) from rfl,
      show prefPref ++ padTwo k = 'P' :: (['R', 'E', 'F'] ++ padTwo k) from rfl] at h
    injection h with h₃ _
    exact absurd h₃ (by decide)
  · rw [if_neg h₁, if_neg h₂] at h
    have := tagOf_inj (by omega : j - 100 < 100) (by omega : k - 100 < 100) h
    omega

/-- Character class of both marker families together. -/
def isTag2CharB (c : Char) : Bool :=
  isTagCharB prefPref c || isTagCharB linkPref c

theorem tag2_chars (k : Nat) : ∀ c ∈ tag2 k, isTag2CharB c = true := by
  intro c hc
  unfold tag2 at hc
  unfold isTag2CharB
  by_cases h₁ : k < 100
  · rw [if_pos h₁] at hc
    rw [tagOf_chars prefPref k c hc]
    simp
  · rw [if_neg h₁] at hc
    rw [tagOf_chars linkPref (k - 100) c hc]
    simp

/-- Text of one piece in the combined two-family view: a chunk is itself,
a marker piece is the packed marker. -/
def renderP2 : Piece → Str
  | Piece.txt u => u
  | Piece.tag k => tag2 k

/-- Combined-view masked text of a piece list: chunks interleaved with
packed markers of both families. -/
def render2 (ps : List Piece) : Str := (ps.map renderP2).flatten

theorem render2_nil : render2 [] = [] := rfl

theorem render2_cons (p : Piece) (ps : List Piece) :
    render2 (p :: ps) = renderP2 p ++ render2 ps := by
  simp [render2]

theorem render2_append (a b : List Piece) :
    render2 (a ++ b) = render2 a ++ render2 b := by
  unfold render2
  simp

theorem render2_norm (ps : List Piece) : render2 (norm ps) = render2 ps :=
  flatten_map_norm renderP2 (fun u w => rfl) ps

theorem render2_eq_unrender_of_no_tags (vals : Nat → Str) :
    ∀ qs : List Piece, (∀ k, Piece.tag k ∉ qs) →
      render2 qs = unrender vals qs := by
  intro qs
  induction qs with
  | nil => intro _; rfl
  | cons p ps ih =>
    intro h
    rw [render2_cons, unrender_cons]
    match p with
    | Piece.txt u =>
      rw [ih (fun k hk => h k (List.mem_cons_of_mem _ hk))]
      rfl
    | Piece.tag k => exact absurd (List.mem_cons_self _ _) (h k)

theorem renderP2_substTag (j : Nat) (v : Str) (p : Piece) :
    renderP2 (substTag j v p) =
      (match p with
        | Piece.txt u => u
        | Piece.tag k => if k = j then v else tag2 k) := by
  match p with
  | Piece.txt u => rfl
  | Piece.tag k =>
    show renderP2 (if k = j then Piece.txt v else Piece.tag k) =
      (if k = j then v else tag2 k)
    by_cases h : k = j
    · rw [if_pos h, if_pos h]
      rfl
    · rw [if_neg h, if_neg h]
      rfl

theorem interleave_render2 (j : Nat) :
    ∀ parts : List Str,
      render2 (interleaveTag j parts) = joinSep (tag2 j) parts
  | [] => by simp [interleaveTag, render2_nil, joinSep]
  | [u] => by simp [interleaveTag, render2, renderP2, joinSep]
  | u :: v :: us => by
    show render2 (Piece.txt u :: Piece.tag j :: interleaveTag j (v :: us)) = _
    rw [render2_cons, render2_cons, interleave_render2 j (v :: us), joinSep_cons_cons]
    simp [renderP2]

theorem expand_render2 (j : Nat) (m : Str) :
    ∀ ps : List Piece,
      render2 (ps.flatMap (expandPiece j m)) =
        (ps.map (fun p =>
          match p with
          | Piece.txt u => replaceAllLit u m (tag2 j)
          | Piece.tag k => tag2 k)).flatten
  | [] => rfl
  | p :: ps => by
    rw [List.flatMap_cons, render2_append, expand_render2 j m ps, List.map_cons,
      List.flatten_cons]
    congr 1
    match p with
    | Piece.txt u =>
      show render2 (interleaveTag j (splitAll u m)) = replaceAllLit u m (tag2 j)
      rw [interleave_render2, replaceAllLit_eq_joinSep]
    | Piece.tag k => simp [render2, renderP2, expandPiece]

/-- Conditions on a matched text that make masking it unambiguous in the
combined two-family view: non-empty, boundary characters outside both
marker character classes, and free of the marker head `!TAG!`.  Both the
preformatted matches (`<`…`>`) and the link matches (`[`…`)`) satisfy
them. -/
def GoodVal (v : Str) : Prop :=
  v ≠ [] ∧ (∀ c, v.head? = some c → isTag2CharB c = false) ∧
    (∀ c, v.getLast? = some c → isTag2CharB c = false) ∧ ¬ bangTag <:+: v

/-- Combined-view masking factorization: replacing a matched text whose
boundary characters are outside both marker character classes acts on the
chunks alone and leaves every packed marker intact. -/
theorem encode_factor2 (m t : Str) (hm : m ≠ [])
    (hhead : ∀ c, m.head? = some c → isTag2CharB c = false)
    (hlast : ∀ c, m.getLast? = some c → isTag2CharB c = false)
    (hfree : ¬ bangTag <:+: m) :
    ∀ ps : List Piece, altOK ps →
      replaceAllLit (render2 ps) m t =
        (ps.map (fun p =>
          match p with
          | Piece.txt u => replaceAllLit u m t
          | Piece.tag k => tag2 k)).flatten := by
  intro ps
  induction ps with
  | nil => intro _; simp [render2_nil, replaceAllLit_nil]
  | cons p ps ih =>
    intro halt
    match p with
    | Piece.txt u =>
      rw [render2_cons]
      show replaceAllLit (u ++ render2 ps) m t = _
      have hsplit : replaceAllLit (u ++ render2 ps) m t =
          replaceAllLit u m t ++ replaceAllLit (render2 ps) m t := by
        refine replaceAllLit_split hm t u.length u (render2 ps) (Nat.le_refl _) ?_
        intro i hi hip
        by_contra hgt
        push_neg at hgt
        rw [List.drop_append_of_le_length (Nat.le_of_lt hi)] at hip
        have hXne : u.drop i ≠ [] := drop_ne_nil_of_lt hi
        have hXpre : u.drop i <+: m := by
          refine List.prefix_of_prefix_length_le (List.prefix_append _ _) hip ?_
          simp only [List.length_drop]
          omega
        obtain ⟨Y, hXY⟩ := hXpre
        have hYne : Y ≠ [] := by
          intro hc
          subst hc
          have := congrArg List.length hXY
          simp only [List.append_nil, List.length_drop] at this
          omega
        have hYpre : Y <+: render2 ps := by
          have h₁ : u.drop i ++ Y <+: u.drop i ++ render2 ps := by
            rw [hXY]
            exact hip
          exact (List.prefix_append_right_inj _).mp h₁
        match ps, halt with
        | [], _ =>
          rw [render2_nil] at hYpre
          exact hYne (List.prefix_nil.mp hYpre)
        | Piece.txt w :: ps', halt =>
          have := (List.chain'_cons.mp halt).1
          simp [Piece.isTxtB] at this
        | Piece.tag k :: ps', halt =>
          rw [render2_cons] at hYpre
          show False
          by_cases hYlen : Y.length ≤ (tag2 k).length
          · have hYtk : Y <+: tag2 k := prefix_of_append_of_le hYpre hYlen
            match hYl : Y.getLast? with
            | none => exact hYne (List.getLast?_eq_none_iff.mp hYl)
            | some c =>
              have hml : m.getLast? = some c := by
                rw [← hXY, List.getLast?_append_of_ne_nil _ hYne]
                exact hYl
              have hcY : c ∈ Y := List.mem_of_mem_getLast? hYl
              have hcT : c ∈ tag2 k := hYtk.mem hcY
              have h₁ := tag2_chars k c hcT
              rw [hlast c hml] at h₁
              exact absurd h₁ (by simp)
          · push_neg at hYlen
            have htkY : tag2 k <+: Y :=
              List.prefix_of_prefix_length_le (List.prefix_append _ _) hYpre
                (Nat.le_of_lt hYlen)
            have hbm : bangTag <:+: m := by
              have h₁ : bangTag <+: Y := (bangTag_prefix_tag2 k).trans htkY
              have h₂ : Y <:+ m := ⟨u.drop i, hXY⟩
              exact (inf_of_pre h₁).trans (inf_of_suf h₂)
            exact hfree hbm
      rw [hsplit, ih (altOK_tail halt)]
      simp [renderP2]
    | Piece.tag k =>
      rw [render2_cons]
      show replaceAllLit (tag2 k ++ render2 ps) m t = _
      have hskip : replaceAllLit (tag2 k ++ render2 ps) m t =
          tag2 k ++ replaceAllLit (render2 ps) m t := by
        refine replaceAllLit_skip t (tag2 k) (render2 ps) ?_
        intro i hi hip
        rw [List.drop_append_of_le_length (Nat.le_of_lt hi)] at hip
        have hne : (tag2 k).drop i ≠ [] := drop_ne_nil_of_lt hi
        match hmh : m.head? with
        | none => exact hm (List.head?_eq_none_iff.mp hmh)
        | some c =>
          have h₁ : ((tag2 k).drop i ++ render2 ps).head? = some c := by
            rw [head?_eq_of_ne_nil_of_pre hip hm]
            exact hmh
          rw [List.head?_append_of_ne_nil _ hne, List.head?_drop] at h₁
          have hcmem : c ∈ tag2 k := by
            have := List.getElem?_eq_some_iff.mp h₁
            obtain ⟨hlt, hget⟩ := this
            rw [← hget]
            exact List.getElem_mem hlt
          have h₂ := tag2_chars k c hcmem
          rw [hhead c hmh] at h₂
          exact absurd h₂ (by simp)
      rw [hskip, ih (altOK_tail halt)]
      simp [renderP2]

/-- Every chunk of a joined list occurs inside the joined text. -/
theorem joinSep_mem_inf (sep : Str) {u : Str} :
    ∀ us : List Str, u ∈ us → u <:+: joinSep sep us
  | [] => by simp
  | [v] => by
    intro h
    rw [List.mem_singleton] at h
    subst h
    exact List.infix_refl _
  | v :: w :: us => by
    intro h
    rw [joinSep_cons_cons]
    rcases List.mem_cons.mp h with h | h
    · subst h
      exact inf_of_pre ((List.prefix_append _ _).trans (List.prefix_append _ _))
    · exact (joinSep_mem_inf sep (w :: us) h).trans
        (inf_of_suf ⟨v ++ sep, by simp⟩)

/-- Every chunk produced by splitting a text occurs inside that text. -/
theorem splitAll_mem_inf {u s pat : Str} (h : u ∈ splitAll s pat) : u <:+: s := by
  have h₂ := joinSep_mem_inf pat (splitAll s pat) h
  rw [splitAll_joinSep] at h₂
  exact h₂

/-- A chunk of an interleaving is one of the interleaved parts. -/
theorem interleave_txt_mem {j : Nat} {u : Str} :
    ∀ parts : List Str, Piece.txt u ∈ interleaveTag j parts → u ∈ parts
  | [] => by simp [interleaveTag]
  | [v] => by
    intro h
    simp only [interleaveTag, List.mem_singleton, Piece.txt.injEq] at h
    simp [h]
  | v :: w :: us => by
    intro h
    simp only [interleaveTag] at h
    rcases List.mem_cons.mp h with h | h
    · rw [Piece.txt.injEq] at h
      rw [h]
      exact List.mem_cons_self _ _
    · rcases List.mem_cons.mp h with h | h
      · exact Piece.noConfusion h
      · exact List.mem_cons_of_mem _ (interleave_txt_mem (w :: us) h)

/-- Every chunk of an expanded piece comes from a chunk piece and occurs
inside it. -/
theorem expand_txt_mem {j : Nat} {m u : Str} :
    ∀ p : Piece, Piece.txt u ∈ expandPiece j m p →
      ∃ w, p = Piece.txt w ∧ u <:+: w
  | Piece.txt w => by
    intro h
    exact ⟨w, rfl, splitAll_mem_inf (interleave_txt_mem _ h)⟩
  | Piece.tag k => by
    intro h
    rw [show expandPiece j m (Piece.tag k) = [Piece.tag k] from rfl,
      List.mem_singleton] at h
    exact Piece.noConfusion h

/-- Combined-view masking pass: running one `encodeTags` loop (with
literal marker insertion) over a combined-view text masks each match into
a fresh packed marker of the pass's family, preserving the unmasked text,
the chunk-marker alternation, and the marker bookkeeping. -/
theorem encode_all2 (off : Nat) (pref : Str)
    (htag : ∀ k, k < 100 → tagOf pref k = tag2 (off + k)) (vals : Nat → Str) :
    ∀ (ms : List Str) (i : Nat) (ps : List Piece),
      altOK ps →
      i + ms.length ≤ 100 →
      (∀ j (hj : j < ms.length), vals (off + (i + j)) = ms.get ⟨j, hj⟩) →
      (∀ m ∈ ms, GoodVal m) →
      ∃ ps' : List Piece,
        encodeRunL pref i ms (render2 ps) = render2 ps' ∧
        unrender vals ps' = unrender vals ps ∧
        altOK ps' ∧
        (∀ k, Piece.tag k ∈ ps' → Piece.tag k ∈ ps ∨
          (off + i ≤ k ∧ k < off + i + ms.length)) ∧
        (∀ u, Piece.txt u ∈ ps' → ∃ w, Piece.txt w ∈ ps ∧ u <:+: w) := by
  intro ms
  induction ms with
  | nil =>
    intro i ps halt _ _ _
    exact ⟨ps, rfl, rfl, halt, fun k hk => Or.inl hk,
      fun u hu => ⟨u, hu, List.infix_refl u⟩⟩
  | cons m ms ih =>
    intro i ps halt hcount hvals hgood
    obtain ⟨hm, hhead, hlast, hfree⟩ := hgood m (List.mem_cons_self m ms)
    have hi100 : i < 100 := by
      simp only [List.length_cons] at hcount
      omega
    have hvi : vals (off + i) = m := by
      have := hvals 0 (by simp)
      simpa using this
    have hstep : replaceAllLit (render2 ps) m (tag2 (off + i)) =
        render2 (ps.flatMap (expandPiece (off + i) m)) := by
      rw [encode_factor2 m (tag2 (off + i)) hm hhead hlast hfree ps halt,
        expand_render2]
    obtain ⟨ps', h₁, h₂, h₃, h₄, h₅⟩ := ih (i + 1) (ps.flatMap (expandPiece (off + i) m))
      (expand_altOK ps halt)
      (by simp only [List.length_cons] at hcount; omega)
      (fun j hj => by
        have := hvals (j + 1) (by simpa using Nat.succ_lt_succ hj)
        rw [show off + (i + (j + 1)) = off + (i + 1 + j) by omega] at this
        rw [this]
        rfl)
      (fun m₂ hm₂ => hgood m₂ (List.mem_cons_of_mem m hm₂))
    refine ⟨ps', ?_, ?_, h₃, ?_, ?_⟩
    · show encodeRunL pref (i + 1) ms (replaceAllLit (render2 ps) m (tagOf pref i)) = _
      rw [htag i hi100, hstep]
      exact h₁
    · rw [h₂, expand_unrender vals (off + i) m hvi]
    · intro k hk
      rcases h₄ k hk with h | h
      · rcases expand_tag_mem ps h with h₆ | h₆
        · exact Or.inl h₆
        · subst h₆
          refine Or.inr ⟨Nat.le_refl _, ?_⟩
          simp only [List.length_cons]
          omega
      · refine Or.inr ⟨by omega, ?_⟩
        simp only [List.length_cons]
        omega
    · intro u hu
      obtain ⟨w, hw, hinf⟩ := h₅ u hu
      obtain ⟨p, hp, hw₂⟩ := List.mem_flatMap.mp hw
      obtain ⟨w₂, hp₂, hinf₂⟩ := expand_txt_mem p hw₂
      subst hp₂
      exact ⟨w₂, hp, hinf.trans hinf₂⟩

/-- A prefix of a concatenation is a prefix of the left part or extends it
into the right part. -/
theorem prefix_append_cases {t X Y : Str} (h : t <+: X ++ Y) :
    t <+: X ∨ ∃ t₂, t = X ++ t₂ ∧ t₂ <+: Y := by
  by_cases hl : t.length ≤ X.length
  · exact Or.inl (prefix_of_append_of_le h hl)
  · push_neg at hl
    obtain ⟨r, hr⟩ := h
    have h₁ : t.take X.length = X := by
      have := congrArg (List.take X.length) hr
      rw [List.take_append_of_le_length (Nat.le_of_lt hl), List.take_left] at this
      exact this
    have h₂ : t.drop X.length ++ r = Y := by
      have := congrArg (List.drop X.length) hr
      rw [List.drop_append_of_le_length (Nat.le_of_lt hl), List.drop_left] at this
      exact this
    refine Or.inr ⟨t.drop X.length, ?_, ⟨r, h₂⟩⟩
    have h₃ := (List.take_append_drop X.length t).symm
    rw [h₁] at h₃
    exact h₃

/-- An infix of a concatenation lies in the left part, lies in the right
part, or straddles the border: a non-empty suffix of the left part
followed by a non-empty prefix of the right part. -/
theorem infix_append_cases {t : Str} : ∀ (X Y : Str), t <:+: X ++ Y →
    t <:+: X ∨ t <:+: Y ∨
      ∃ t₁ t₂, t = t₁ ++ t₂ ∧ t₁ ≠ [] ∧ t₂ ≠ [] ∧ t₁ <:+ X ∧ t₂ <+: Y := by
  intro X
  induction X with
  | nil =>
    intro Y h
    exact Or.inr (Or.inl (by simpa using h))
  | cons x X ih =>
    intro Y h
    rw [List.cons_append] at h
    rcases List.infix_cons_iff.mp h with h₁ | h₁
    · match t, h₁ with
      | [], _ => exact Or.inl List.nil_infix
      | d :: t₀, h₁ =>
        obtain ⟨hd, ht₀⟩ := List.cons_prefix_cons.mp h₁
        subst hd
        rcases prefix_append_cases ht₀ with h₂ | ⟨t₂, h₂, h₃⟩
        · exact Or.inl (inf_of_pre (List.cons_prefix_cons.mpr ⟨rfl, h₂⟩))
        · by_cases ht₂ : t₂ = []
          · subst ht₂
            rw [List.append_nil] at h₂
            subst h₂
            exact Or.inl (inf_of_pre (List.prefix_refl _))
          · refine Or.inr (Or.inr ⟨d :: X, t₂, ?_, by simp, ht₂,
              List.suffix_refl _, h₃⟩)
            rw [h₂]
            rfl
    · rcases ih Y h₁ with h₂ | h₂ | ⟨t₁, t₂, h₂, h₃, h₄, h₅, h₆⟩
      · exact Or.inl (List.infix_cons h₂)
      · exact Or.inr (Or.inl h₂)
      · exact Or.inr (Or.inr ⟨t₁, t₂, h₂, h₃, h₄,
          h₅.trans (List.suffix_cons x X), h₆⟩)

/-- No packed marker occurs in the unmasked text of a piece list whose
chunks are free of it and whose slot values have out-of-class boundary
characters and are free of `!TAG!`: an occurrence cannot lie in a chunk or
value nor straddle any border. -/
theorem unrender_no_tag2 (vals : Nat → Str) (t : Nat) :
    ∀ ps : List Piece, altOK ps →
      (∀ u, Piece.txt u ∈ ps → ¬ tag2 t <:+: u) →
      (∀ k, Piece.tag k ∈ ps → GoodVal (vals k)) →
      ¬ tag2 t <:+: unrender vals ps := by
  intro ps
  induction ps with
  | nil =>
    intro _ _ _ h
    rw [unrender_nil] at h
    exact tag2_ne_nil t (List.eq_nil_of_infix_nil h)
  | cons p ps ih =>
    intro halt hchunk hvals h
    rw [unrender_cons] at h
    rcases infix_append_cases _ _ h with h₁ | h₁ | ⟨t₁, t₂, heq, hne₁, hne₂, hsuf, hpre⟩
    · match p with
      | Piece.txt u => exact hchunk u (List.mem_cons_self _ _) h₁
      | Piece.tag k =>
        have hg := hvals k (List.mem_cons_self _ _)
        exact hg.2.2.2 ((inf_of_pre (bangTag_prefix_tag2 t)).trans h₁)
    · exact ih (altOK_tail halt) (fun u hu => hchunk u (List.mem_cons_of_mem _ hu))
        (fun k hk => hvals k (List.mem_cons_of_mem _ hk)) h₁
    · match p with
      | Piece.txt u =>
        match ps, halt, hpre with
        | [], _, hpre =>
          rw [unrender_nil] at hpre
          exact hne₂ (List.prefix_nil.mp hpre)
        | Piece.txt w :: ps₀, halt, _ =>
          have := (List.chain'_cons.mp halt).1
          simp [Piece.isTxtB] at this
        | Piece.tag k :: ps₀, halt, hpre =>
          have hg := hvals k (List.mem_cons_of_mem _ (List.mem_cons_self _ _))
          match hh : (vals k).head? with
          | none => exact hg.1 (List.head?_eq_none_iff.mp hh)
          | some c =>
            have h₃ : (unrender vals (Piece.tag k :: ps₀)).head? = t₂.head? :=
              head?_eq_of_ne_nil_of_pre hpre hne₂
            have h₄ : (unrender vals (Piece.tag k :: ps₀)).head? = some c := by
              rw [unrender_cons, show unrenderP vals (Piece.tag k) = vals k from rfl,
                List.head?_append_of_ne_nil _ hg.1]
              exact hh
            have h₅ : t₂.head? = some c := by rw [← h₃, h₄]
            have hct₂ : c ∈ t₂ := by
              match t₂, hne₂, h₅ with
              | d :: t₀, _, h₅ =>
                rw [List.head?_cons, Option.some.injEq] at h₅
                rw [← h₅]
                exact List.mem_cons_self _ _
            have hct : c ∈ tag2 t := by
              rw [heq]
              exact List.mem_append.mpr (Or.inr hct₂)
            have h₆ := tag2_chars t c hct
            rw [hg.2.1 c hh] at h₆
            exact absurd h₆ (by simp)
      | Piece.tag k =>
        have hg := hvals k (List.mem_cons_self _ _)
        match hl : t₁.getLast? with
        | none => exact hne₁ (List.getLast?_eq_none_iff.mp hl)
        | some c =>
          have h₂ : (vals k).getLast? = some c := by
            obtain ⟨w, hw⟩ := hsuf
            rw [show unrenderP vals (Piece.tag k) = vals k from rfl] at hw
            rw [← hw, List.getLast?_append_of_ne_nil _ hne₁]
            exact hl
          have hct₁ : c ∈ t₁ := List.mem_of_mem_getLast? hl
          have hct : c ∈ tag2 t := by
            rw [heq]
            exact List.mem_append.mpr (Or.inl hct₁)
          have h₆ := tag2_chars t c hct
          rw [hg.2.2.1 c h₂] at h₆
          exact absurd h₆ (by simp)

/-- Combined-view unmask factorization: substituting one packed marker
replaces exactly its own marker pieces and leaves chunks free of it and
every other packed marker intact. -/
theorem decode_factor2 (t : Nat) (ht200 : t < 200) (v : Str) :
    ∀ ps : List Piece, altOK ps →
      (∀ u, Piece.txt u ∈ ps → ¬ tag2 t <:+: u) →
      (∀ k, Piece.tag k ∈ ps → k < 200) →
      replaceAllLit (render2 ps) (tag2 t) v =
        (ps.map (fun p =>
          match p with
          | Piece.txt u => u
          | Piece.tag k => if k = t then v else tag2 k)).flatten := by
  intro ps
  induction ps with
  | nil => intro _ _ _; simp [render2_nil, replaceAllLit_nil]
  | cons p ps ih =>
    intro halt hchunk htags
    match p with
    | Piece.txt u =>
      rw [render2_cons]
      show replaceAllLit (u ++ render2 ps) (tag2 t) v = _
      have hufree : ¬ tag2 t <:+: u := hchunk u (List.mem_cons_self _ _)
      have hskip : replaceAllLit (u ++ render2 ps) (tag2 t) v =
          u ++ replaceAllLit (render2 ps) (tag2 t) v := by
        refine replaceAllLit_skip v u (render2 ps) ?_
        intro i hi hip
        rw [List.drop_append_of_le_length (Nat.le_of_lt hi)] at hip
        have hXne : u.drop i ≠ [] := drop_ne_nil_of_lt hi
        have hXsuf : u.drop i <:+ u := List.drop_suffix i u
        by_cases hlen : (tag2 t).length ≤ (u.drop i).length
        · have h₁ : tag2 t <+: u.drop i := prefix_of_append_of_le hip hlen
          exact hufree ((inf_of_pre h₁).trans (inf_of_suf hXsuf))
        · push_neg at hlen
          have hXpre : u.drop i <+: tag2 t :=
            List.prefix_of_prefix_length_le (List.prefix_append _ _) hip
              (Nat.le_of_lt hlen)
          obtain ⟨Y, hXY⟩ := hXpre
          have hYeq : Y = (tag2 t).drop (u.drop i).length := by
            rw [← hXY, List.drop_left]
          have hYpre : Y <+: render2 ps := by
            have h₁ : u.drop i ++ Y <+: u.drop i ++ render2 ps := by
              rw [hXY]
              exact hip
            exact (List.prefix_append_right_inj _).mp h₁
          have hYne : Y ≠ [] := by
            intro hc
            have := congrArg List.length hXY
            rw [hc] at this
            simp only [List.append_nil] at this
            have h₂ := tag2_length ht200
            omega
          match ps, halt with
          | [], _ =>
            rw [render2_nil] at hYpre
            exact hYne (List.prefix_nil.mp hYpre)
          | Piece.txt w :: ps', halt =>
            have := (List.chain'_cons.mp halt).1
            simp [Piece.isTxtB] at this
          | Piece.tag k :: ps', halt =>
            rw [render2_cons] at hYpre
            have hYhead : Y.head? = some '!' := by
              have h₁ : (renderP2 (Piece.tag k) ++ render2 ps').head? =
                  some '!' := by
                show ((tag2 k) ++ render2 ps').head? = some '!'
                rw [List.head?_append_of_ne_nil _ (tag2_ne_nil k)]
                exact tag2_head k
              rw [head?_eq_of_ne_nil_of_pre hYpre hYne] at h₁
              exact h₁
            have hXlen04 : (u.drop i).length = 0 ∨ (u.drop i).length = 4 := by
              have h₁ : (tag2 t)[(u.drop i).length]? = some '!' := by
                rw [← List.head?_drop, ← hYeq]
                exact hYhead
              exact tag2_bang_positions t _ h₁
            have hX4 : (u.drop i).length = 4 := by
              rcases hXlen04 with h | h
              · exact absurd (List.length_eq_zero.mp h) hXne
              · exact h
            rw [hX4] at hYeq
            obtain ⟨ct, tlt, hsht, hctT, _⟩ := tag2_shape t
            have hdropt : (tag2 t).drop 4 = '!' :: ct :: tlt := by
              rw [hsht]
              rfl
            rw [hdropt] at hYeq
            subst hYeq
            obtain ⟨ck, tlk, hshk, _, _⟩ := tag2_shape k
            rw [show renderP2 (Piece.tag k) = tag2 k from rfl, hshk] at hYpre
            simp only [List.cons_append] at hYpre
            rw [List.cons_prefix_cons] at hYpre
            have h₂ := hYpre.2
            rw [List.cons_prefix_cons] at h₂
            exact hctT h₂.1
      rw [hskip, ih (altOK_tail halt)
        (fun w hw => hchunk w (List.mem_cons_of_mem _ hw))
        (fun k hk => htags k (List.mem_cons_of_mem _ hk))]
      simp [renderP2]
    | Piece.tag k =>
      rw [render2_cons]
      show replaceAllLit (tag2 k ++ render2 ps) (tag2 t) v = _
      have hk200 : k < 200 := htags k (by simp)
      by_cases hkt : k = t
      · subst hkt
        rw [replaceAllLit_append_self (tag2_ne_nil k) _ v]
        rw [ih (altOK_tail halt)
          (fun w hw => hchunk w (List.mem_cons_of_mem _ hw))
          (fun k' hk' => htags k' (List.mem_cons_of_mem _ hk'))]
        simp
      · have hskip : replaceAllLit (tag2 k ++ render2 ps) (tag2 t) v =
            tag2 k ++ replaceAllLit (render2 ps) (tag2 t) v := by
          refine replaceAllLit_skip v (tag2 k) (render2 ps) ?_
          intro i hi hip
          rw [List.drop_append_of_le_length (Nat.le_of_lt hi)] at hip
          have hdne : (tag2 k).drop i ≠ [] := drop_ne_nil_of_lt hi
          have hhd : (tag2 k)[i]? = some '!' := by
            have h₁ : ((tag2 k).drop i ++ render2 ps).head? = some '!' := by
              rw [head?_eq_of_ne_nil_of_pre hip (tag2_ne_nil t)]
              exact tag2_head t
            rw [List.head?_append_of_ne_nil _ hdne, List.head?_drop] at h₁
            exact h₁
          rcases tag2_bang_positions k i hhd with h0 | h4
          · subst h0
            simp only [List.drop_zero] at hip
            have hlen : (tag2 t).length ≤ (tag2 k).length := by
              rw [tag2_length ht200, tag2_length hk200]
            have h₁ : tag2 t <+: tag2 k := prefix_of_append_of_le hip hlen
            have h₂ : tag2 t = tag2 k := by
              refine List.IsPrefix.eq_of_length h₁ ?_
              rw [tag2_length ht200, tag2_length hk200]
            exact hkt (tag2_inj hk200 ht200 h₂.symm)
          · subst h4
            obtain ⟨ck, tlk, hshk, hckT, _⟩ := tag2_shape k
            have hdropk : (tag2 k).drop 4 = '!' :: ck :: tlk := by
              rw [hshk]
              rfl
            rw [hdropk] at hip
            obtain ⟨ct, tlt, hsht, _, _⟩ := tag2_shape t
            rw [hsht] at hip
            simp only [List.cons_append] at hip
            rw [List.cons_prefix_cons] at hip
            have h₂ := hip.2
            rw [List.cons_prefix_cons] at h₂
            exact hckT h₂.1.symm
        rw [hskip, ih (altOK_tail halt)
          (fun w hw => hchunk w (List.mem_cons_of_mem _ hw))
          (fun k' hk' => htags k' (List.mem_cons_of_mem _ hk'))]
        simp only [List.map_cons, List.flatten_cons, if_neg hkt]

/-- Combined-view unmask run: substituting a list of packed markers (with
their values) into a combined-view text whose final unmasked form contains
no packed marker yields the combined view with those marker pieces
replaced by their values, preserving the invariants. -/
theorem decode_go2 (vals : Nat → Str) (final : Str)
    (hfree : ∀ t, t < 200 → ¬ tag2 t <:+: final) :
    ∀ (items : List Nat) (qs : List Piece),
      unrender vals qs = final → altOK qs →
      (∀ k, Piece.tag k ∈ qs → k < 200) →
      (∀ t ∈ items, t < 200) →
      ∃ qs' : List Piece,
        decodeTagsL (render2 qs) (items.map (fun t => (tag2 t, vals t))) =
          render2 qs' ∧
        unrender vals qs' = final ∧ altOK qs' ∧
        (∀ k, Piece.tag k ∈ qs' → k < 200 ∧ Piece.tag k ∈ qs ∧ k ∉ items) := by
  intro items
  induction items with
  | nil =>
    intro qs hun halt htags _
    exact ⟨qs, rfl, hun, halt, fun k hk => ⟨htags k hk, hk, List.not_mem_nil k⟩⟩
  | cons t items ih =>
    intro qs hun halt htags hitems
    have ht200 : t < 200 := hitems t (List.mem_cons_self _ _)
    have hchunk : ∀ u, Piece.txt u ∈ qs → ¬ tag2 t <:+: u := by
      intro u hu hc
      have h₁ : u <:+: final := by
        rw [← hun]
        exact txt_infix_unrender vals qs u hu
      exact hfree t ht200 (hc.trans h₁)
    have hfac : replaceAllLit (render2 qs) (tag2 t) (vals t) =
        render2 (norm (qs.map (substTag t (vals t)))) := by
      rw [decode_factor2 t ht200 (vals t) qs halt hchunk htags]
      rw [render2_norm]
      unfold render2
      rw [List.map_map]
      congr 1
      refine List.map_congr_left ?_
      intro p _
      exact (renderP2_substTag t (vals t) p).symm
    obtain ⟨qs', h₁, h₂, h₃, h₄⟩ := ih (norm (qs.map (substTag t (vals t))))
      (by
        rw [unrender_norm, ← hun]
        unfold unrender
        rw [List.map_map]
        congr 1
        refine List.map_congr_left ?_
        intro p _
        exact unrenderP_substTag vals t p)
      (norm_altOK _)
      (fun k hk => by
        have h₅ := norm_tag_mem _ hk
        obtain ⟨h₆, _⟩ := substTag_tag_mem _ h₅
        exact htags k h₆)
      (fun t' ht' => hitems t' (List.mem_cons_of_mem _ ht'))
    refine ⟨qs', ?_, h₂, h₃, ?_⟩
    · show decodeTagsL (replaceAllLit (render2 qs) (tag2 t) (vals t))
        (items.map (fun t => (tag2 t, vals t))) = render2 qs'
      rw [hfac]
      exact h₁
    · intro k hk
      obtain ⟨h200, hmem, hnotin⟩ := h₄ k hk
      have h₅ := norm_tag_mem _ hmem
      obtain ⟨hmem₂, hne⟩ := substTag_tag_mem _ h₅
      refine ⟨h200, hmem₂, ?_⟩
      intro hc
      rcases List.mem_cons.mp hc with hc | hc
      · exact hne hc
      · exact hnotin hc

/-- The packed index of a preformatted marker is its own index. -/
theorem tag2_lo {k : Nat} (h : k < 100) : tag2 k = tagOf prefPref k := by
  unfold tag2
  rw [if_pos h]

/-- The packed index of a link marker is its index shifted by one
hundred. -/
theorem tag2_hi {k : Nat} (h : k < 100) : tag2 (100 + k) = tagOf linkPref k := by
  unfold tag2
  rw [if_neg (by omega), Nat.add_sub_cancel_left]

/-- `getD` at an in-range index is `get`. -/
theorem getD_eq_get {α : Type} :
    ∀ (l : List α) (d : α) (j : Nat) (hj : j < l.length),
      l.getD j d = l.get ⟨j, hj⟩ := by
  intro l
  induction l with
  | nil =>
    intro d j hj
    exact absurd hj (by simp)
  | cons a l ih =>
    intro d j hj
    match j with
    | 0 => rfl
    | j + 1 =>
      have h₂ : j < l.length := by
        simp only [List.length_cons] at hj
        omega
      exact ih d j h₂

/-- The head of a concatenation ending in a list headed by a fixed
character does not depend on what follows that character. -/
theorem head?_app_cons {α : Type} :
    ∀ (x : List α) (c : α) (y z : List α),
      (x ++ c :: y).head? = (x ++ c :: z).head?
  | [], _, _, _ => rfl
  | d :: x, _, _, _ => rfl

/-- The last element of a concatenation whose right part is a cons is the
last element of that cons. -/
theorem getLast?_app_cons {α : Type} :
    ∀ (x : List α) (c : α) (y : List α),
      (x ++ c :: y).getLast? = (c :: y).getLast?
  | [], _, _ => rfl
  | d :: x, c, y => by
    rw [List.cons_append, getLast?_cons_of_ne d (by simp),
      getLast?_app_cons x c y]

/-- A text avoiding a character cannot straddle an occurrence of that
character: it lies entirely on one side. -/
theorem infix_avoid {t : Str} {c : Char} (hc : c ∉ t) :
    ∀ X Y : Str, t <:+: X ++ c :: Y → t <:+: X ∨ t <:+: Y := by
  intro X Y h
  rcases infix_append_cases X (c :: Y) h with
    h₁ | h₁ | ⟨t₁, t₂, heq, hne₁, hne₂, hsuf, hpre⟩
  · exact Or.inl h₁
  · rcases List.infix_cons_iff.mp h₁ with h₂ | h₂
    · match t, hc, h₂ with
      | [], _, _ => exact Or.inr List.nil_infix
      | d :: t', hc, h₂ =>
        obtain ⟨hd, _⟩ := List.cons_prefix_cons.mp h₂
        refine absurd ?_ hc
        rw [hd]
        exact List.mem_cons_self _ _
    · exact Or.inr h₂
  · match t₂, hne₂, hpre, heq with
    | d :: t₂', _, hpre, heq =>
      obtain ⟨hd, _⟩ := List.cons_prefix_cons.mp hpre
      refine absurd ?_ hc
      rw [heq, ← hd]
      exact List.mem_append.mpr (Or.inr (List.mem_cons_self _ _))

/-- A first-occurrence replacement on a text not containing the search
text is the identity. -/
theorem replaceFirstLit_of_not_inf {pat : Str} (rep : Str) :
    ∀ s : Str, ¬ pat <:+: s → replaceFirstLit s pat rep = s
  | [] => fun _ => rfl
  | c :: s => fun h => by
    rw [replaceFirstLit_cons,
      if_neg (fun hcond => h (inf_of_pre (isPrefixOf_iff.mp hcond.2))),
      replaceFirstLit_of_not_inf rep s (fun h₂ => h (List.infix_cons h₂))]

/-- The replacement text built by `genFixedLink` contains no dollar when
the base does not. -/
theorem dollar_not_in_linkRep {base : Str} (h : '$' ∉ base) :
    '$' ∉ ('(' :: base ++ ['#']) := by
  intro hc
  rcases List.mem_append.mp hc with hc | hc
  · rcases List.mem_cons.mp hc with hc | hc
    · exact absurd hc (by decide)
    · exact h hc
  · exact absurd hc (by decide)

/-- `genFixedLink` either leaves a link without `(#` unchanged or splices
the base into its first `(#` occurrence. -/
theorem genFixedLink_cases (m base : Str) (hdbase : '$' ∉ base) :
    genFixedLink m base = m ∨
    ∃ a b, m = a ++ '(' :: '#' :: b ∧
      genFixedLink m base = a ++ '(' :: (base ++ '#' :: b) := by
  unfold genFixedLink
  rw [replaceFirst_eq_lit (dollar_not_in_linkRep hdbase)]
  by_cases h : ['(', '#'] <:+: m
  · obtain ⟨a, b, hab, hr⟩ :=
      replaceFirstLit_of_infix (by decide) ('(' :: base ++ ['#']) m h
    refine Or.inr ⟨a, b, ?_, ?_⟩
    · rw [hab]
      simp
    · rw [hr]
      simp
  · exact Or.inl (replaceFirstLit_of_not_inf _ m h)

/-- A fixed link keeps the boundary characters of the original link (or
exposes `(` or `#`, which are equally outside both marker character
classes) and stays free of the marker head. -/
theorem goodVal_genFixedLink {m base : Str} (hbase : ¬ bangTag <:+: base)
    (hdbase : '$' ∉ base) (hm : GoodVal m) : GoodVal (genFixedLink m base) := by
  rcases genFixedLink_cases m base hdbase with h | ⟨a, b, hab, hr⟩
  · rw [h]
    exact hm
  · rw [hr]
    obtain ⟨hne, hhead, hlast, hfree⟩ := hm
    refine ⟨by simp, ?_, ?_, ?_⟩
    · intro c hc
      have h₁ : (a ++ '(' :: (base ++ '#' :: b)).head? = m.head? := by
        rw [hab]
        exact head?_app_cons a '(' (base ++ '#' :: b) ('#' :: b)
      rw [h₁] at hc
      exact hhead c hc
    · intro c hc
      have h₁ : (a ++ '(' :: (base ++ '#' :: b)).getLast? = m.getLast? := by
        rw [hab,
          show a ++ '(' :: (base ++ '#' :: b) = (a ++ ('(' :: base)) ++ '#' :: b
            from by simp,
          show a ++ '(' :: '#' :: b = (a ++ ['(']) ++ '#' :: b from by simp,
          getLast?_app_cons, getLast?_app_cons]
      rw [h₁] at hc
      exact hlast c hc
    · intro hc
      rcases infix_avoid (by decide : '(' ∉ bangTag) a (base ++ '#' :: b) hc with
        h₁ | h₁
      · exact hfree (h₁.trans (inf_of_pre ⟨'(' :: '#' :: b, hab.symm⟩))
      · rcases infix_avoid (by decide : '#' ∉ bangTag) base b h₁ with h₂ | h₂
        · exact hbase h₂
        · refine hfree (h₂.trans (inf_of_suf ⟨a ++ ['(', '#'], ?_⟩))
          rw [hab]
          simp

/-- A fixed link contains no dollar when the link and the base do not. -/
theorem dollar_not_in_genFixedLink {m base : Str} (hdm : '$' ∉ m)
    (hdbase : '$' ∉ base) : '$' ∉ genFixedLink m base := by
  rcases genFixedLink_cases m base hdbase with h | ⟨a, b, hab, hr⟩
  · rw [h]
    exact hdm
  · rw [hr]
    intro hc
    rcases List.mem_append.mp hc with hc | hc
    · refine hdm ?_
      rw [hab]
      exact List.mem_append.mpr (Or.inl hc)
    · rcases List.mem_cons.mp hc with hc | hc
      · exact absurd hc (by decide)
      · rcases List.mem_append.mp hc with hc | hc
        · exact hdbase hc
        · rcases List.mem_cons.mp hc with hc | hc
          · exact absurd hc (by decide)
          · refine hdm ?_
            rw [hab]
            exact List.mem_append.mpr (Or.inr
              (List.mem_cons.mpr (Or.inr (List.mem_cons.mpr (Or.inr hc)))))

/-- Every preformatted-pattern match of a marker-head-free text satisfies
the masking side conditions. -/
theorem goodVal_preMatch {raw m : Str} (hraw : ¬ bangTag <:+: raw)
    (hm : m ∈ matchesOf prePat raw) : GoodVal m := by
  obtain ⟨hh, hl⟩ := prePat_match_bounds raw m hm
  have hinf : m <:+: raw :=
    matchesOf_inf prePat raw.length raw (Nat.le_refl _) m hm
  refine ⟨?_, ?_, ?_, ?_⟩
  · intro hc
    rw [hc] at hh
    simp at hh
  · intro c hc
    rw [hh, Option.some.injEq] at hc
    subst hc
    decide
  · intro c hc
    rw [hl, Option.some.injEq] at hc
    subst hc
    decide
  · intro hc
    exact hraw (hc.trans hinf)

/-- Every link-pattern match that is itself free of the marker head
satisfies the masking side conditions. -/
theorem goodVal_linkMatch (s : Str) {m : Str} (hfree : ¬ bangTag <:+: m)
    (hm : m ∈ matchesOf linkPat s) : GoodVal m := by
  obtain ⟨hh, hl⟩ := linkPat_match_bounds s m hm
  refine ⟨?_, ?_, ?_, hfree⟩
  · intro hc
    rw [hc] at hh
    simp at hh
  · intro c hc
    rw [hh, Option.some.injEq] at hc
    subst hc
    decide
  · intro c hc
    rw [hl, Option.some.injEq] at hc
    subst hc
    decide

/-- The expected marker table, written as a map over match positions. -/
theorem expectedTags_eq_range (pref : Str) :
    ∀ (ms : List Str) (i : Nat),
      expectedTags pref i ms =
        (List.range ms.length).map (fun j => (tagOf pref (i + j), ms.getD j [])) := by
  intro ms
  induction ms with
  | nil => intro i; rfl
  | cons m ms ih =>
    intro i
    show (tagOf pref i, m) :: expectedTags pref (i + 1) ms = _
    rw [ih (i + 1), List.length_cons, List.range_succ_eq_map, List.map_cons,
      List.map_map]
    refine congrArg₂ List.cons ?_ ?_
    · show (tagOf pref i, m) = (tagOf pref (i + 0), (m :: ms).getD 0 [])
      rw [Nat.add_zero]
      rfl
    · refine List.map_congr_left ?_
      intro j hj
      show (tagOf pref (i + 1 + j), ms.getD j []) =
        (tagOf pref (i + (j + 1)), (m :: ms).getD (j + 1) [])
      refine congrArg₂ Prod.mk ?_ rfl
      refine congrArg (tagOf pref) ?_
      omega

/-- The match list of the preformatted masking pass of `fixLinks`. -/
def preMatches (raw : Str) : List Str := matchesOf prePat raw

/-- The match list of the link masking pass of `fixLinks` (matched
against the PRE-masked text, as in the source). -/
def linkMatches (raw : Str) : List Str :=
  matchesOf linkPat (encodeTagsPreformatted raw).2

/-- The text recorded under packed index `k` by the two masking passes:
indices below one hundred hold the preformatted matches, indices from one
hundred hold the link matches. -/
def valsOf (raw : Str) (k : Nat) : Str :=
  if k < 100 then (preMatches raw).getD k []
  else (linkMatches raw).getD (k - 100) []

/-- The text substituted for packed index `k` by the unmask passes of
`fixLinks`: preformatted matches verbatim, link matches fixed with the
base inserted. -/
def fixedValsOf (raw base : Str) (k : Nat) : Str :=
  if k < 100 then valsOf raw k
  else genFixedLink (valsOf raw k) base

/-- Structure theorem of the `fixLinks` pipeline on well-separated
inputs: the input decomposes into an alternation of untouched text
chunks and match slots, the output is the same alternation with the
preformatted matches restored verbatim and the link matches fixed, and
the two unmask orders produce the same text. -/
theorem fixLinks_pipeline (raw base : Str)
    (hraw : ¬ bangTag <:+: raw) (hdraw : '$' ∉ raw)
    (hbase : ¬ bangTag <:+: base) (hdbase : '$' ∉ base)
    (hnp : (preMatches raw).length ≤ 100)
    (hnl : (linkMatches raw).length ≤ 100)
    (hsep : ∀ m ∈ linkMatches raw, ¬ bangTag <:+: m) :
    ∃ ps : List Piece, altOK ps ∧
      (∀ k, Piece.tag k ∈ ps → k < (preMatches raw).length ∨
        (100 ≤ k ∧ k < 100 + (linkMatches raw).length)) ∧
      raw = unrender (valsOf raw) ps ∧
      fixLinks raw base = unrender (fixedValsOf raw base) ps ∧
      fixLinksSwapped raw base = unrender (fixedValsOf raw base) ps := by
  -- the two masking passes, in the combined two-family view
  obtain ⟨psA, hA₁, hA₂, hA₃, hA₄, hA₅⟩ :=
    encode_all2 0 prefPref (fun k hk => by rw [Nat.zero_add, tag2_lo hk])
      (valsOf raw) (preMatches raw) 0 [Piece.txt raw]
      (List.chain'_singleton _)
      (by simpa using hnp)
      (fun j hj => by
        show valsOf raw (0 + (0 + j)) = (preMatches raw).get ⟨j, hj⟩
        rw [Nat.zero_add, Nat.zero_add]
        unfold valsOf
        rw [if_pos (show j < 100 by omega)]
        exact getD_eq_get _ _ j hj)
      (fun m hm => goodVal_preMatch hraw hm)
  have hr2 : render2 [Piece.txt raw] = raw := by
    simp [render2, renderP2]
  rw [hr2] at hA₁
  have hmaskP : (encodeTagsPreformatted raw).2 =
      encodeRunL prefPref 0 (preMatches raw) raw := by
    show (encodeTags raw prePat prefPref).2 = _
    rw [encodeTags_snd, encodeRun_eq_L (by decide)]
    rfl
  have hAmask : (encodeTagsPreformatted raw).2 = render2 psA := hmaskP.trans hA₁
  have hAraw : unrender (valsOf raw) psA = raw := by
    rw [hA₂]
    simp [unrender, unrenderP]
  have hAtags : ∀ k, Piece.tag k ∈ psA → k < (preMatches raw).length := by
    intro k hk
    rcases hA₄ k hk with h | h
    · rw [List.mem_singleton] at h
      exact Piece.noConfusion h
    · omega
  have hAchunks : ∀ u, Piece.txt u ∈ psA → u <:+: raw := by
    intro u hu
    obtain ⟨w, hw, hinf⟩ := hA₅ u hu
    rw [List.mem_singleton, Piece.txt.injEq] at hw
    rw [hw] at hinf
    exact hinf
  obtain ⟨psB, hB₁, hB₂, hB₃, hB₄, hB₅⟩ :=
    encode_all2 100 linkPref (fun k hk => by rw [tag2_hi hk])
      (valsOf raw) (linkMatches raw) 0 psA hA₃
      (by simpa using hnl)
      (fun j hj => by
        show valsOf raw (100 + (0 + j)) = (linkMatches raw).get ⟨j, hj⟩
        rw [Nat.zero_add]
        unfold valsOf
        rw [if_neg (show ¬ 100 + j < 100 by omega), Nat.add_sub_cancel_left]
        exact getD_eq_get _ _ j hj)
      (fun m hm => goodVal_linkMatch _ (hsep m hm) hm)
  have hmaskL : (encodeTagsLinks (encodeTagsPreformatted raw).2).2 =
      encodeRunL linkPref 0 (linkMatches raw) (encodeTagsPreformatted raw).2 := by
    show (encodeTags (encodeTagsPreformatted raw).2 linkPat linkPref).2 = _
    rw [encodeTags_snd, encodeRun_eq_L (by decide)]
    rfl
  have hBmask : (encodeTagsLinks (encodeTagsPreformatted raw).2).2 =
      render2 psB := by
    rw [hmaskL, hAmask]
    exact hB₁
  have hBraw : unrender (valsOf raw) psB = raw := hB₂.trans hAraw
  have hBtags : ∀ k, Piece.tag k ∈ psB → k < (preMatches raw).length ∨
      (100 ≤ k ∧ k < 100 + (linkMatches raw).length) := by
    intro k hk
    rcases hB₄ k hk with h | h
    · exact Or.inl (hAtags k h)
    · exact Or.inr ⟨by omega, by omega⟩
  have hB200 : ∀ k, Piece.tag k ∈ psB → k < 200 := by
    intro k hk
    rcases hBtags k hk with h | h
    · omega
    · omega
  have hBchunks : ∀ u, Piece.txt u ∈ psB → u <:+: raw := by
    intro u hu
    obtain ⟨w, hw, hinf⟩ := hB₅ u hu
    exact hinf.trans (hAchunks w hw)
  -- slot values seen by the unmask passes are well-formed
  have hFVgood : ∀ k, Piece.tag k ∈ psB → GoodVal (fixedValsOf raw base k) := by
    intro k hk
    rcases hBtags k hk with h | h
    · have hk100 : k < 100 := by omega
      have h₁ : fixedValsOf raw base k = (preMatches raw).get ⟨k, h⟩ := by
        unfold fixedValsOf valsOf
        rw [if_pos hk100, if_pos hk100]
        exact getD_eq_get _ _ k h
      rw [h₁]
      exact goodVal_preMatch hraw (List.get_mem _ _ _)
    · obtain ⟨h1, h2⟩ := h
      have h₁ : fixedValsOf raw base k =
          genFixedLink ((linkMatches raw).get ⟨k - 100, by omega⟩) base := by
        unfold fixedValsOf valsOf
        rw [if_neg (by omega), if_neg (by omega)]
        rw [getD_eq_get _ _ (k - 100) (by omega)]
      rw [h₁]
      refine goodVal_genFixedLink hbase hdbase ?_
      exact goodVal_linkMatch _ (hsep _ (List.get_mem _ _ _)) (List.get_mem _ _ _)
  -- the fully unmasked text contains no packed marker
  have hFINAL : ∀ t, t < 200 →
      ¬ tag2 t <:+: unrender (fixedValsOf raw base) psB := by
    intro t _
    refine unrender_no_tag2 (fixedValsOf raw base) t psB hB₃ ?_ hFVgood
    intro u hu hc
    exact hraw (((inf_of_pre (bangTag_prefix_tag2 t)).trans hc).trans
      (hBchunks u hu))
  -- dollar-freeness of the recorded substitution tables
  have hpreT : (encodeTagsPreformatted raw).1 =
      expectedTags prefPref 0 (preMatches raw) := by
    show (encodeTags raw prePat prefPref).1 = _
    rw [encodeTags_fst]
    rfl
  have hlinkT : (encodeTagsLinks (encodeTagsPreformatted raw).2).1 =
      expectedTags linkPref 0 (linkMatches raw) := by
    show (encodeTags (encodeTagsPreformatted raw).2 linkPat linkPref).1 = _
    rw [encodeTags_fst]
    rfl
  have hdollarPre : ∀ tv ∈ (encodeTagsPreformatted raw).1, '$' ∉ tv.2 := by
    intro tv htv
    rw [hpreT] at htv
    have hv := expectedTags_mem_snd prefPref _ _ tv htv
    have hvinf : tv.2 <:+: raw :=
      matchesOf_inf prePat raw.length raw (Nat.le_refl _) _ hv
    intro hc
    exact hdraw (hvinf.sublist.subset hc)
  have hdollarMask : '$' ∉ render2 psA := by
    intro hc
    unfold render2 at hc
    rw [List.mem_flatten] at hc
    obtain ⟨l, hl, hc⟩ := hc
    rw [List.mem_map] at hl
    obtain ⟨p, hp, hl⟩ := hl
    subst hl
    match p, hp, hc with
    | Piece.txt u, hp, hc =>
      have hc₂ : '$' ∈ u := hc
      exact hdraw ((hAchunks u hp).sublist.subset hc₂)
    | Piece.tag k, hp, hc =>
      have hc₂ : '$' ∈ tag2 k := hc
      have hno : '$' ∉ tag2 k := by
        unfold tag2
        by_cases hk : k < 100
        · rw [if_pos hk]
          exact dollar_not_in_tagOf (by decide) k
        · rw [if_neg hk]
          exact dollar_not_in_tagOf (by decide) (k - 100)
      exact hno hc₂
  have hdollarFixed : ∀ tv ∈
      ((encodeTagsLinks (encodeTagsPreformatted raw).2).1).map
        (fun tv => (tv.1, genFixedLink tv.2 base)), '$' ∉ tv.2 := by
    intro tv htv
    rw [List.mem_map] at htv
    obtain ⟨tv₀, htv₀, htv⟩ := htv
    rw [← htv]
    show '$' ∉ genFixedLink tv₀.2 base
    rw [hlinkT] at htv₀
    have hv := expectedTags_mem_snd linkPref _ _ tv₀ htv₀
    have hvinf : tv₀.2 <:+: (encodeTagsPreformatted raw).2 :=
      matchesOf_inf linkPat (encodeTagsPreformatted raw).2.length _
        (Nat.le_refl _) _ hv
    refine dollar_not_in_genFixedLink ?_ hdbase
    intro hc
    rw [hAmask] at hvinf
    exact hdollarMask (hvinf.sublist.subset hc)
  -- the substitution tables, as packed-index item lists
  have hpreItems : (encodeTagsPreformatted raw).1 =
      (List.range (preMatches raw).length).map
        (fun t => (tag2 t, fixedValsOf raw base t)) := by
    rw [hpreT, expectedTags_eq_range]
    refine List.map_congr_left ?_
    intro j hj
    rw [List.mem_range] at hj
    have hj100 : j < 100 := by omega
    show (tagOf prefPref (0 + j), (preMatches raw).getD j []) =
      (tag2 j, fixedValsOf raw base j)
    rw [Nat.zero_add]
    refine congrArg₂ Prod.mk (tag2_lo hj100).symm ?_
    show (preMatches raw).getD j [] = fixedValsOf raw base j
    unfold fixedValsOf valsOf
    rw [if_pos hj100, if_pos hj100]
  have hlinkItems : ((encodeTagsLinks (encodeTagsPreformatted raw).2).1).map
        (fun tv => (tv.1, genFixedLink tv.2 base)) =
      ((List.range (linkMatches raw).length).map (fun j => 100 + j)).map
        (fun t => (tag2 t, fixedValsOf raw base t)) := by
    rw [hlinkT, expectedTags_eq_range, List.map_map, List.map_map]
    refine List.map_congr_left ?_
    intro j hj
    rw [List.mem_range] at hj
    have hj100 : j < 100 := by omega
    show (tagOf linkPref (0 + j), genFixedLink ((linkMatches raw).getD j []) base) =
      (tag2 (100 + j), fixedValsOf raw base (100 + j))
    rw [Nat.zero_add]
    refine congrArg₂ Prod.mk (tag2_hi hj100).symm ?_
    show genFixedLink ((linkMatches raw).getD j []) base =
      fixedValsOf raw base (100 + j)
    unfold fixedValsOf valsOf
    rw [if_neg (show ¬ 100 + j < 100 by omega),
      if_neg (show ¬ 100 + j < 100 by omega), Nat.add_sub_cancel_left]
  -- unmask order of the current revision: links first, then preformatted
  obtain ⟨psC, hC₁, hC₂, hC₃, hC₄⟩ :=
    decode_go2 (fixedValsOf raw base) (unrender (fixedValsOf raw base) psB)
      hFINAL ((List.range (linkMatches raw).length).map (fun j => 100 + j)) psB
      rfl hB₃ hB200
      (by
        intro t hti
        rw [List.mem_map] at hti
        obtain ⟨j, hj, ht⟩ := hti
        rw [List.mem_range] at hj
        omega)
  have hCtags : ∀ k, Piece.tag k ∈ psC → k < (preMatches raw).length := by
    intro k hk
    obtain ⟨_, hmem, hnot⟩ := hC₄ k hk
    rcases hBtags k hmem with h | h
    · exact h
    · exfalso
      refine hnot ?_
      rw [List.mem_map]
      exact ⟨k - 100, by rw [List.mem_range]; omega, by omega⟩
  obtain ⟨psD, hD₁, hD₂, hD₃, hD₄⟩ :=
    decode_go2 (fixedValsOf raw base) (unrender (fixedValsOf raw base) psB)
      hFINAL (List.range (preMatches raw).length) psC
      hC₂ hC₃ (fun k hk => (hC₄ k hk).1)
      (by
        intro t ht
        rw [List.mem_range] at ht
        omega)
  have hDnone : ∀ k, Piece.tag k ∉ psD := by
    intro k hk
    obtain ⟨_, hmem, hnot⟩ := hD₄ k hk
    exact hnot (List.mem_range.mpr (hCtags k hmem))
  have hDfinal : render2 psD = unrender (fixedValsOf raw base) psB := by
    rw [render2_eq_unrender_of_no_tags (fixedValsOf raw base) psD hDnone]
    exact hD₂
  have hfixA : fixLinks raw base = unrender (fixedValsOf raw base) psB := by
    show decodeTags (decodeTags (encodeTagsLinks (encodeTagsPreformatted raw).2).2
      (((encodeTagsLinks (encodeTagsPreformatted raw).2).1).map
        (fun tv => (tv.1, genFixedLink tv.2 base)))) (encodeTagsPreformatted raw).1 =
      unrender (fixedValsOf raw base) psB
    rw [decodeTags_eq_L _ _ hdollarFixed, decodeTags_eq_L _ _ hdollarPre,
      hBmask, hlinkItems, hC₁, hpreItems, hD₁, hDfinal]
  -- unmask order of the older revision: preformatted first, then links
  obtain ⟨psC', hC₁', hC₂', hC₃', hC₄'⟩ :=
    decode_go2 (fixedValsOf raw base) (unrender (fixedValsOf raw base) psB)
      hFINAL (List.range (preMatches raw).length) psB
      rfl hB₃ hB200
      (by
        intro t ht
        rw [List.mem_range] at ht
        omega)
  have hC'tags : ∀ k, Piece.tag k ∈ psC' →
      100 ≤ k ∧ k < 100 + (linkMatches raw).length := by
    intro k hk
    obtain ⟨_, hmem, hnot⟩ := hC₄' k hk
    rcases hBtags k hmem with h | h
    · exact absurd (List.mem_range.mpr h) hnot
    · exact h
  obtain ⟨psD', hD₁', hD₂', hD₃', hD₄'⟩ :=
    decode_go2 (fixedValsOf raw base) (unrender (fixedValsOf raw base) psB)
      hFINAL ((List.range (linkMatches raw).length).map (fun j => 100 + j)) psC'
      hC₂' hC₃' (fun k hk => (hC₄' k hk).1)
      (by
        intro t hti
        rw [List.mem_map] at hti
        obtain ⟨j, hj, ht⟩ := hti
        rw [List.mem_range] at hj
        omega)
  have hD'none : ∀ k, Piece.tag k ∉ psD' := by
    intro k hk
    obtain ⟨_, hmem, hnot⟩ := hD₄' k hk
    obtain ⟨h1, h2⟩ := hC'tags k hmem
    refine hnot ?_
    rw [List.mem_map]
    exact ⟨k - 100, by rw [List.mem_range]; omega, by omega⟩
  have hD'final : render2 psD' = unrender (fixedValsOf raw base) psB := by
    rw [render2_eq_unrender_of_no_tags (fixedValsOf raw base) psD' hD'none]
    exact hD₂'
  have hfixB : fixLinksSwapped raw base = unrender (fixedValsOf raw base) psB := by
    show decodeTags (decodeTags (encodeTagsLinks (encodeTagsPreformatted raw).2).2
      (encodeTagsPreformatted raw).1)
      (((encodeTagsLinks (encodeTagsPreformatted raw).2).1).map
        (fun tv => (tv.1, genFixedLink tv.2 base))) =
      unrender (fixedValsOf raw base) psB
    rw [decodeTags_eq_L _ _ hdollarPre, decodeTags_eq_L _ _ hdollarFixed,
      hBmask, hpreItems, hC₁', hlinkItems, hD₁', hD'final]
  exact ⟨psB, hB₃, hBtags, hBraw.symm, hfixA, hfixB⟩

/-- C1 (counterexample): the unconditional round-trip claim is false for
two independent reasons — on the input `!TAG!LINK00 [a](#b)`, which
already contains the marker text the link pass is about to generate,
substituting the recorded markers back does not reconstruct the input; and
on the marker-free input `<pre>$&</pre>`, whose single recorded text
contains the dollar pattern `$&`, GetSubstitution expands `$&` to the
marker itself during unmasking and yields `<pre>!TAG!PREF00</pre>`
instead of the input. -/
theorem c1_counterexample :
    (decodeTags (encodeTagsLinks ("!TAG!LINK00 [a](#b)".toList)).2
      (encodeTagsLinks ("!TAG!LINK00 [a](#b)".toList)).1 ≠
      "!TAG!LINK00 [a](#b)".toList) ∧
    ¬ bangTag <:+: ("<pre>$&</pre>".toList : Str) ∧
    decodeTags (encodeTagsPreformatted ("<pre>$&</pre>".toList)).2
      (encodeTagsPreformatted ("<pre>$&</pre>".toList)).1 =
      "<pre>!TAG!PREF00</pre>".toList ∧
    decodeTags (encodeTagsPreformatted ("<pre>$&</pre>".toList)).2
      (encodeTagsPreformatted ("<pre>$&</pre>".toList)).1 ≠
      "<pre>$&</pre>".toList := by
  exact ⟨by decide, by decide, by decide, by decide⟩

/-- C1 (amended): `encodeTags` always records exactly one marker per
non-overlapping match, in match order with increasing zero-padded indices
`tagOf pref 0, tagOf pref 1, …`; and for both patterns actually used by
the source (preformatted blocks and intra-document links), the mask/unmask
round-trip `decodeTags (encodeTags …)` reconstructs the input exactly
whenever the input does not already contain the marker head `!TAG!`,
contains no `$` (so GetSubstitution inserts the recorded texts literally),
and the pattern has at most 100 matches (the marker index is zero-padded
to two digits). -/
theorem c1_amended :
    (∀ (raw : Str) (p : GPattern) (pref : Str),
      ((encodeTags raw p pref).1).map Prod.fst =
        (List.range (matchesOf p raw).length).map (tagOf pref) ∧
      ((encodeTags raw p pref).1).map Prod.snd = matchesOf p raw) ∧
    (∀ raw : Str, ¬ bangTag <:+: raw → '$' ∉ raw →
      (matchesOf prePat raw).length ≤ 100 →
      decodeTags (encodeTagsPreformatted raw).2
        (encodeTagsPreformatted raw).1 = raw) ∧
    (∀ raw : Str, ¬ bangTag <:+: raw → '$' ∉ raw →
      (matchesOf linkPat raw).length ≤ 100 →
      decodeTags (encodeTagsLinks raw).2 (encodeTagsLinks raw).1 = raw) := by
  refine ⟨fun raw p pref => ⟨?_, ?_⟩, fun raw hraw hd hn => ?_,
    fun raw hraw hd hn => ?_⟩
  · rw [encodeTags_fst, expectedTags_map_fst]
    exact List.map_congr_left (fun j _ => by rw [Nat.zero_add])
  · rw [encodeTags_fst, expectedTags_map_snd]
  · refine encodeTags_roundtrip prefPref goodPref_prefPref prePat raw hraw hd ?_ hn
    intro m hm
    have hb := prePat_match_bounds raw m hm
    constructor
    · intro c hc
      rw [hb.1, Option.some.injEq] at hc
      rw [← hc]
      decide
    · intro c hc
      rw [hb.2, Option.some.injEq] at hc
      rw [← hc]
      decide
  · refine encodeTags_roundtrip linkPref goodPref_linkPref linkPat raw hraw hd ?_ hn
    intro m hm
    have hb := linkPat_match_bounds raw m hm
    constructor
    · intro c hc
      rw [hb.1, Option.some.injEq] at hc
      rw [← hc]
      decide
    · intro c hc
      rw [hb.2, Option.some.injEq] at hc
      rw [← hc]
      decide

/-- C1 (witness): the amended round-trip applied to the concrete input
`x <pre>a</pre> y` under the preformatted pass. -/
theorem c1_amended_witness :
    ¬ bangTag <:+: ("x <pre>a</pre> y".toList : Str) ∧
    '$' ∉ ("x <pre>a</pre> y".toList : Str) ∧
    (matchesOf prePat ("x <pre>a</pre> y".toList)).length ≤ 100 ∧
    decodeTags (encodeTagsPreformatted ("x <pre>a</pre> y".toList)).2
      (encodeTagsPreformatted ("x <pre>a</pre> y".toList)).1 =
      "x <pre>a</pre> y".toList :=
  ⟨by decide, by decide, by decide,
    c1_amended.2.1 _ (by decide) (by decide) (by decide)⟩

/-- C2 (counterexample): the output characterization is false — the input
`!TAG!PREF00 <pre>x</pre>` contains no intra-document link at all (the
link pattern finds no match in the input, nor in its masked form), yet
`fixLinks` does not return it unchanged: the output duplicates the
preformatted block over the marker-looking text. -/
theorem c2_counterexample :
    matchesOf linkPat ("!TAG!PREF00 <pre>x</pre>".toList) = [] ∧
    matchesOf linkPat
      (encodeTagsPreformatted ("!TAG!PREF00 <pre>x</pre>".toList)).2 = [] ∧
    fixLinks ("!TAG!PREF00 <pre>x</pre>".toList) ("B".toList) =
      "<pre>x</pre> <pre>x</pre>".toList ∧
    fixLinks ("!TAG!PREF00 <pre>x</pre>".toList) ("B".toList) ≠
      "!TAG!PREF00 <pre>x</pre>".toList := by
  exact ⟨by decide, by decide, by decide, by decide⟩

/-- C2 (amended): for every input free of the marker head `!TAG!` and of
`$`, with a marker-free and `$`-free base, at most one hundred matches
per pass, and no link match containing the marker head (no matched link
swallowing a masked preformatted block), the rewriter's behaviour is
characterized exactly: the input decomposes into an alternation of
chunks and match slots, and the output is the same alternation with the
preformatted matches restored verbatim and each link match replaced by
its fixed link — so text outside the matches is byte-identical, links
get the base inserted, preformatted blocks are untouched.  Further the
section-8.5 example produces exactly the section-8.5 output, and on any
input in which neither pattern matches `fixLinks` is the identity. -/
theorem c2_amended :
    (∀ raw base : Str,
      ¬ bangTag <:+: raw → '$' ∉ raw → ¬ bangTag <:+: base → '$' ∉ base →
      (preMatches raw).length ≤ 100 → (linkMatches raw).length ≤ 100 →
      (∀ m ∈ linkMatches raw, ¬ bangTag <:+: m) →
      ∃ ps : List Piece, altOK ps ∧
        (∀ k, Piece.tag k ∈ ps → k < (preMatches raw).length ∨
          (100 ≤ k ∧ k < 100 + (linkMatches raw).length)) ∧
        raw = unrender (valsOf raw) ps ∧
        fixLinks raw base = unrender (fixedValsOf raw base) ps) ∧
    fixLinks ("X: [L](#a) <pre>[L2](#unchanged)</pre> Y: [L](#a)".toList)
        ("https://reg/-/web/detail/pkg?".toList) =
      ("X: [L](https://reg/-/web/detail/pkg?#a) <pre>[L2](#unchanged)</pre> Y: [L](https://reg/-/web/detail/pkg?#a)".toList) ∧
    (∀ raw base : Str, matchesOf prePat raw = [] → matchesOf linkPat raw = [] →
      fixLinks raw base = raw) := by
  refine ⟨?_, by decide, ?_⟩
  · intro raw base h1 h2 h3 h4 h5 h6 h7
    obtain ⟨ps, ha, hb, hc, hd, _⟩ := fixLinks_pipeline raw base h1 h2 h3 h4 h5 h6 h7
    exact ⟨ps, ha, hb, hc, hd⟩
  · intro raw base hpre hlink
    have h₁ : encodeTagsPreformatted raw = ([], raw) := by
      unfold encodeTagsPreformatted encodeTags
      rw [hpre]
      rfl
    show decodeTags (decodeTags (encodeTagsLinks (encodeTagsPreformatted raw).2).2
      (((encodeTagsLinks (encodeTagsPreformatted raw).2).1).map
        (fun tv => (tv.1, genFixedLink tv.2 base)))) (encodeTagsPreformatted raw).1 = raw
    rw [h₁]
    show decodeTags (decodeTags (encodeTagsLinks raw).2
      (((encodeTagsLinks raw).1).map
        (fun tv => (tv.1, genFixedLink tv.2 base)))) [] = raw
    have h₂ : encodeTagsLinks raw = ([], raw) := by
      unfold encodeTagsLinks encodeTags
      rw [hlink]
      rfl
    rw [h₂]
    rfl

/-- C2 (witness): the amended characterization applied to the concrete
mixed input with one preformatted block and one separate intra-document
link. -/
theorem c2_amended_witness :
    (¬ bangTag <:+: ("<pre>p</pre> [x](#y)".toList : Str)) ∧
    '$' ∉ ("<pre>p</pre> [x](#y)".toList : Str) ∧
    (¬ bangTag <:+: ("B".toList : Str)) ∧
    '$' ∉ ("B".toList : Str) ∧
    (preMatches ("<pre>p</pre> [x](#y)".toList)).length ≤ 100 ∧
    (linkMatches ("<pre>p</pre> [x](#y)".toList)).length ≤ 100 ∧
    (∀ m ∈ linkMatches ("<pre>p</pre> [x](#y)".toList), ¬ bangTag <:+: m) ∧
    (∃ ps : List Piece, altOK ps ∧
      (∀ k, Piece.tag k ∈ ps →
        k < (preMatches ("<pre>p</pre> [x](#y)".toList)).length ∨
        (100 ≤ k ∧
          k < 100 + (linkMatches ("<pre>p</pre> [x](#y)".toList)).length)) ∧
      ("<pre>p</pre> [x](#y)".toList : Str) =
        unrender (valsOf ("<pre>p</pre> [x](#y)".toList)) ps ∧
      fixLinks ("<pre>p</pre> [x](#y)".toList) ("B".toList) =
        unrender (fixedValsOf ("<pre>p</pre> [x](#y)".toList) ("B".toList)) ps) :=
  ⟨by decide, by decide, by decide, by decide, by decide, by decide, by decide,
    c2_amended.1 _ _ (by decide) (by decide) (by decide) (by decide) (by decide)
      (by decide) (by decide)⟩

/-- C3 (counterexample): the marker non-collision invariant is false —
for the input `!TAG!LINK00 [a](#b)` the link pass generates the marker
`!TAG!LINK00`, which occurs literally in the input being masked. -/
theorem c3_counterexample :
    (tagOf linkPref 0, "[a](#b)".toList) ∈
      (encodeTags ("!TAG!LINK00 [a](#b)".toList) linkPat linkPref).1 ∧
    tagOf linkPref 0 <:+: ("!TAG!LINK00 [a](#b)".toList : Str) := by
  exact ⟨by decide, by decide⟩

/-- C3 (amended): for every input that does not already contain the fixed
marker head `!TAG!`, no marker recorded by an `encodeTags` pass (with any
pattern and any category text) occurs as a literal substring of that
input. -/
theorem c3_amended :
    ∀ (raw : Str) (p : GPattern) (pref : Str), ¬ bangTag <:+: raw →
      ∀ t v, (t, v) ∈ (encodeTags raw p pref).1 → ¬ t <:+: raw := by
  intro raw p pref hraw t v hmem hinf
  rw [encodeTags_fst] at hmem
  obtain ⟨j, hj, ht⟩ := expectedTags_mem_char pref (matchesOf p raw) 0 t v hmem
  subst ht
  exact hraw ((inf_of_pre (bangTag_prefix_tagOf pref (0 + j))).trans hinf)

/-- C3 (witness): the amended invariant applied to the concrete marker-free
input `[a](#b)` and the marker the link pass generates for it. -/
theorem c3_amended_witness :
    ¬ bangTag <:+: ("[a](#b)".toList : Str) ∧
    (tagOf linkPref 0, "[a](#b)".toList) ∈
      (encodeTags ("[a](#b)".toList) linkPat linkPref).1 ∧
    ¬ tagOf linkPref 0 <:+: ("[a](#b)".toList : Str) :=
  ⟨by decide, by decide,
    c3_amended _ linkPat linkPref (by decide) _ ("[a](#b)".toList) (by decide)⟩

/-- C4 (counterexample): the unmask order is not commutative — on the
input `[a <pre>b</pre> c](#d)`, whose matched link contains a preformatted
block (so that after the preformatted pass the recorded link text contains
a PREF marker), unmasking LINK then PREF differs from unmasking PREF then
LINK. -/
theorem c4_counterexample :
    fixLinks ("[a <pre>b</pre> c](#d)".toList) ("B".toList) ≠
      fixLinksSwapped ("[a <pre>b</pre> c](#d)".toList) ("B".toList) := by
  decide

/-- C4 (amended): on every well-separated input — free of the marker
head `!TAG!` and of `$`, marker-free and `$`-free base, at most one
hundred matches per pass, no link match containing the marker head — the
two final unmask passes commute: unmasking links then preformatted
blocks (the current order) equals unmasking preformatted blocks then
links (the older revision's order).  They also agree whenever either
marker table is empty, and on the section-8.5 example input. -/
theorem c4_amended :
    (∀ raw base : Str,
      ¬ bangTag <:+: raw → '$' ∉ raw → ¬ bangTag <:+: base → '$' ∉ base →
      (preMatches raw).length ≤ 100 → (linkMatches raw).length ≤ 100 →
      (∀ m ∈ linkMatches raw, ¬ bangTag <:+: m) →
      fixLinks raw base = fixLinksSwapped raw base) ∧
    (∀ raw base : Str, (encodeTagsPreformatted raw).1 = [] →
      fixLinks raw base = fixLinksSwapped raw base) ∧
    (∀ raw base : Str, (encodeTagsLinks (encodeTagsPreformatted raw).2).1 = [] →
      fixLinks raw base = fixLinksSwapped raw base) ∧
    fixLinks ("X: [L](#a) <pre>[L2](#unchanged)</pre> Y: [L](#a)".toList)
        ("https://reg/-/web/detail/pkg?".toList) =
      fixLinksSwapped ("X: [L](#a) <pre>[L2](#unchanged)</pre> Y: [L](#a)".toList)
        ("https://reg/-/web/detail/pkg?".toList) := by
  refine ⟨?_, fun raw base h => ?_, fun raw base h => ?_, by decide⟩
  · intro raw base h1 h2 h3 h4 h5 h6 h7
    obtain ⟨ps, _, _, _, hd, he⟩ := fixLinks_pipeline raw base h1 h2 h3 h4 h5 h6 h7
    rw [hd, he]
  · show decodeTags (decodeTags (encodeTagsLinks (encodeTagsPreformatted raw).2).2
        (((encodeTagsLinks (encodeTagsPreformatted raw).2).1).map
          (fun tv => (tv.1, genFixedLink tv.2 base)))) (encodeTagsPreformatted raw).1 =
      decodeTags (decodeTags (encodeTagsLinks (encodeTagsPreformatted raw).2).2
        (encodeTagsPreformatted raw).1)
        (((encodeTagsLinks (encodeTagsPreformatted raw).2).1).map
          (fun tv => (tv.1, genFixedLink tv.2 base)))
    rw [h]
    rfl
  · show decodeTags (decodeTags (encodeTagsLinks (encodeTagsPreformatted raw).2).2
        (((encodeTagsLinks (encodeTagsPreformatted raw).2).1).map
          (fun tv => (tv.1, genFixedLink tv.2 base)))) (encodeTagsPreformatted raw).1 =
      decodeTags (decodeTags (encodeTagsLinks (encodeTagsPreformatted raw).2).2
        (encodeTagsPreformatted raw).1)
        (((encodeTagsLinks (encodeTagsPreformatted raw).2).1).map
          (fun tv => (tv.1, genFixedLink tv.2 base)))
    rw [h]
    rfl

/-- C4 (witness): the amended commutativity applied to the concrete
input with one preformatted block and one separate intra-document
link. -/
theorem c4_amended_witness :
    (¬ bangTag <:+: ("<pre>a</pre> [b](#c)".toList : Str)) ∧
    '$' ∉ ("<pre>a</pre> [b](#c)".toList : Str) ∧
    (¬ bangTag <:+: ("B".toList : Str)) ∧
    '$' ∉ ("B".toList : Str) ∧
    (preMatches ("<pre>a</pre> [b](#c)".toList)).length ≤ 100 ∧
    (linkMatches ("<pre>a</pre> [b](#c)".toList)).length ≤ 100 ∧
    (∀ m ∈ linkMatches ("<pre>a</pre> [b](#c)".toList), ¬ bangTag <:+: m) ∧
    fixLinks ("<pre>a</pre> [b](#c)".toList) ("B".toList) =
      fixLinksSwapped ("<pre>a</pre> [b](#c)".toList) ("B".toList) :=
  ⟨by decide, by decide, by decide, by decide, by decide, by decide, by decide,
    c4_amended.1 _ _ (by decide) (by decide) (by decide) (by decide) (by decide)
      (by decide) (by decide)⟩

/-- C5: the older revision's `replaceAll` fixpoint loop does not terminate
on inputs the pipeline itself produces.  On the input
`<pre>!TAG!PREF00</pre>` the masking pass records the marker `!TAG!PREF00`
with value `<pre>!TAG!PREF00</pre>` and masks the text to `!TAG!PREF00`,
so the unmask pass calls the loop with a replacement containing its own
search text; each loop iteration then changes the text (the do-while guard
never becomes false), the length after `n` iterations being
`11 + 11 * n`. -/
theorem c5_nontermination :
    encodeTagsPreformatted ("<pre>!TAG!PREF00</pre>".toList) =
      ([(("!TAG!PREF00".toList : Str), "<pre>!TAG!PREF00</pre>".toList)],
        ("!TAG!PREF00".toList : Str)) ∧
    ∀ n : Nat,
      (oldReplaceAllStep ("!TAG!PREF00".toList) ("<pre>!TAG!PREF00</pre>".toList))^[n + 1]
          ("!TAG!PREF00".toList) ≠
        (oldReplaceAllStep ("!TAG!PREF00".toList) ("<pre>!TAG!PREF00</pre>".toList))^[n]
          ("!TAG!PREF00".toList) ∧
      ((oldReplaceAllStep ("!TAG!PREF00".toList) ("<pre>!TAG!PREF00</pre>".toList))^[n]
          ("!TAG!PREF00".toList)).length = 11 + 11 * n := by
  refine ⟨by decide, fun n => ⟨?_, (oldReplaceAll_loop_invariant n).2⟩⟩
  intro heq
  have h₁ := (oldReplaceAll_loop_invariant (n + 1)).2
  rw [heq, (oldReplaceAll_loop_invariant n).2] at h₁
  omega

/-- C6: for every manifest, the first component returned by `genBaseHref`
is exactly the base reference described by the specification: the
registry (the manifest's `publishConfig.registry` when present and
non-empty, the default `http://localhost:4873` otherwise) followed by
the relative web path, the package name (the literal text `undefined`
when the name is absent) and `?`. -/
theorem c6_genBaseHref : ∀ m : Manifest, (genBaseHref m).1 = genBaseHrefSpec m := by
  intro m
  obtain ⟨name, pc⟩ := m
  cases pc with
  | none => cases name <;> rfl
  | some pc₀ =>
    obtain ⟨r⟩ := pc₀
    cases r with
    | none => cases name <;> rfl
    | some s =>
      by_cases h : s = ""
      · subst h
        cases name <;> rfl
      · cases name <;>
          simp [genBaseHref, genBaseHrefSpec, DEFAULT_REGISTRY, REL_WEB_PATH, h]

/-- C7: for every loaded package record and readme text, `updatePackage`
writes back the record with only the `readme` property set to the new
text — reading `readme` on the result yields the new text, reading any
other property is unchanged, and the property order is preserved (with
`readme` appended when it was absent) — serialized by the 2-space-indent
pretty printer `JSON.stringify(…, null, 2)`. -/
theorem c7_updatePackage :
    ∀ (packageObj : JObj) (readmeText : String),
      (updatePackage packageObj readmeText).1 =
        setField packageObj "readme" (JVal.str readmeText) ∧
      (updatePackage packageObj readmeText).2 =
        jsonStringify (JVal.obj (updatePackage packageObj readmeText).1) ∧
      lookupField (updatePackage packageObj readmeText).1 "readme" =
        some (JVal.str readmeText) ∧
      (∀ k, k ≠ "readme" →
        lookupField (updatePackage packageObj readmeText).1 k =
          lookupField packageObj k) ∧
      (updatePackage packageObj readmeText).1.keys =
        (if (JObj.keys packageObj).contains "readme" then JObj.keys packageObj
         else JObj.keys packageObj ++ ["readme"]) := by
  intro r txt
  refine ⟨rfl, rfl, lookupField_setField_same r _ _, ?_, setField_keys r _ _⟩
  intro k hk
  exact lookupField_setField_other r _ k _ hk

/-- C7 (witness): the frame property applied to a concrete one-field
record — the `name` property survives the readme update unchanged. -/
theorem c7_updatePackage_witness :
    ("name" : String) ≠ "readme" ∧
    lookupField (updatePackage (JObj.cons "name" (JVal.str "pkg") JObj.nil)
        "hello").1 "name" =
      lookupField (JObj.cons "name" (JVal.str "pkg") JObj.nil) "name" :=
  ⟨by decide,
    (c7_updatePackage (JObj.cons "name" (JVal.str "pkg") JObj.nil)
      "hello").2.2.2.1 "name" (by decide)⟩

/-- C8: for every script path (which does not itself end in `.md`) and
argument list, the entry script processes `./README.md` when no argument
is given, and when a last argument is given it processes that argument
verbatim exactly when it ends in `.md` compared case-insensitively,
falling back to `./README.md` otherwise. -/
theorem c8_cli :
    ∀ (scriptPath : String) (args : List String),
      endsMdCI scriptPath = false →
      ((args = [] → cliReadmePathname scriptPath args = DEFAULT_README_PATHNAME) ∧
       ∀ p, args.getLast? = some p →
         cliReadmePathname scriptPath args =
           if endsMdCI p then p else DEFAULT_README_PATHNAME) := by
  intro s args hs
  constructor
  · intro h
    subst h
    simp [cliReadmePathname, hs]
  · intro p hp
    have hl : args.getLastD s = p := by
      rw [List.getLastD_eq_getLast?, hp]
      rfl
    show (if endsMdCI (args.getLastD s) then args.getLastD s
      else DEFAULT_README_PATHNAME) = _
    rw [hl]

/-- C8 (witness): the defaulting applied to a concrete script path with no
argument, and to a concrete upper-case `.MD` argument taken verbatim. -/
theorem c8_cli_witness :
    endsMdCI "/usr/local/bin/verdaccio-readme-fixer.js" = false ∧
    cliReadmePathname "/usr/local/bin/verdaccio-readme-fixer.js" [] =
      DEFAULT_README_PATHNAME ∧
    cliReadmePathname "/usr/local/bin/verdaccio-readme-fixer.js" ["doc.MD"] =
      "doc.MD" := by
  refine ⟨by decide,
    (c8_cli "/usr/local/bin/verdaccio-readme-fixer.js" [] (by decide)).1 rfl, ?_⟩
  have h := (c8_cli "/usr/local/bin/verdaccio-readme-fixer.js" ["doc.MD"]
    (by decide)).2 "doc.MD" (by decide)
  rw [h]
  decide

/-- C9 (counterexample): marker unambiguity fails beyond 100 matches — on
a run of 101 letters `a` with the literal pattern `a`, the preformatted
pass generates both the marker `!TAG!PREF10` (index 10) and the marker
`!TAG!PREF100` (index 100), and the former is a proper prefix of the
latter. -/
theorem c9_counterexample :
    ∃ t₁ t₂ : Str,
      t₁ ∈ ((encodeTags (List.replicate 101 'a') (litPat ['a']) prefPref).1).map
        Prod.fst ∧
      t₂ ∈ ((encodeTags (List.replicate 101 'a') (litPat ['a']) prefPref).1).map
        Prod.fst ∧
      t₁ ≠ t₂ ∧ t₁ <+: t₂ := by
  refine ⟨tagOf prefPref 10, tagOf prefPref 100, ?_, ?_, by decide, by decide⟩
  · rw [encodeTags_fst, expectedTags_map_fst, matchesOf_litPat_replicate]
    refine List.mem_map.mpr ⟨10, ?_, by rw [Nat.zero_add]⟩
    simp [List.mem_range]
  · rw [encodeTags_fst, expectedTags_map_fst, matchesOf_litPat_replicate]
    refine List.mem_map.mpr ⟨100, ?_, by rw [Nat.zero_add]⟩
    simp [List.mem_range]

/-- C9 (amended): within a single `encodeTags` pass with at most 100
matches, any two distinct recorded markers have equal length, so neither
is a substring (in particular neither a prefix) of the other. -/
theorem c9_amended :
    ∀ (raw : Str) (p : GPattern) (pref : Str),
      (matchesOf p raw).length ≤ 100 →
      ∀ t₁ v₁ t₂ v₂, (t₁, v₁) ∈ (encodeTags raw p pref).1 →
        (t₂, v₂) ∈ (encodeTags raw p pref).1 → t₁ ≠ t₂ → ¬ t₁ <:+: t₂ := by
  intro raw p pref hn t₁ v₁ t₂ v₂ h₁ h₂ hne hinf
  rw [encodeTags_fst] at h₁ h₂
  obtain ⟨j₁, hj₁, ht₁⟩ := expectedTags_mem_char pref _ 0 t₁ v₁ h₁
  obtain ⟨j₂, hj₂, ht₂⟩ := expectedTags_mem_char pref _ 0 t₂ v₂ h₂
  subst ht₁
  subst ht₂
  have hlt₁ : 0 + j₁ < 100 := by omega
  have hlt₂ : 0 + j₂ < 100 := by omega
  refine hne (hinf.sublist.eq_of_length ?_)
  rw [tagOf_length hlt₁, tagOf_length hlt₂]

/-- C9 (witness): the amended unambiguity applied to the two markers of a
concrete two-link input. -/
theorem c9_amended_witness :
    (matchesOf linkPat ("[a](#b) [c](#d)".toList)).length ≤ 100 ∧
    (tagOf linkPref 0, "[a](#b)".toList) ∈
      (encodeTags ("[a](#b) [c](#d)".toList) linkPat linkPref).1 ∧
    (tagOf linkPref 1, "[c](#d)".toList) ∈
      (encodeTags ("[a](#b) [c](#d)".toList) linkPat linkPref).1 ∧
    tagOf linkPref 0 ≠ tagOf linkPref 1 ∧
    ¬ tagOf linkPref 0 <:+: tagOf linkPref 1 :=
  ⟨by decide, by decide, by decide, by decide,
    c9_amended ("[a](#b) [c](#d)".toList) linkPat linkPref (by decide)
      (tagOf linkPref 0) ("[a](#b)".toList) (tagOf linkPref 1)
      ("[c](#d)".toList) (by decide) (by decide) (by decide)⟩

/-- At a leading occurrence of the search text, the faithful first
replacement inserts the GetSubstitution expansion, with the scanned prefix
as the before-text and the remaining tail as the after-text. -/
theorem replaceFirstFrom_append_self {pat : Str} (hpat : pat ≠ [])
    (tail rep pre : Str) :
    replaceFirstFrom pre (pat ++ tail) pat rep =
      getSubstitution pat pre tail rep ++ tail := by
  match pat, hpat with
  | p :: pat, _ =>
    rw [List.cons_append]
    show (if (p :: pat) ≠ [] ∧ (p :: pat).isPrefixOf (p :: (pat ++ tail)) then
        getSubstitution (p :: pat) pre
          (List.drop ((p :: pat).length - 1) (pat ++ tail)) rep ++
          List.drop ((p :: pat).length - 1) (pat ++ tail)
      else p :: replaceFirstFrom (pre ++ [p]) (pat ++ tail) (p :: pat) rep) = _
    rw [if_pos ⟨by simp, by
      rw [isPrefixOf_iff, ← List.cons_append]
      exact List.prefix_append _ _⟩]
    have hdrop : List.drop ((p :: pat).length - 1) (pat ++ tail) = tail := by
      rw [show (p :: pat).length - 1 = pat.length by simp, List.drop_left]
    rw [hdrop]

/-- The faithful first replacement skips a prefix free of occurrences of
the search text, accumulating it as scanned text. -/
theorem replaceFirstFrom_skip {pat rep : Str} :
    ∀ (a b pre : Str), (∀ i, i < a.length → ¬ pat <+: (a ++ b).drop i) →
      replaceFirstFrom pre (a ++ b) pat rep =
        a ++ replaceFirstFrom (pre ++ a) b pat rep
  | [], b, pre, _ => by simp
  | c :: a, b, pre, h => by
    have h0 : ¬ pat <+: c :: (a ++ b) := by
      have := h 0 (by simp)
      simpa using this
    rw [List.cons_append]
    show (if pat ≠ [] ∧ pat.isPrefixOf (c :: (a ++ b)) then
        getSubstitution pat pre
          (List.drop (pat.length - 1) (a ++ b)) rep ++
          List.drop (pat.length - 1) (a ++ b)
      else c :: replaceFirstFrom (pre ++ [c]) (a ++ b) pat rep) = _
    rw [if_neg (fun hc => h0 (isPrefixOf_iff.mp hc.2))]
    rw [replaceFirstFrom_skip a b (pre ++ [c]) (fun i hi => by
      have := h (i + 1) (by simpa using Nat.succ_lt_succ hi)
      simpa using this)]
    simp

/-- A dollar-free base makes the inserted replacement text of
`genFixedLink` dollar-free. -/
theorem dollar_not_in_fixRep {base : Str} (hd : '$' ∉ base) :
    '$' ∉ ('(' :: base ++ ['#'] : Str) := by
  intro hc
  rcases List.mem_cons.mp hc with h | h
  · exact absurd h (by decide)
  · rcases List.mem_append.mp h with h | h
    · exact hd h
    · exact absurd (List.mem_singleton.mp h) (by decide)

/-- No occurrence of `(#` begins in or straddles out of a part free of
`(#`. -/
theorem fixSkip {a : Str} (ha : ¬ (['(', '#'] <:+: a)) (b : Str) :
    ∀ i, i < a.length → ¬ (['(', '#'] : Str) <+: (a ++ '(' :: '#' :: b).drop i := by
  intro i hi hp
  rw [List.drop_append_eq_append_drop,
    Nat.sub_eq_zero_of_le (Nat.le_of_lt hi), List.drop_zero] at hp
  by_cases hlen : 2 ≤ (List.drop i a).length
  · have hpa : (['(', '#'] : Str) <+: List.drop i a :=
      prefix_of_append_of_le hp hlen
    exact ha ((inf_of_pre hpa).trans (inf_of_suf (List.drop_suffix i a)))
  · have hlen1 : (List.drop i a).length = 1 := by
      rw [List.length_drop] at hlen ⊢
      omega
    match hda : List.drop i a with
    | [] => rw [hda] at hlen1; simp at hlen1
    | c :: [] =>
      rw [hda, List.cons_append, List.nil_append] at hp
      have h₁ := (List.cons_prefix_cons.mp hp).2
      have h₂ := (List.cons_prefix_cons.mp h₁).1
      exact absurd h₂ (by decide)
    | c :: d :: cs =>
      rw [hda] at hlen1
      simp at hlen1

/-- C10 (counterexample): the literal-insertion reading is false — with a
base containing the dollar pattern `$&`, `String.prototype.replace`
expands the pattern, so `genFixedLink` on `[x](#y)` with base `$&` yields
`[x]((##y)` and not the literal insertion `[x]($&#y)`. -/
theorem c10_counterexample :
    genFixedLink ("[x](#y)".toList) ("$&".toList) = "[x]((##y)".toList ∧
    genFixedLink ("[x](#y)".toList) ("$&".toList) ≠ "[x]($&#y)".toList := by
  exact ⟨by decide, by decide⟩

/-- C10 (amended): `genFixedLink` rewrites exactly the first occurrence of
`(#` in the matched link — on any split of the link as `a`, then `(#`,
then `b`, with no occurrence of `(#` inside or straddling `a`, the text
inserted at that occurrence is the GetSubstitution expansion of
`(` + base + `#` (with `a` as before-text and `b` as after-text), which is
the literal insertion of the base exactly when the base contains no
dollar; the link pattern does match links whose label contains `(#`
(shown on the concrete match `[a (#x](#y)`), and on such a link a
dollar-free base is inserted inside the label while the `(#` opening the
fragment target is left unchanged. -/
theorem c10_amended :
    (∀ a b base : Str, ¬ (['(', '#'] <:+: a) →
      genFixedLink (a ++ '(' :: '#' :: b) base =
        a ++ getSubstitution ['(', '#'] a b ('(' :: base ++ ['#']) ++ b) ∧
    (∀ a b base : Str, ¬ (['(', '#'] <:+: a) → '$' ∉ base →
      genFixedLink (a ++ '(' :: '#' :: b) base = a ++ '(' :: base ++ '#' :: b) ∧
    matchesOf linkPat ("[a (#x](#y)".toList) = ["[a (#x](#y)".toList] ∧
    (∀ base : Str, '$' ∉ base → genFixedLink ("[a (#x](#y)".toList) base =
      "[a ".toList ++ '(' :: base ++ '#' :: "x](#y)".toList) := by
  have hmain : ∀ a b base : Str, ¬ (['(', '#'] <:+: a) →
      genFixedLink (a ++ '(' :: '#' :: b) base =
        a ++ getSubstitution ['(', '#'] a b ('(' :: base ++ ['#']) ++ b := by
    intro a b base ha
    show replaceFirstFrom [] (a ++ '(' :: '#' :: b) ['(', '#']
      ('(' :: base ++ ['#']) = _
    rw [replaceFirstFrom_skip a ('(' :: '#' :: b) [] (fixSkip ha b)]
    rw [show ('(' :: '#' :: b : Str) = ['(', '#'] ++ b from rfl]
    rw [replaceFirstFrom_append_self (by simp) b ('(' :: base ++ ['#']) ([] ++ a)]
    rw [List.nil_append, List.append_assoc]
  have hlit : ∀ a b base : Str, ¬ (['(', '#'] <:+: a) → '$' ∉ base →
      genFixedLink (a ++ '(' :: '#' :: b) base = a ++ '(' :: base ++ '#' :: b := by
    intro a b base ha hd
    rw [hmain a b base ha,
      getSubstitution_no_dollar _ _ _ _ (dollar_not_in_fixRep hd)]
    simp [List.append_assoc]
  refine ⟨hmain, hlit, by decide, fun base hd => ?_⟩
  rw [show ("[a (#x](#y)".toList : Str) =
    "[a ".toList ++ '(' :: '#' :: "x](#y)".toList from by decide]
  exact hlit _ _ base (by decide) hd

/-- C10 (witness): the first-occurrence placement applied to a concrete
split with an occurrence-free label part and a dollar-free base. -/
theorem c10_amended_witness :
    ¬ ((['(', '#'] : Str) <:+: ("[lbl]".toList : Str)) ∧
    '$' ∉ ("BASE".toList : Str) ∧
    genFixedLink ("[lbl]".toList ++ '(' :: '#' :: "frag)".toList) ("BASE".toList) =
      "[lbl]".toList ++ '(' :: "BASE".toList ++ '#' :: "frag)".toList :=
  ⟨by decide, by decide, c10_amended.2.1 _ _ _ (by decide) (by decide)⟩
